import Mathlib

/-!
# CTR-mode stream adapters (`fast_io_impl/crypto/ctr.h`)

A shallow embedding of the two class templates of `ctr.h`:

* `basic_octr` : the encrypting write adapter (`encrypt_out`, `write_remain`, `flush`,
  `writes`, `put`, and the move constructor);
* `basic_ictr` : the decrypting read adapter (`mread`, `reads`, `get`, `try_get`, `seek`).

Conventions of the embedding.

* A byte (`unsigned_char_type`) is a natural number; a `std::array` of bytes is a list whose
  length is the array size, and an iterator into it is the index of the element it points to
  (`begin()` is `0`, `end()` is the array size).
* `std::size_t` values are natural numbers below `2 ^ (8 * sizeof(std::size_t))`; each
  arithmetic operation the source performs on one is reduced modulo that bound.
* The cipher template parameter `Enc` is not part of the header: it is a parameter
  (`cipher_type`) providing `block_size` and the block function.
* The underlying sink records the bytes written to it; the underlying source is a finite byte
  sequence with a read position, whose `reads` fills the request unless the bytes run out.
* A range of memory passed to `writes` is the address of its first byte together with its
  bytes (`input_range`); an address is a `std::size_t` value and pointer arithmetic wraps
  around like arithmetic on `std::size_t`. A call that reads outside the range it was given
  does not return: its result is `none`.
-/

namespace Ctr

/-- The byte type `std::make_unsigned_t<char_type>`. -/
abbrev unsigned_char_type : Type := Nat

/-- The array type `std::array<unsigned_char_type, N>`, as the list of its elements. -/
abbrev block_type : Type := List unsigned_char_type

/-- The template parameter `Enc` together with the platform constant `sizeof(std::size_t)`.
`enc key block` is the value of `Enc(key.data())(block.data())`: the cipher is constructed from
the key and maps a block to an array of `block_size` bytes. -/
structure cipher_type where
  /-- `cipher_type::block_size`. -/
  block_size : Nat
  /-- `sizeof(std::size_t)`. -/
  sizeof_size_t : Nat
  /-- The block function of the cipher constructed from a key. -/
  enc : block_type → block_type → block_type
  /-- A block holds at least one byte. -/
  block_size_pos : 0 < block_size
  /-- The block function returns an array of `block_size` bytes. -/
  enc_size : ∀ key block, (enc key block).length = block_size

/-- The number of values of `std::size_t`. -/
def size_t_card (E : cipher_type) : Nat := 2 ^ (8 * E.sizeof_size_t)

/-- Reduction of an arithmetic result to `std::size_t`. -/
def to_size_t (E : cipher_type) (n : Nat) : Nat := n % size_t_card E

/-- The value of `n - 1` computed on `std::size_t` (wraps around at `0`). -/
def size_t_pred (E : cipher_type) (n : Nat) : Nat :=
  (n % size_t_card E + (size_t_card E - 1)) % size_t_card E

/-- The object representation of a `std::size_t`, as copied by
`memcpy(..., &block_counter, sizeof(std::size_t))`: `sizeof(std::size_t)` bytes in the machine
byte order (least significant byte first). -/
def size_t_bytes (E : cipher_type) (n : Nat) : block_type :=
  (List.range E.sizeof_size_t).map fun j => n / 256 ^ j % 256

/-- The counter block `nonce ++ bytes(block_counter)` built by the two `memcpy` calls and the
value `enc(block.data())` computed from it. -/
def keystream (E : cipher_type) (key nonce : block_type) (block_counter : Nat) : block_type :=
  E.enc key (nonce ++ size_t_bytes E block_counter)

/-- The loop `for (i = 0; i != cipher.size(); ++i) cipher[i] ^= v[i]`. -/
def xor_block (cipher v : block_type) : block_type :=
  List.zipWith (fun a b => a ^^^ b) cipher v

/-- The effect of `std::uninitialized_copy(first, last, buf.begin() + off)` on the array `buf`,
where `src` is the range `[first, last)`. -/
def uninitialized_copy (buf : block_type) (off : Nat) (src : block_type) : block_type :=
  buf.take off ++ src ++ buf.drop (off + src.length)

/-! ## The underlying streams -/

/-- The underlying sink `ob`: the bytes received so far and the number of `flush` calls. -/
structure sink where
  /-- The bytes written so far, in order. -/
  bytes : List unsigned_char_type
  /-- The number of times `flush` was called. -/
  flushes : Nat
deriving DecidableEq

/-- The call `ob.writes(first, last)`. -/
def sink.writes (ob : sink) (src : block_type) : sink :=
  { ob with bytes := ob.bytes ++ src }

/-- The call `ob.flush()`. -/
def sink.flush (ob : sink) : sink :=
  { ob with flushes := ob.flushes + 1 }

/-- The underlying source `ib`: a finite byte sequence and the current read position. -/
structure source where
  /-- The bytes of the stream. -/
  data : List unsigned_char_type
  /-- The read position. -/
  pos : Nat
deriving DecidableEq

/-- The call `ib.reads(first, first + n)`: the bytes obtained (the request is filled unless the
bytes run out) and the source afterwards. -/
def source.reads (ib : source) (n : Nat) : block_type × source :=
  let got := (ib.data.drop ib.pos).take n
  (got, { ib with pos := ib.pos + got.length })

/-- The call `ib.seek(offset, seekdir::beg)`: the source accepts the offset and returns it. -/
def source.seek (ib : source) (offset : Nat) : source × Nat :=
  ({ ib with pos := offset }, offset)

/-! ## The encrypt adapter `basic_octr` -/

/-- The data members of `basic_octr` (the cipher object `enc` is determined by `key`). -/
structure basic_octr where
  /-- The accumulator array. -/
  plaintext_buf : block_type
  /-- The index the iterator `plaintext_buf_pos` points to. -/
  plaintext_buf_pos : Nat
  /-- The key. -/
  key : block_type
  /-- The nonce. -/
  nonce : block_type
  /-- The byte counter. -/
  char_counter : Nat
  /-- The underlying sink. -/
  ob : sink
deriving DecidableEq

/-- The constructor `basic_octr(init_key, nonce, args...)`, the sink being freshly constructed. -/
def basic_octr.init (E : cipher_type) (key nonce : block_type) : basic_octr :=
  { plaintext_buf := List.replicate E.block_size 0
    plaintext_buf_pos := 0
    key := key
    nonce := nonce
    char_counter := 0
    ob := { bytes := [], flushes := 0 } }

/-- The member `encrypt_out(v, block_counter)`: writes `enc(nonce ++ block_counter) ^ v` to the
sink. -/
def basic_octr.encrypt_out (E : cipher_type) (s : basic_octr) (v : block_type)
    (block_counter : Nat) : basic_octr :=
  { s with ob := s.ob.writes (xor_block (keystream E s.key s.nonce block_counter) v) }

/-- The member `write_remain()`. -/
def basic_octr.write_remain (E : cipher_type) (s : basic_octr) : basic_octr :=
  if s.plaintext_buf_pos ≠ 0 then
    let filled : block_type :=
      s.plaintext_buf.take s.plaintext_buf_pos ++
        List.replicate (E.block_size - s.plaintext_buf_pos) 0
    let block_counter := s.char_counter / E.block_size
    let s1 := ({ s with plaintext_buf := filled }).encrypt_out E filled block_counter
    { s1 with
      plaintext_buf_pos := 0
      char_counter := to_size_t E (to_size_t E (block_counter + 1) * E.block_size) }
  else s

/-- The member `flush()`. -/
def basic_octr.flush (E : cipher_type) (s : basic_octr) : basic_octr :=
  let s1 := s.write_remain E
  { s1 with ob := s1.ob.flush }

/-- A range `[b, e)` of bytes in memory, as passed to `writes`: the address of its first byte
and the bytes stored in it. An address is a `std::size_t` value (a pointer has the width of
`std::size_t`); `0` is the address held by a null pointer. -/
structure input_range where
  /-- The address `pb`, the value of `std::to_address(b)`. -/
  pb : Nat
  /-- The bytes stored at the addresses `pb`, ..., `pe - 1`. -/
  bytes : block_type
deriving DecidableEq

/-- The address `pe`, one past the last byte of the range. -/
def input_range.pe (input : input_range) : Nat := input.pb + input.bytes.length

/-- The pointer `last_length = pe - cipher_type::block_size` of `writes`. The subtraction is
done on the address: when `pe` is below `block_size`, as it is for the range of a null pointer,
the result wraps around the address space. -/
def last_length (E : cipher_type) (pe : Nat) : Nat :=
  if E.block_size ≤ pe then pe - E.block_size
  else to_size_t E (pe + (size_t_card E - 1) * E.block_size)

/-- The loop `for (last_length = pe - block_size; pi <= last_length; pi += block_size,
char_counter += block_size)` of `writes`. The pointer `pi` is given by the bytes of `[pi, pe)`,
its address being `pe - (pe - pi)`; the test `pi <= last_length` compares addresses. The body
calls `encrypt_out(pi, block_counter)`, which reads the `block_size` bytes at `pi`: when fewer
than `block_size` bytes are left in the range the read leaves the range, and the call of
`writes` does not return (`none`). The first argument bounds the number of tests; `writes`
passes one more than the input length, which is never exhausted. The result is the adapter and
the range `[pi, pe)` left over. -/
def basic_octr.writes_loop (E : cipher_type) :
    Nat → basic_octr → Nat → Nat → block_type → Option (basic_octr × block_type)
  | 0, s, _, _, pi => some (s, pi)
  | fuel + 1, s, block_counter, pe, pi =>
    if pe - pi.length ≤ last_length E pe then
      if E.block_size ≤ pi.length then
        let s1 := s.encrypt_out E pi block_counter
        basic_octr.writes_loop E fuel
          { s1 with char_counter := to_size_t E (s1.char_counter + E.block_size) }
          (to_size_t E (block_counter + 1)) pe (pi.drop E.block_size)
      else none
    else some (s, pi)

/-- The part of `writes` after the accumulator has been dealt with: the block loop and the copy
of the tail into the accumulator. The range `[pi, pe)` is given by the address `pe` and its
bytes. -/
def basic_octr.writes_blocks (E : cipher_type) (s : basic_octr) (pe : Nat) (pi : block_type) :
    Option basic_octr :=
  match basic_octr.writes_loop E (pi.length + 1) s (s.char_counter / E.block_size) pe pi with
  | none => none
  | some r =>
    some { r.1 with
           plaintext_buf := uninitialized_copy r.1.plaintext_buf 0 r.2
           plaintext_buf_pos := r.2.length
           char_counter := to_size_t E (r.1.char_counter + r.2.length) }

/-- The member `writes(b, e)` on the range `input`; `none` when the call reads outside the
range and does not return. -/
def basic_octr.writes (E : cipher_type) (s : basic_octr) (input : input_range) :
    Option basic_octr :=
  if s.plaintext_buf_pos ≠ 0 then
    let min_length := min (E.block_size - s.plaintext_buf_pos) input.bytes.length
    let s1 : basic_octr :=
      { s with
        plaintext_buf :=
          uninitialized_copy s.plaintext_buf s.plaintext_buf_pos (input.bytes.take min_length)
        plaintext_buf_pos := s.plaintext_buf_pos + min_length
        char_counter := to_size_t E (s.char_counter + min_length) }
    if s1.plaintext_buf_pos ≠ E.block_size then some s1
    else
      let s2 := s1.encrypt_out E s1.plaintext_buf (size_t_pred E (s1.char_counter / E.block_size))
      basic_octr.writes_blocks E { s2 with plaintext_buf_pos := 0 } input.pe
        (input.bytes.drop min_length)
  else basic_octr.writes_blocks E s input.pe input.bytes

/-- The member `put(ch)`. -/
def basic_octr.put (E : cipher_type) (s : basic_octr) (ch : unsigned_char_type) : basic_octr :=
  let s1 : basic_octr :=
    if s.plaintext_buf_pos = E.block_size then
      { s.encrypt_out E s.plaintext_buf (size_t_pred E (s.char_counter / E.block_size)) with
        plaintext_buf_pos := 0 }
    else s
  { s1 with
    plaintext_buf := s1.plaintext_buf.set s1.plaintext_buf_pos ch
    plaintext_buf_pos := s1.plaintext_buf_pos + 1
    char_counter := to_size_t E (s1.char_counter + 1) }

/-! ## The decrypt adapter `basic_ictr` -/

/-- The data members of `basic_ictr` (the cipher object `enc` is determined by `key`). -/
structure basic_ictr where
  /-- The staging array of ciphertext bytes. -/
  cipher_buf : block_type
  /-- The index the iterator `cipher_buf_pos` points to. -/
  cipher_buf_pos : Nat
  /-- The overflow array of decrypted bytes. -/
  plaintext_buf : block_type
  /-- The index the iterator `plaintext_buf_pos` points to. -/
  plaintext_buf_pos : Nat
  /-- The key. -/
  key : block_type
  /-- The nonce. -/
  nonce : block_type
  /-- The byte counter. -/
  char_counter : Nat
  /-- The underlying source. -/
  ib : source
deriving DecidableEq

/-- The constructor `basic_ictr(init_key, nonce, args...)` over the source `ib`. -/
def basic_ictr.init (E : cipher_type) (key nonce : block_type) (ib : source) : basic_ictr :=
  { cipher_buf := List.replicate E.block_size 0
    cipher_buf_pos := 0
    plaintext_buf := List.replicate E.block_size 0
    plaintext_buf_pos := 0
    key := key
    nonce := nonce
    char_counter := 0
    ib := ib }

/-- The loop `for (; pi != pe;)` of `mread`. The first argument bounds the number of
iterations (`mread` passes one more than the room left, which is never exhausted), the third is
the room `pe - pi` left in the destination. The result is the adapter and the bytes stored
through `pi`. -/
def basic_ictr.mread_loop (E : cipher_type) :
    Nat → basic_ictr → Nat → basic_ictr × block_type
  | 0, s, _ => (s, [])
  | fuel + 1, s, room =>
    if room = 0 then (s, [])
    else
      let r := s.ib.reads (E.block_size - s.cipher_buf_pos)
      let s1 : basic_ictr :=
        { s with
          cipher_buf := uninitialized_copy s.cipher_buf s.cipher_buf_pos r.1
          cipher_buf_pos := s.cipher_buf_pos + r.1.length
          char_counter := to_size_t E (s.char_counter + r.1.length)
          ib := r.2 }
      if s1.cipher_buf_pos ≠ E.block_size then (s1, [])
      else
        let block_counter := size_t_pred E (s1.char_counter / E.block_size)
        let plain := xor_block (keystream E s1.key s1.nonce block_counter) s1.cipher_buf
        let s2 : basic_ictr := { s1 with cipher_buf_pos := 0 }
        let available_out_space := room
        if available_out_space < E.block_size then
          ({ s2 with
             plaintext_buf :=
               uninitialized_copy s2.plaintext_buf 0 (plain.drop available_out_space)
             plaintext_buf_pos := (plain.drop available_out_space).length },
           plain.take available_out_space)
        else
          let r3 := basic_ictr.mread_loop E fuel s2 (room - E.block_size)
          (r3.1, plain ++ r3.2)

/-- The member `mread(pb, pe)` for a destination of `input_length = pe - pb` bytes: the adapter
afterwards and the bytes stored in `[pb, pi)`, `pi` being the returned pointer. -/
def basic_ictr.mread (E : cipher_type) (s : basic_ictr) (input_length : Nat) :
    basic_ictr × block_type :=
  if s.plaintext_buf_pos ≠ 0 then
    let buffer_length := s.plaintext_buf_pos
    let min_length := if buffer_length < input_length then buffer_length else input_length
    let out := s.plaintext_buf.take min_length
    let plaintext_remain_length := s.plaintext_buf_pos - min_length
    if plaintext_remain_length ≠ 0 then
      ({ s with
         plaintext_buf :=
           uninitialized_copy s.plaintext_buf 0
             ((s.plaintext_buf.drop min_length).take plaintext_remain_length)
         plaintext_buf_pos := plaintext_remain_length },
       out)
    else
      let r := basic_ictr.mread_loop E (input_length - min_length + 1)
        { s with plaintext_buf_pos := 0 } (input_length - min_length)
      (r.1, out ++ r.2)
  else basic_ictr.mread_loop E (input_length + 1) s input_length

/-- The member `reads(begin, end)` for a destination of `n` bytes: the adapter afterwards and
the bytes stored in `[begin, ret)`, `ret` being the returned iterator. -/
def basic_ictr.reads (E : cipher_type) (s : basic_ictr) (n : Nat) : basic_ictr × block_type :=
  s.mread E n

/-- What a call of `get` does: it returns a byte, throws `eof`, or reads the element
`*plaintext_buf.end()` that lies outside the array. -/
inductive get_result where
  /-- The call returns the byte. -/
  | value (ch : unsigned_char_type)
  /-- The call throws `eof()`. -/
  | eof
  /-- The call dereferences `plaintext_buf.end()`. -/
  | past_the_end
deriving DecidableEq

/-- The element `*plaintext_buf_pos` read by `get` and `try_get`. -/
def basic_ictr.deref_plaintext_buf_pos (s : basic_ictr) : get_result :=
  match s.plaintext_buf.get? s.plaintext_buf_pos with
  | some ch => get_result.value ch
  | none => get_result.past_the_end

/-- The statements of `get` and `try_get` after the element is read: the iterator is reset when
it equals `plaintext_buf.end()`, and incremented otherwise. -/
def basic_ictr.advance_plaintext_buf_pos (E : cipher_type) (s : basic_ictr) : basic_ictr :=
  if s.plaintext_buf_pos = E.block_size then { s with plaintext_buf_pos := 0 }
  else { s with plaintext_buf_pos := s.plaintext_buf_pos + 1 }

/-- The member `get()`. -/
def basic_ictr.get (E : cipher_type) (s : basic_ictr) : basic_ictr × get_result :=
  if s.plaintext_buf_pos = 0 then
    let r := s.reads E 1
    match r.2 with
    | [ch] => (r.1, get_result.value ch)
    | _ => (r.1, get_result.eof)
  else (s.advance_plaintext_buf_pos E, s.deref_plaintext_buf_pos)

/-- The member `try_get()`: the pair `(ch, eof)` is returned unless the element read lies
outside the array. -/
def basic_ictr.try_get (E : cipher_type) (s : basic_ictr) :
    basic_ictr × Option (unsigned_char_type × Bool) :=
  if s.plaintext_buf_pos = 0 then
    let r := s.reads E 1
    match r.2 with
    | [ch] => (r.1, some (ch, false))
    | _ => (r.1, some (0, true))
  else
    (s.advance_plaintext_buf_pos E,
      match s.deref_plaintext_buf_pos with
      | get_result.value ch => some (ch, false)
      | _ => none)

/-- The member `seek(offset, seekdir::beg)`: the adapter afterwards and the returned offset, or
`none` when `eof()` is thrown. The uninitialised elements of the local array `tmp` that
`ib.reads` does not fill are taken to be `0`. -/
def basic_ictr.seek (E : cipher_type) (s : basic_ictr) (offset : Nat) : basic_ictr × Option Nat :=
  let r := s.ib.seek offset
  let ret := r.2
  let pos_rel_to_begin := to_size_t E ret
  let counter_pos := pos_rel_to_begin / E.block_size
  let char_pos_block_aligned := to_size_t E (counter_pos * E.block_size)
  if pos_rel_to_begin = char_pos_block_aligned then
    ({ s with
       ib := r.1
       cipher_buf_pos := 0
       plaintext_buf_pos := 0
       char_counter := pos_rel_to_begin },
     some ret)
  else
    let read_length := pos_rel_to_begin - char_pos_block_aligned
    let ib2 := (r.1.seek char_pos_block_aligned).1
    let got := ib2.reads read_length
    if got.1.length ≠ read_length then ({ s with ib := got.2 }, none)
    else
      let tmp := uninitialized_copy (List.replicate E.block_size 0) 0 got.1
      let s1 : basic_ictr :=
        { s with
          ib := got.2
          cipher_buf := tmp
          cipher_buf_pos := read_length
          plaintext_buf_pos := 0
          char_counter := pos_rel_to_begin }
      ((s1.reads E read_length).1, some ret)

/-! ## A concrete cipher for evaluating the adapters -/

/-- A block function of `n + 1` bytes, with a `std::size_t` of `w` bytes: byte `i` of the
output is `key[i] + (i + 1) * (sum of the input bytes) + 17 * i`, reduced to a byte. -/
def sum_cipher (n w : Nat) : cipher_type :=
  { block_size := n + 1
    sizeof_size_t := w
    enc := fun key block =>
      (List.range (n + 1)).map fun i => (key.getD i 0 + (i + 1) * block.sum + 17 * i) % 256
    block_size_pos := Nat.succ_pos n
    enc_size := fun _ _ => by simp }

/-! ## Reference functions and state descriptions used by the theorems -/

/-- A block zero-padded to `block_size` bytes. -/
def zero_pad (E : cipher_type) (v : block_type) : block_type :=
  v ++ List.replicate (E.block_size - v.length) 0

/-- The number of blocks needed for `n` bytes: `ceil(n / block_size)`. -/
def block_count (E : cipher_type) (n : Nat) : Nat :=
  (n + E.block_size - 1) / E.block_size

/-- Block `i` of a byte sequence, zero-padded to a block boundary. -/
def padded_block (E : cipher_type) (P : block_type) (i : Nat) : block_type :=
  zero_pad E ((P.drop (i * E.block_size)).take E.block_size)

/-- The reference CTR transformation, in the words of the specification: the sequence of
`ceil(|P| / block_size)` blocks in which block `i` is the elementwise XOR of
`E(nonce ++ bytes(i))` with block `i` of `P` zero-padded to a block boundary. -/
def ctr_reference (E : cipher_type) (key nonce P : block_type) : block_type :=
  (List.range (block_count E P.length)).flatMap fun i =>
    xor_block (E.enc key (nonce ++ size_t_bytes E i)) (padded_block E P i)

/-- The first `n` zero-padded blocks of `xs`, XORed with the keystream blocks of index
`i, i + 1, ...`. -/
def ctr_from (E : cipher_type) (key nonce : block_type) : Nat → Nat → block_type → block_type
  | _, 0, _ => []
  | i, n + 1, xs =>
    xor_block (keystream E key nonce i) (zero_pad E (xs.take E.block_size)) ++
      ctr_from E key nonce (i + 1) n (xs.drop E.block_size)

/-- The first `n` blocks of `xs` as `mread` decrypts them when the byte counter reaches `c` at
the end of the first block: the block index is `c / block_size - 1` and the counter advances by
`block_size` per block, both computed on `std::size_t`. -/
def dec_blocks (E : cipher_type) (key nonce : block_type) : Nat → Nat → block_type → block_type
  | _, 0, _ => []
  | c, n + 1, xs =>
    xor_block (keystream E key nonce (size_t_pred E (c / E.block_size))) (xs.take E.block_size) ++
      dec_blocks E key nonce (to_size_t E (c + E.block_size)) n (xs.drop E.block_size)

/-- The bytes waiting in the overflow buffer of a decrypt adapter. -/
def basic_ictr.overflow (s : basic_ictr) : block_type :=
  s.plaintext_buf.take s.plaintext_buf_pos

/-- The ciphertext bytes held in the staging buffer of a decrypt adapter. -/
def basic_ictr.staged (s : basic_ictr) : block_type :=
  s.cipher_buf.take s.cipher_buf_pos

/-- The bytes the source of a decrypt adapter has left. -/
def basic_ictr.remaining (s : basic_ictr) : block_type :=
  s.ib.data.drop s.ib.pos

/-- The plaintext a decrypt adapter has still to deliver: the overflow bytes followed by the
decryption of the whole blocks formed by the staged bytes and the rest of the source. -/
def basic_ictr.pending (E : cipher_type) (s : basic_ictr) : block_type :=
  s.overflow ++
    dec_blocks E s.key s.nonce (to_size_t E (s.char_counter + (E.block_size - s.cipher_buf_pos)))
      ((s.staged ++ s.remaining).length / E.block_size) (s.staged ++ s.remaining)

/-- The shape of the data members of `basic_ictr`: both arrays have `block_size` elements and
both iterators point into their array or to its end. -/
structure basic_ictr.wf (E : cipher_type) (s : basic_ictr) : Prop where
  /-- `cipher_buf` is a `block_type`. -/
  cipher_buf_size : s.cipher_buf.length = E.block_size
  /-- `plaintext_buf` is a `block_type`. -/
  plaintext_buf_size : s.plaintext_buf.length = E.block_size
  /-- `cipher_buf_pos` lies in `[begin, end]`. -/
  cipher_buf_pos_le : s.cipher_buf_pos ≤ E.block_size
  /-- `plaintext_buf_pos` lies in `[begin, end]`. -/
  plaintext_buf_pos_le : s.plaintext_buf_pos ≤ E.block_size

/-- A call of `reads` or `seek` on a decrypt adapter. -/
inductive ictr_call where
  /-- The call `reads(dst, dst + n)`. -/
  | reads (n : Nat)
  /-- The call `seek(offset, seekdir::beg)`. -/
  | seek (offset : Nat)
deriving DecidableEq

/-- The adapter after one call (a `seek` that throws leaves the adapter as it is at the
throw). -/
def basic_ictr.call (E : cipher_type) (s : basic_ictr) : ictr_call → basic_ictr
  | ictr_call.reads n => (s.reads E n).1
  | ictr_call.seek offset => (s.seek E offset).1

/-- The adapter after a sequence of calls. -/
def basic_ictr.calls (E : cipher_type) (s : basic_ictr) (cs : List ictr_call) : basic_ictr :=
  cs.foldl (basic_ictr.call E) s

/-- Successive `reads` calls with destinations of the given lengths: the adapter afterwards and
the concatenation of the bytes returned. -/
def basic_ictr.reads_seq (E : cipher_type) : basic_ictr → List Nat → basic_ictr × block_type
  | s, [] => (s, [])
  | s, n :: ns =>
    let r := s.reads E n
    let r2 := basic_ictr.reads_seq E r.1 ns
    (r2.1, r.2 ++ r2.2)

/-- Successive `get` calls: the results of the first `n` calls, in order. -/
def basic_ictr.get_seq (E : cipher_type) : basic_ictr → Nat → List get_result
  | _, 0 => []
  | s, n + 1 => (s.get E).2 :: basic_ictr.get_seq E (s.get E).1 n

/-- Successive `writes` calls, one per range; a call that does not return ends the sequence. -/
def basic_octr.writes_seq (E : cipher_type) : basic_octr → List input_range → Option basic_octr
  | s, [] => some s
  | s, input :: chunks =>
    match s.writes E input with
    | some s1 => basic_octr.writes_seq E s1 chunks
    | none => none

/-- The bytes of a list of ranges, one range after the other. -/
def input_bytes (chunks : List input_range) : block_type :=
  (chunks.map input_range.bytes).flatten

/-- Successive `put` calls, one per byte. -/
def basic_octr.put_seq (E : cipher_type) (s : basic_octr) (P : block_type) : basic_octr :=
  P.foldl (basic_octr.put E) s

/-- The state of an encrypt adapter that has consumed the plaintext `F ++ T` by `writes`
calls: the whole blocks `F` have been emitted and the tail `T` waits in the accumulator. -/
structure basic_octr.holds (E : cipher_type) (key nonce F T : block_type) (s : basic_octr) :
    Prop where
  /-- `plaintext_buf` is a `block_type`. -/
  plaintext_buf_size : s.plaintext_buf.length = E.block_size
  /-- The emitted part consists of whole blocks. -/
  emitted_blocks : F.length % E.block_size = 0
  /-- The tail is shorter than a block. -/
  tail_short : T.length < E.block_size
  /-- The accumulator holds the tail. -/
  tail_eq : s.plaintext_buf.take s.plaintext_buf_pos = T
  /-- The iterator points behind the tail. -/
  pos_eq : s.plaintext_buf_pos = T.length
  /-- The byte counter is the number of bytes consumed. -/
  counter_eq : s.char_counter = F.length + T.length
  /-- The key is unchanged. -/
  key_eq : s.key = key
  /-- The nonce is unchanged. -/
  nonce_eq : s.nonce = nonce
  /-- The sink has received the whole blocks, encrypted with the indices `0, 1, ...`. -/
  sink_eq : s.ob.bytes = ctr_from E key nonce 0 (F.length / E.block_size) F

/-! ## Sequences of public calls -/

/-- A call of a public member function of `basic_ictr`. -/
inductive ictr_op where
  /-- The call `reads(dst, dst + n)`. -/
  | reads (n : Nat)
  /-- The call `get()`. -/
  | get
  /-- The call `try_get()`. -/
  | try_get
  /-- The call `seek(offset, seekdir::beg)`. -/
  | seek (offset : Nat)
deriving DecidableEq

/-- The decrypt adapter after one public call (a call that throws leaves the adapter as it is
at the throw). -/
def basic_ictr.step (E : cipher_type) (s : basic_ictr) : ictr_op → basic_ictr
  | ictr_op.reads n => (s.reads E n).1
  | ictr_op.get => (s.get E).1
  | ictr_op.try_get => (s.try_get E).1
  | ictr_op.seek offset => (s.seek E offset).1

/-- The decrypt adapter after a sequence of public calls. -/
def basic_ictr.run (E : cipher_type) (s : basic_ictr) (ops : List ictr_op) : basic_ictr :=
  ops.foldl (basic_ictr.step E) s

/-- Whether every `seek` of a sequence of `reads` and `seek` calls returns normally. -/
def basic_ictr.calls_succeed (E : cipher_type) : basic_ictr → List ictr_call → Bool
  | _, [] => true
  | s, ictr_call.reads n :: cs => basic_ictr.calls_succeed E (s.reads E n).1 cs
  | s, ictr_call.seek offset :: cs =>
    (s.seek E offset).2.isSome && basic_ictr.calls_succeed E (s.seek E offset).1 cs

/-- The offsets passed to the `seek` calls of a sequence. -/
def seek_offsets : List ictr_call → List Nat
  | [] => []
  | ictr_call.reads _ :: cs => seek_offsets cs
  | ictr_call.seek offset :: cs => offset :: seek_offsets cs

/-- A call of a public member function of `basic_octr`. -/
inductive octr_op where
  /-- The call `writes(b, e)`, the range being `input`. -/
  | writes (input : input_range)
  /-- The call `put(ch)`. -/
  | put (ch : unsigned_char_type)
  /-- The call `flush()`. -/
  | flush
deriving DecidableEq

/-- The encrypt adapter after one public call; `none` when the call does not return. -/
def basic_octr.step (E : cipher_type) (s : basic_octr) : octr_op → Option basic_octr
  | octr_op.writes input => s.writes E input
  | octr_op.put ch => some (s.put E ch)
  | octr_op.flush => some (s.flush E)

/-- The encrypt adapter after a sequence of public calls; a call that does not return ends the
sequence. -/
def basic_octr.run (E : cipher_type) : basic_octr → List octr_op → Option basic_octr
  | s, [] => some s
  | s, op :: ops =>
    match s.step E op with
    | some s1 => basic_octr.run E s1 ops
    | none => none

/-- An upper bound of what a public call adds to the byte counter of an encrypt adapter: the
bytes it is given, and at most one block for the rounding up done by `flush`. -/
def octr_op.growth (E : cipher_type) : octr_op → Nat
  | octr_op.writes input => input.bytes.length
  | octr_op.put _ => 1
  | octr_op.flush => E.block_size

/-- The sum of the bounds `octr_op.growth` of a sequence of calls. -/
def octr_growth (E : cipher_type) (ops : List octr_op) : Nat :=
  (ops.map (octr_op.growth E)).sum

/-- A call of `writes` or `flush` on an encrypt adapter. -/
inductive octr_call where
  /-- The call `writes(b, e)`, the range being `input`. -/
  | writes (input : input_range)
  /-- The call `flush()`. -/
  | flush
deriving DecidableEq

/-- The encrypt adapter after one call of `writes` or `flush`; `none` when the call does not
return. -/
def basic_octr.call (E : cipher_type) (s : basic_octr) : octr_call → Option basic_octr
  | octr_call.writes input => s.writes E input
  | octr_call.flush => some (s.flush E)

/-- The encrypt adapter after a sequence of `writes` and `flush` calls; a call that does not
return ends the sequence. -/
def basic_octr.calls (E : cipher_type) : basic_octr → List octr_call → Option basic_octr
  | s, [] => some s
  | s, c :: cs =>
    match s.call E c with
    | some s1 => basic_octr.calls E s1 cs
    | none => none

/-- The plaintext written by a sequence of `writes` and `flush` calls, with zero bytes inserted
up to the next block boundary at each `flush` that finds a block begun; `written` is the
plaintext so far. -/
def padded_plaintext (E : cipher_type) : block_type → List octr_call → block_type
  | written, [] => written
  | written, octr_call.writes input :: cs => padded_plaintext E (written ++ input.bytes) cs
  | written, octr_call.flush :: cs =>
    padded_plaintext E
      (written ++ List.replicate
        ((E.block_size - written.length % E.block_size) % E.block_size) 0) cs

/-! ## The move constructor of `basic_octr` -/

/-- A value of type `block_iterator` held by one of the two adapter objects that take part in
a move construction: it points at an element of the `plaintext_buf` of the object that holds
it, or at an element of the `plaintext_buf` of the other object. -/
inductive block_iterator where
  /-- The iterator `plaintext_buf.begin() + i` of the object itself. -/
  | own (i : Nat)
  /-- The iterator `plaintext_buf.begin() + i` of the other object. -/
  | other (i : Nat)
deriving DecidableEq

/-- The data members of a `basic_octr` object after a move construction, where the iterator
need not point into the object's own array. -/
structure moved_octr where
  /-- The accumulator array. -/
  plaintext_buf : block_type
  /-- The iterator `plaintext_buf_pos`. -/
  plaintext_buf_pos : block_iterator
  /-- The key. -/
  key : block_type
  /-- The nonce. -/
  nonce : block_type
  /-- The byte counter. -/
  char_counter : Nat
  /-- The underlying sink. -/
  ob : sink
deriving DecidableEq

/-- The constructor `basic_octr(basic_octr&& octr)`: the new object and `octr` afterwards.
The member initialiser `plaintext_buf(std::move(plaintext_buf))` initialises the array from
itself, so its elements keep the indeterminate values `indeterminate` of the storage;
`plaintext_buf_pos(std::move(octr.plaintext_buf_pos))` copies the iterator of `octr`, which
points into the array of `octr`; the body assigns `plaintext_buf.begin()` of the new object to
`octr.plaintext_buf_pos`. -/
def basic_octr.move_construct (indeterminate : block_type) (octr : basic_octr) :
    moved_octr × moved_octr :=
  ({ plaintext_buf := indeterminate
     plaintext_buf_pos := block_iterator.other octr.plaintext_buf_pos
     key := octr.key
     nonce := octr.nonce
     char_counter := octr.char_counter
     ob := octr.ob },
   { plaintext_buf := octr.plaintext_buf
     plaintext_buf_pos := block_iterator.other 0
     key := octr.key
     nonce := octr.nonce
     char_counter := octr.char_counter
     ob := octr.ob })

/-- The test `plaintext_buf_pos != plaintext_buf.begin()` by which `writes` and `write_remain`
decide that the accumulator holds bytes. -/
def moved_octr.accumulator_nonempty (s : moved_octr) : Bool :=
  s.plaintext_buf_pos != block_iterator.own 0

/-! ## The evaluations of `char_counter / block_size - 1` -/

/-- The states of the adapter in which the loop of `mread` evaluates
`char_counter / block_size - 1`, in order: the states after the `ib.reads` call and the update
of `char_counter` in which `cipher_buf_pos == cipher_buf.end()`. The arguments are those of
`mread_loop`. -/
def basic_ictr.mread_loop_evals (E : cipher_type) :
    Nat → basic_ictr → Nat → List basic_ictr
  | 0, _, _ => []
  | fuel + 1, s, room =>
    if room = 0 then []
    else
      let r := s.ib.reads (E.block_size - s.cipher_buf_pos)
      let s1 : basic_ictr :=
        { s with
          cipher_buf := uninitialized_copy s.cipher_buf s.cipher_buf_pos r.1
          cipher_buf_pos := s.cipher_buf_pos + r.1.length
          char_counter := to_size_t E (s.char_counter + r.1.length)
          ib := r.2 }
      if s1.cipher_buf_pos ≠ E.block_size then []
      else
        s1 :: (if room < E.block_size then []
          else basic_ictr.mread_loop_evals E fuel { s1 with cipher_buf_pos := 0 }
            (room - E.block_size))

/-- The states in which a call of `mread` with a destination of `input_length` bytes evaluates
`char_counter / block_size - 1`. -/
def basic_ictr.mread_evals (E : cipher_type) (s : basic_ictr) (input_length : Nat) :
    List basic_ictr :=
  if s.plaintext_buf_pos ≠ 0 then
    let min_length :=
      if s.plaintext_buf_pos < input_length then s.plaintext_buf_pos else input_length
    if s.plaintext_buf_pos - min_length ≠ 0 then []
    else basic_ictr.mread_loop_evals E (input_length - min_length + 1)
      { s with plaintext_buf_pos := 0 } (input_length - min_length)
  else basic_ictr.mread_loop_evals E (input_length + 1) s input_length

/-- The adapter on which `seek` makes its final `reads` call, when it gets there: the target
is not block-aligned and the source has supplied the bytes that precede it in its block. -/
def basic_ictr.seek_staged (E : cipher_type) (s : basic_ictr) (offset : Nat) :
    Option basic_ictr :=
  let r := s.ib.seek offset
  let pos_rel_to_begin := to_size_t E r.2
  let char_pos_block_aligned := to_size_t E (pos_rel_to_begin / E.block_size * E.block_size)
  if pos_rel_to_begin = char_pos_block_aligned then none
  else
    let read_length := pos_rel_to_begin - char_pos_block_aligned
    let got := ((r.1.seek char_pos_block_aligned).1).reads read_length
    if got.1.length ≠ read_length then none
    else
      some { s with
             ib := got.2
             cipher_buf := uninitialized_copy (List.replicate E.block_size 0) 0 got.1
             cipher_buf_pos := read_length
             plaintext_buf_pos := 0
             char_counter := pos_rel_to_begin }

/-- The states in which a public call on a decrypt adapter evaluates
`char_counter / block_size - 1`: `reads` calls `mread`; `get` and `try_get` call `reads` for
one byte when the overflow buffer is empty; `seek` calls `reads` for the bytes that precede an
unaligned target. -/
def basic_ictr.op_evals (E : cipher_type) (s : basic_ictr) : ictr_op → List basic_ictr
  | ictr_op.reads n => s.mread_evals E n
  | ictr_op.get => if s.plaintext_buf_pos = 0 then s.mread_evals E 1 else []
  | ictr_op.try_get => if s.plaintext_buf_pos = 0 then s.mread_evals E 1 else []
  | ictr_op.seek offset =>
    match s.seek_staged E offset with
    | some s1 => s1.mread_evals E s1.cipher_buf_pos
    | none => []

/-- The states in which a sequence of public calls on a decrypt adapter evaluates
`char_counter / block_size - 1`. -/
def basic_ictr.run_evals (E : cipher_type) : basic_ictr → List ictr_op → List basic_ictr
  | _, [] => []
  | s, op :: ops => s.op_evals E op ++ basic_ictr.run_evals E (s.step E op) ops

/-- A `reads` or `seek` call as a public call. -/
def ictr_call.op : ictr_call → ictr_op
  | ictr_call.reads n => ictr_op.reads n
  | ictr_call.seek offset => ictr_op.seek offset

/-- The values of `char_counter` at which a public call on an encrypt adapter evaluates
`char_counter / block_size - 1`: `writes` when the accumulator it tops up becomes full, `put`
when it finds the accumulator full. -/
def basic_octr.op_evals (E : cipher_type) (s : basic_octr) : octr_op → List Nat
  | octr_op.writes input =>
    if s.plaintext_buf_pos ≠ 0 then
      let min_length := min (E.block_size - s.plaintext_buf_pos) input.bytes.length
      if s.plaintext_buf_pos + min_length ≠ E.block_size then []
      else [to_size_t E (s.char_counter + min_length)]
    else []
  | octr_op.put _ => if s.plaintext_buf_pos = E.block_size then [s.char_counter] else []
  | octr_op.flush => []

/-- The values of `char_counter` at which a sequence of public calls on an encrypt adapter
evaluates `char_counter / block_size - 1`; a call that does not return ends the sequence. -/
def basic_octr.run_evals (E : cipher_type) : basic_octr → List octr_op → List Nat
  | _, [] => []
  | s, op :: ops =>
    s.op_evals E op ++
      (match s.step E op with
       | some s1 => basic_octr.run_evals E s1 ops
       | none => [])

/-- The bookkeeping of a decrypt adapter between calls: the staging buffer holds the
`char_counter mod block_size` source bytes that precede the read position of the source,
`char_counter` is that read position, and the overflow buffer holds fewer than `block_size`
bytes. -/
structure basic_ictr.in_step (E : cipher_type) (s : basic_ictr) : Prop where
  /-- The number of staged bytes is `char_counter mod block_size`. -/
  staging_eq : s.cipher_buf_pos = s.char_counter % E.block_size
  /-- The byte counter is the read position of the source. -/
  counter_eq : s.char_counter = s.ib.pos
  /-- The staged bytes are the source bytes before the read position. -/
  staged_eq : s.staged = (s.ib.data.drop (s.ib.pos - s.cipher_buf_pos)).take s.cipher_buf_pos
  /-- The overflow buffer holds fewer than `block_size` bytes. -/
  overflow_lt : s.plaintext_buf_pos < E.block_size

/-- A full staging block that is decrypted at its place: the block is the source block that
ends at the read position, its offset is a multiple of `block_size`, and the block index
`char_counter / block_size - 1` is that offset divided by `block_size`. -/
structure basic_ictr.decrypts_in_place (E : cipher_type) (s : basic_ictr) : Prop where
  /-- The byte counter is the read position of the source. -/
  counter_eq : s.char_counter = s.ib.pos
  /-- A whole block precedes the read position. -/
  block_le : E.block_size ≤ s.ib.pos
  /-- The offset of the block is a multiple of `block_size`. -/
  offset_aligned : (s.ib.pos - E.block_size) % E.block_size = 0
  /-- The staging buffer holds the source block at that offset. -/
  block_eq : s.cipher_buf = (s.ib.data.drop (s.ib.pos - E.block_size)).take E.block_size
  /-- The block index is the offset divided by `block_size`. -/
  index_eq : size_t_pred E (s.char_counter / E.block_size) =
    (s.ib.pos - E.block_size) / E.block_size

/-- The bounds of a decrypt adapter between calls that exclude a wrap-around of the byte
counter: the staging block is not full, its bytes have been counted, and the counter can
still count the bytes the source has left. -/
structure basic_ictr.counted (E : cipher_type) (s : basic_ictr) : Prop where
  /-- The staging block is not full. -/
  staging_lt : s.cipher_buf_pos < E.block_size
  /-- The staged bytes have been counted. -/
  staging_le : s.cipher_buf_pos ≤ s.char_counter
  /-- The counter can count the bytes the source has left. -/
  no_wrap : s.char_counter + s.remaining.length < size_t_card E

/-- The plaintext block `mread` computes in a state in which it evaluates
`char_counter / block_size - 1`: the staging block XORed with the keystream block of that
index. -/
def basic_ictr.decrypt_staged (E : cipher_type) (s : basic_ictr) : block_type :=
  xor_block (keystream E s.key s.nonce (size_t_pred E (s.char_counter / E.block_size)))
    s.cipher_buf

/-! ## Arithmetic on `std::size_t` -/

theorem size_t_card_pos (E : cipher_type) : 0 < size_t_card E := by
  unfold size_t_card; positivity

theorem to_size_t_of_lt (E : cipher_type) {n : Nat} (h : n < size_t_card E) :
    to_size_t E n = n := Nat.mod_eq_of_lt h

theorem to_size_t_add_left (E : cipher_type) (a b : Nat) :
    to_size_t E (to_size_t E a + b) = to_size_t E (a + b) := by
  unfold to_size_t; exact Nat.mod_add_mod a _ b

theorem size_t_pred_succ (E : cipher_type) {n : Nat} (h : n + 1 < size_t_card E) :
    size_t_pred E (n + 1) = n := by
  unfold size_t_pred
  rw [Nat.mod_eq_of_lt h]
  have : n + 1 + (size_t_card E - 1) = n + size_t_card E := by omega
  rw [this, Nat.add_mod_right]
  exact Nat.mod_eq_of_lt (by omega)

/-! ## Blocks -/

theorem keystream_length (E : cipher_type) (key nonce : block_type) (i : Nat) :
    (keystream E key nonce i).length = E.block_size := E.enc_size _ _

theorem xor_block_length {ks v : block_type} (h : ks.length ≤ v.length) :
    (xor_block ks v).length = ks.length := by
  unfold xor_block; rw [List.length_zipWith]; exact Nat.min_eq_left h

theorem xor_block_take (ks v : block_type) :
    xor_block ks (v.take ks.length) = xor_block ks v := by
  unfold xor_block
  induction ks generalizing v with
  | nil => simp
  | cons a ks ih =>
    cases v with
    | nil => simp
    | cons b v => simp [ih]

theorem xor_block_append_right (ks v w : block_type) (h : ks.length ≤ v.length) :
    xor_block ks (v ++ w) = xor_block ks v := by
  rw [← xor_block_take ks (v ++ w), List.take_append_of_le_length h, xor_block_take]

theorem xor_block_xor_block (ks v : block_type) (h : v.length ≤ ks.length) :
    xor_block ks (xor_block ks v) = v := by
  unfold xor_block
  induction ks generalizing v with
  | nil =>
    cases v with
    | nil => rfl
    | cons b v => simp at h
  | cons a ks ih =>
    cases v with
    | nil => simp
    | cons b v =>
      simp only [List.zipWith_cons_cons, List.cons.injEq]
      refine ⟨?_, ih v (by simpa using h)⟩
      rw [← Nat.xor_assoc, Nat.xor_self, Nat.zero_xor]

theorem zero_pad_length (E : cipher_type) {v : block_type} (h : v.length ≤ E.block_size) :
    (zero_pad E v).length = E.block_size := by
  unfold zero_pad; simp; omega

theorem zero_pad_of_length (E : cipher_type) {v : block_type} (h : v.length = E.block_size) :
    zero_pad E v = v := by
  unfold zero_pad; simp [h]

theorem zero_pad_take_length (E : cipher_type) (xs : block_type) :
    (zero_pad E (xs.take E.block_size)).length = E.block_size :=
  zero_pad_length E (by rw [List.length_take]; exact Nat.min_le_left _ _)

theorem uninitialized_copy_length {buf src : block_type} {off : Nat}
    (h : off + src.length ≤ buf.length) :
    (uninitialized_copy buf off src).length = buf.length := by
  unfold uninitialized_copy
  simp only [List.length_append, List.length_take, List.length_drop]
  omega

theorem uninitialized_copy_take {buf src : block_type} {off : Nat} (h : off ≤ buf.length) :
    (uninitialized_copy buf off src).take (off + src.length) = buf.take off ++ src := by
  unfold uninitialized_copy
  apply List.take_left'
  simp only [List.length_append, List.length_take]
  omega

theorem uninitialized_copy_zero_take (buf src : block_type) :
    (uninitialized_copy buf 0 src).take src.length = src := by
  have := @uninitialized_copy_take buf src 0 (Nat.zero_le _)
  simpa using this

theorem uninitialized_copy_full {buf src : block_type} {off : Nat}
    (hf : off + src.length = buf.length) :
    uninitialized_copy buf off src = buf.take off ++ src := by
  unfold uninitialized_copy
  rw [List.drop_of_length_le (by omega)]; simp

/-! ## The reference transformation -/

theorem ctr_from_length (E : cipher_type) (key nonce : block_type) (i n : Nat) (xs : block_type) :
    (ctr_from E key nonce i n xs).length = n * E.block_size := by
  induction n generalizing i xs with
  | zero => simp [ctr_from]
  | succ n ih =>
    simp only [ctr_from, List.length_append, ih]
    rw [xor_block_length (by rw [keystream_length, zero_pad_take_length]), keystream_length]
    ring

theorem ctr_from_append (E : cipher_type) (key nonce : block_type) (i k m : Nat)
    (F X : block_type) (hF : F.length = k * E.block_size) :
    ctr_from E key nonce i (k + m) (F ++ X) =
      ctr_from E key nonce i k F ++ ctr_from E key nonce (i + k) m X := by
  induction k generalizing i F with
  | zero =>
    have : F = [] := List.length_eq_zero.mp (by simpa using hF)
    subst this
    simp [ctr_from]
  | succ k ih =>
    have hlen : E.block_size ≤ F.length := by rw [hF]; nlinarith
    have h1 : k + 1 + m = (k + m) + 1 := by omega
    rw [h1]
    simp only [ctr_from]
    rw [List.take_append_of_le_length hlen, List.drop_append_of_le_length hlen,
      ih (i + 1) (F.drop E.block_size) (by rw [List.length_drop, hF]; simp [Nat.succ_mul])]
    simp only [List.append_assoc]
    congr 2
    congr 1
    omega

theorem ctr_from_whole_take (E : cipher_type) (key nonce : block_type) (i k : Nat)
    (F X : block_type) (hF : F.length = k * E.block_size) :
    ctr_from E key nonce i k (F ++ X) = ctr_from E key nonce i k F := by
  have := ctr_from_append E key nonce i k 0 F X hF
  simpa [ctr_from] using this

theorem ctr_from_eq_flatMap (E : cipher_type) (key nonce : block_type) (i n : Nat)
    (xs : block_type) :
    ctr_from E key nonce i n xs =
      (List.range n).flatMap fun j =>
        xor_block (E.enc key (nonce ++ size_t_bytes E (i + j))) (padded_block E xs j) := by
  induction n generalizing i xs with
  | zero => simp [ctr_from]
  | succ n ih =>
    rw [List.range_succ_eq_map, List.flatMap_cons, List.flatMap_map, ctr_from, ih]
    congr 1
    · simp [keystream, padded_block]
    · congr 1
      funext j
      simp only [padded_block, List.drop_drop, Nat.succ_eq_add_one]
      have h1 : i + 1 + j = i + (j + 1) := by omega
      have h2 : E.block_size + j * E.block_size = (j + 1) * E.block_size := by ring
      rw [h1, h2]

theorem ctr_reference_eq (E : cipher_type) (key nonce P : block_type) :
    ctr_reference E key nonce P = ctr_from E key nonce 0 (block_count E P.length) P := by
  rw [ctr_from_eq_flatMap]; simp [ctr_reference]

/-! ## The encrypt adapter: `writes` and `flush` -/

theorem xor_block_whole (E : cipher_type) (key nonce : block_type) (i : Nat) (pi : block_type)
    (h : E.block_size ≤ pi.length) :
    xor_block (keystream E key nonce i) pi =
      xor_block (keystream E key nonce i) (zero_pad E (pi.take E.block_size)) := by
  rw [zero_pad_of_length E (by rw [List.length_take]; exact Nat.min_eq_left h)]
  have := xor_block_take (keystream E key nonce i) pi
  rw [keystream_length] at this
  exact this.symm

theorem last_length_of_le (E : cipher_type) {pe : Nat} (h : E.block_size ≤ pe) :
    last_length E pe = pe - E.block_size := by
  unfold last_length
  rw [if_pos h]

/-- For every address `pe`, `last_length` is the difference `pe - block_size` computed modulo
the number of `std::size_t` values. -/
theorem last_length_eq_mod (E : cipher_type) {pe : Nat} (h : pe < size_t_card E) :
    last_length E pe = (pe + (size_t_card E - 1) * E.block_size) % size_t_card E := by
  unfold last_length to_size_t
  by_cases hpe : E.block_size ≤ pe
  · rw [if_pos hpe]
    have hW := size_t_card_pos E
    have e1 : pe + (size_t_card E - 1) * E.block_size =
        (pe - E.block_size) + E.block_size * size_t_card E := by
      have h1 : (size_t_card E - 1) * E.block_size + E.block_size =
          size_t_card E * E.block_size := by
        rw [← Nat.succ_mul]; congr 1; omega
      have h3 := Nat.mul_comm (size_t_card E) E.block_size
      omega
    rw [e1, Nat.add_mul_mod_self_right, Nat.mod_eq_of_lt (by omega)]
  · rw [if_neg hpe]

/-- Below the address `block_size` the pointer `pe - block_size` wraps around to an address
that is not below `pe`. -/
theorem last_length_of_lt (E : cipher_type) {pe : Nat} (h : pe < E.block_size)
    (hW : E.block_size ≤ size_t_card E) :
    last_length E pe = pe + size_t_card E - E.block_size := by
  unfold last_length to_size_t
  rw [if_neg (by omega)]
  have hpos := E.block_size_pos
  have e1 : pe + (size_t_card E - 1) * E.block_size =
      (pe + size_t_card E - E.block_size) + (E.block_size - 1) * size_t_card E := by
    have h1 : (size_t_card E - 1) * E.block_size + E.block_size =
        size_t_card E * E.block_size := by
      rw [← Nat.succ_mul]; congr 1; omega
    have h2 : (E.block_size - 1) * size_t_card E + size_t_card E =
        E.block_size * size_t_card E := by
      rw [← Nat.succ_mul]; congr 1; omega
    have h3 := Nat.mul_comm (size_t_card E) E.block_size
    omega
  rw [e1, Nat.add_mul_mod_self_right, Nat.mod_eq_of_lt (by omega)]

/-- On a range that does not end below the address `block_size` the test `pi <= last_length`
holds exactly when a whole block is left: the loop emits the whole blocks of `[pi, pe)` and
returns. -/
theorem writes_loop_spec (E : cipher_type) (fuel : Nat) (s : basic_octr) (bc pe : Nat)
    (pi : block_type) (hfuel : pi.length ≤ fuel) (hpe : E.block_size ≤ pe)
    (hle : pi.length ≤ pe)
    (hc : s.char_counter + pi.length < size_t_card E) (hbc : bc + pi.length < size_t_card E) :
    basic_octr.writes_loop E (fuel + 1) s bc pe pi =
      some ({ s with
              ob := { s.ob with
                      bytes := s.ob.bytes ++
                        ctr_from E s.key s.nonce bc (pi.length / E.block_size) pi }
              char_counter := s.char_counter + pi.length / E.block_size * E.block_size },
            pi.drop (pi.length / E.block_size * E.block_size)) := by
  have hpos := E.block_size_pos
  induction fuel generalizing s bc pi with
  | zero =>
    have : pi = [] := List.length_eq_zero.mp (by omega)
    subst this
    unfold basic_octr.writes_loop
    rw [last_length_of_le E hpe, if_neg (by simp only [List.length_nil]; omega)]
    cases s
    simp [ctr_from]
  | succ fuel ih =>
    unfold basic_octr.writes_loop
    rw [last_length_of_le E hpe]
    by_cases h : E.block_size ≤ pi.length
    · rw [if_pos (by omega), if_pos h]
      have hdiv : pi.length / E.block_size = (pi.length - E.block_size) / E.block_size + 1 :=
        Nat.div_eq_sub_div hpos h
      have hlen : (pi.drop E.block_size).length = pi.length - E.block_size := List.length_drop _ _
      rw [ih _ _ _ (by rw [hlen]; omega) (by rw [hlen]; omega)
        (by simp only [basic_octr.encrypt_out]; rw [hlen, to_size_t_of_lt E (by omega)]; omega)
        (by rw [hlen, to_size_t_of_lt E (by omega)]; omega)]
      rw [hlen, hdiv]
      simp only [basic_octr.encrypt_out, sink.writes, ctr_from, List.drop_drop]
      rw [to_size_t_of_lt E (by omega), to_size_t_of_lt E (by omega),
        ← xor_block_whole E _ _ _ _ h]
      cases s
      simp only [List.append_assoc, Option.some.injEq, Prod.mk.injEq, basic_octr.mk.injEq,
        true_and, and_true]
      refine ⟨by ring, ?_⟩
      congr 1; ring
    · rw [if_neg (by omega)]
      have : pi.length / E.block_size = 0 := Nat.div_eq_of_lt (by omega)
      rw [this]
      cases s
      simp [ctr_from]

/-- On a range that ends below the address `block_size` the loop either reads outside the
range or leaves at its first test. -/
theorem writes_loop_of_low (E : cipher_type) (fuel : Nat) (s : basic_octr) (bc pe : Nat)
    (pi : block_type) (hlow : pe < E.block_size) (hle : pi.length ≤ pe) :
    basic_octr.writes_loop E (fuel + 1) s bc pe pi =
      if pe - pi.length ≤ last_length E pe then none else some (s, pi) := by
  unfold basic_octr.writes_loop
  by_cases ht : pe - pi.length ≤ last_length E pe
  · rw [if_pos ht, if_pos ht, if_neg (by omega)]
  · rw [if_neg ht, if_neg ht]

theorem ctr_from_one (E : cipher_type) (key nonce : block_type) (i : Nat) (B : block_type)
    (hB : B.length = E.block_size) :
    ctr_from E key nonce i 1 B = xor_block (keystream E key nonce i) B := by
  simp only [ctr_from, List.append_nil]
  rw [List.take_of_length_le (by omega), zero_pad_of_length E hB]

theorem length_of_mod_eq_zero (E : cipher_type) {F : block_type}
    (h : F.length % E.block_size = 0) : F.length = F.length / E.block_size * E.block_size := by
  have := Nat.div_add_mod F.length E.block_size
  rw [h, Nat.mul_comm] at this
  omega

theorem block_count_whole (E : cipher_type) (k : Nat) :
    block_count E (k * E.block_size) = k := by
  have hpos := E.block_size_pos
  unfold block_count
  have : k * E.block_size + E.block_size - 1 = (E.block_size - 1) + k * E.block_size := by omega
  rw [this, Nat.add_mul_div_right _ _ hpos, Nat.div_eq_of_lt (by omega), Nat.zero_add]

theorem block_count_tail (E : cipher_type) (k t : Nat) (h0 : 0 < t) (ht : t < E.block_size) :
    block_count E (k * E.block_size + t) = k + 1 := by
  have hpos := E.block_size_pos
  unfold block_count
  have : k * E.block_size + t + E.block_size - 1 = (t - 1) + (k + 1) * E.block_size := by
    rw [Nat.add_mul]; omega
  rw [this, Nat.add_mul_div_right _ _ hpos, Nat.div_eq_of_lt (by omega), Nat.zero_add]

theorem writes_blocks_holds (E : cipher_type) (key nonce F X : block_type) (s : basic_octr)
    (pe : Nat) (h : s.holds E key nonce F []) (hpe : E.block_size ≤ pe) (hle : X.length ≤ pe)
    (hb : F.length + X.length < size_t_card E) :
    ∃ s1, basic_octr.writes_blocks E s pe X = some s1 ∧
      s1.holds E key nonce
        (F ++ X.take (X.length / E.block_size * E.block_size))
        (X.drop (X.length / E.block_size * E.block_size)) := by
  have hpos := E.block_size_pos
  have hc : s.char_counter = F.length := by simpa using h.counter_eq
  have hF := length_of_mod_eq_zero E h.emitted_blocks
  have hdiv : X.length / E.block_size * E.block_size ≤ X.length := Nat.div_mul_le_self _ _
  have hmod : X.length - X.length / E.block_size * E.block_size = X.length % E.block_size := by
    have := Nat.div_add_mod X.length E.block_size
    rw [Nat.mul_comm] at this
    omega
  have hmodlt := Nat.mod_lt X.length hpos
  have hFdiv : F.length / E.block_size ≤ F.length := Nat.div_le_self _ _
  unfold basic_octr.writes_blocks
  rw [writes_loop_spec E X.length s _ pe X (le_refl _) hpe hle (by omega) (by rw [hc]; omega)]
  refine ⟨_, rfl, ?_⟩
  simp only
  have hlen : (List.drop (X.length / E.block_size * E.block_size) X).length =
      X.length % E.block_size := by rw [List.length_drop, hmod]
  have htake : (List.take (X.length / E.block_size * E.block_size) X).length =
      X.length / E.block_size * E.block_size := by
    rw [List.length_take]; exact Nat.min_eq_left hdiv
  constructor
  · show (uninitialized_copy _ _ _).length = _
    rw [uninitialized_copy_length (by rw [hlen, h.plaintext_buf_size]; omega)]
    exact h.plaintext_buf_size
  · rw [List.length_append, htake, Nat.add_mul_mod_self_right]
    exact h.emitted_blocks
  · rw [hlen]; exact hmodlt
  · exact uninitialized_copy_zero_take _ _
  · rfl
  · show to_size_t E _ = _
    simp only [List.length_append, htake, hlen, hc]
    exact to_size_t_of_lt E (by omega)
  · exact h.key_eq
  · exact h.nonce_eq
  · show s.ob.bytes ++ _ = _
    rw [h.sink_eq, h.key_eq, h.nonce_eq, hc, List.length_append, htake,
      Nat.add_mul_div_right _ _ hpos,
      ctr_from_append E key nonce 0 _ _ F _ hF, Nat.zero_add]
    congr 1
    have := ctr_from_whole_take E key nonce (F.length / E.block_size) (X.length / E.block_size)
      (X.take (X.length / E.block_size * E.block_size))
      (X.drop (X.length / E.block_size * E.block_size)) htake
    rw [List.take_append_drop] at this
    exact this

theorem writes_holds (E : cipher_type) (key nonce F T : block_type) (input : input_range)
    (s : basic_octr) (h : s.holds E key nonce F T) (hpe : E.block_size ≤ input.pe)
    (hb : F.length + T.length + input.bytes.length < size_t_card E) :
    ∃ s1 F1 T1, s.writes E input = some s1 ∧ F1 ++ T1 = F ++ T ++ input.bytes ∧
      s1.holds E key nonce F1 T1 := by
  have hpos := E.block_size_pos
  have hF := length_of_mod_eq_zero E h.emitted_blocks
  have hple : input.bytes.length ≤ input.pe := Nat.le_add_left _ _
  generalize hX : input.bytes = X at hb hple ⊢
  unfold basic_octr.writes
  rw [hX]
  by_cases h0 : s.plaintext_buf_pos = 0
  · rw [if_neg (by simpa using h0)]
    have hT : T = [] := List.length_eq_zero.mp (by rw [← h.pos_eq, h0])
    subst hT
    obtain ⟨s1, hs1, hh⟩ := writes_blocks_holds E key nonce F X s input.pe h hpe hple
      (by simpa using hb)
    exact ⟨s1, _, _, hs1, by simp, hh⟩
  · rw [if_pos h0]
    simp only
    have hTs := h.tail_short
    by_cases hfull : s.plaintext_buf_pos + min (E.block_size - s.plaintext_buf_pos) X.length
        = E.block_size
    · rw [if_neg (by simpa using hfull)]
      have hmin : min (E.block_size - s.plaintext_buf_pos) X.length = E.block_size - T.length := by
        rw [h.pos_eq] at hfull ⊢; omega
      have hXlen : E.block_size - T.length ≤ X.length := by
        rw [← hmin]; exact Nat.min_le_right _ _
      have hbuf : uninitialized_copy s.plaintext_buf s.plaintext_buf_pos
          (List.take (min (E.block_size - s.plaintext_buf_pos) X.length) X) =
          T ++ X.take (E.block_size - T.length) := by
        rw [uninitialized_copy_full, h.tail_eq, hmin]
        rw [List.length_take, hmin, h.pos_eq, h.plaintext_buf_size, Nat.min_eq_left hXlen]
        omega
      have hBlen : (T ++ X.take (E.block_size - T.length)).length = E.block_size := by
        rw [List.length_append, List.length_take, Nat.min_eq_left hXlen]; omega
      rw [hbuf, hmin]
      have hcc : to_size_t E (s.char_counter + (E.block_size - T.length)) =
          F.length + E.block_size := by
        rw [h.counter_eq, to_size_t_of_lt E (by omega)]; omega
      have hidx : size_t_pred E ((F.length + E.block_size) / E.block_size) =
          F.length / E.block_size := by
        rw [Nat.add_div_right _ hpos]
        apply size_t_pred_succ
        have : F.length / E.block_size ≤ F.length := Nat.div_le_self _ _
        omega
      have hmid : basic_octr.holds E key nonce (F ++ (T ++ X.take (E.block_size - T.length))) []
          { (basic_octr.encrypt_out E
              { s with
                plaintext_buf := T ++ X.take (E.block_size - T.length)
                plaintext_buf_pos := s.plaintext_buf_pos + (E.block_size - T.length)
                char_counter := to_size_t E (s.char_counter + (E.block_size - T.length)) }
              (T ++ X.take (E.block_size - T.length))
              (size_t_pred E (to_size_t E (s.char_counter + (E.block_size - T.length)) /
                E.block_size))) with plaintext_buf_pos := 0 } := by
        constructor
        · exact hBlen
        · rw [List.length_append, hBlen, Nat.add_mod_right]; exact h.emitted_blocks
        · simpa using hpos
        · simp
        · rfl
        · show to_size_t E _ = _
          rw [hcc, List.length_append, hBlen]; simp
        · exact h.key_eq
        · exact h.nonce_eq
        · show s.ob.bytes ++ xor_block (keystream E s.key s.nonce _) _ = _
          rw [hcc, hidx, h.sink_eq, h.key_eq, h.nonce_eq, List.length_append, hBlen,
            Nat.add_div_right _ hpos, ctr_from_append E key nonce 0 _ 1 F _ hF,
            ctr_from_one E key nonce _ _ hBlen, Nat.zero_add]
      obtain ⟨s1, hs1, this⟩ := writes_blocks_holds E key nonce _
        (X.drop (E.block_size - T.length)) _ input.pe hmid hpe
        (by rw [List.length_drop]; omega)
        (by rw [List.length_append, hBlen, List.length_drop]; omega)
      refine ⟨s1, _, _, hs1, ?_, this⟩
      simp only [List.append_assoc, List.take_append_drop]
    · rw [if_pos hfull]
      have hmin : min (E.block_size - s.plaintext_buf_pos) X.length = X.length := by
        rw [h.pos_eq] at hfull ⊢; omega
      have hXlen : T.length + X.length < E.block_size := by
        rw [h.pos_eq] at h0 hfull; omega
      refine ⟨_, F, T ++ X, rfl, by simp, ?_⟩
      rw [hmin, List.take_of_length_le (le_refl _)]
      constructor
      · show (uninitialized_copy _ _ _).length = _
        rw [uninitialized_copy_length (by rw [h.pos_eq, h.plaintext_buf_size]; omega)]
        exact h.plaintext_buf_size
      · exact h.emitted_blocks
      · rw [List.length_append]; exact hXlen
      · show (uninitialized_copy _ _ _).take _ = _
        rw [uninitialized_copy_take (by rw [h.pos_eq, h.plaintext_buf_size]; omega), h.tail_eq]
      · show s.plaintext_buf_pos + X.length = _
        rw [h.pos_eq, List.length_append]
      · show to_size_t E _ = _
        rw [h.counter_eq, List.length_append, to_size_t_of_lt E (by omega)]; omega
      · exact h.key_eq
      · exact h.nonce_eq
      · exact h.sink_eq

/-- The defect of the loop test: on an adapter whose accumulator is empty, `writes` of a range
that ends below the address `block_size`, such as the empty range of a null pointer, enters
the block loop and reads outside the range. -/
theorem writes_of_low_range (E : cipher_type) (s : basic_octr) (input : input_range)
    (h0 : s.plaintext_buf_pos = 0) (hlow : input.pe < E.block_size)
    (hW : E.block_size ≤ size_t_card E) :
    s.writes E input = none := by
  have hle : input.bytes.length ≤ input.pe := Nat.le_add_left _ _
  unfold basic_octr.writes
  rw [if_neg (by simpa using h0)]
  unfold basic_octr.writes_blocks
  rw [writes_loop_of_low E _ s _ _ _ hlow hle, last_length_of_lt E hlow hW, if_pos (by omega)]

theorem init_holds (E : cipher_type) (key nonce : block_type) :
    (basic_octr.init E key nonce).holds E key nonce [] [] := by
  constructor <;> simp [basic_octr.init, ctr_from, E.block_size_pos]

theorem input_bytes_cons (input : input_range) (chunks : List input_range) :
    input_bytes (input :: chunks) = input.bytes ++ input_bytes chunks := by
  simp [input_bytes]

theorem writes_seq_cons (E : cipher_type) (s s1 : basic_octr) (input : input_range)
    (chunks : List input_range) (h : s.writes E input = some s1) :
    s.writes_seq E (input :: chunks) = s1.writes_seq E chunks := by
  simp only [basic_octr.writes_seq, h]

theorem writes_seq_holds (E : cipher_type) (key nonce : block_type) (chunks : List input_range)
    (F T : block_type) (s : basic_octr) (h : s.holds E key nonce F T)
    (hpe : ∀ input ∈ chunks, E.block_size ≤ input.pe)
    (hb : F.length + T.length + (input_bytes chunks).length < size_t_card E) :
    ∃ s1 F1 T1, s.writes_seq E chunks = some s1 ∧ F1 ++ T1 = F ++ T ++ input_bytes chunks ∧
      s1.holds E key nonce F1 T1 := by
  induction chunks generalizing F T s with
  | nil => exact ⟨s, F, T, rfl, by simp [input_bytes], h⟩
  | cons X chunks ih =>
    rw [input_bytes_cons, List.length_append] at hb
    obtain ⟨s1, F1, T1, hs1, heq, h1⟩ := writes_holds E key nonce F T X s h
      (hpe X (List.mem_cons_self _ _)) (by omega)
    have hlen : F1.length + T1.length = F.length + T.length + X.bytes.length := by
      have := congrArg List.length heq
      simp only [List.length_append] at this
      omega
    obtain ⟨s2, F2, T2, hs2, heq2, h2⟩ := ih F1 T1 s1 h1
      (fun i hi => hpe i (List.mem_cons_of_mem _ hi)) (by omega)
    refine ⟨s2, F2, T2, ?_, ?_, h2⟩
    · rw [writes_seq_cons E s s1 X chunks hs1]; exact hs2
    · rw [heq2, heq, input_bytes_cons]; simp

/-- What `flush` adds to the sink. -/
theorem flush_holds (E : cipher_type) (key nonce F T : block_type) (s : basic_octr)
    (h : s.holds E key nonce F T) :
    (s.flush E).ob.bytes = ctr_reference E key nonce (F ++ T) := by
  have hpos := E.block_size_pos
  have hF := length_of_mod_eq_zero E h.emitted_blocks
  have hTs := h.tail_short
  rw [ctr_reference_eq]
  unfold basic_octr.flush basic_octr.write_remain
  by_cases h0 : s.plaintext_buf_pos = 0
  · rw [if_neg (by simpa using h0)]
    have hT : T = [] := List.length_eq_zero.mp (by rw [← h.pos_eq, h0])
    subst hT
    simp only [sink.flush, List.append_nil]
    rw [h.sink_eq]
    congr 1
    have := block_count_whole E (F.length / E.block_size)
    rw [← hF] at this
    exact this.symm
  · rw [if_pos h0]
    have hTpos : 0 < T.length := by rw [← h.pos_eq]; omega
    simp only [sink.flush, basic_octr.encrypt_out, sink.writes]
    have hcount : block_count E (F ++ T).length = F.length / E.block_size + 1 := by
      have := block_count_tail E (F.length / E.block_size) T.length hTpos hTs
      rw [← hF] at this
      rw [List.length_append]; exact this
    rw [hcount, ctr_from_append E key nonce 0 _ 1 F T hF, h.sink_eq, h.key_eq, h.nonce_eq,
      h.tail_eq, h.pos_eq, h.counter_eq, Nat.zero_add]
    congr 1
    simp only [ctr_from, List.append_nil]
    rw [List.take_of_length_le (by omega)]
    have : (F.length + T.length) / E.block_size = F.length / E.block_size := by
      have h2 : (T.length + F.length / E.block_size * E.block_size) / E.block_size =
          F.length / E.block_size := by
        rw [Nat.add_mul_div_right _ _ hpos, Nat.div_eq_of_lt hTs, Nat.zero_add]
      rw [← hF, Nat.add_comm] at h2
      exact h2
    rw [this]
    rfl

/-! ## The decrypt adapter: `mread` -/

theorem dec_blocks_length (E : cipher_type) (key nonce : block_type) (c n : Nat)
    (xs : block_type) (h : n * E.block_size ≤ xs.length) :
    (dec_blocks E key nonce c n xs).length = n * E.block_size := by
  induction n generalizing c xs with
  | zero => simp [dec_blocks]
  | succ n ih =>
    have hle : E.block_size ≤ xs.length := by nlinarith
    simp only [dec_blocks, List.length_append]
    rw [ih _ _ (by rw [List.length_drop, Nat.succ_mul] at *; omega),
      xor_block_length (by rw [keystream_length, List.length_take]; omega), keystream_length]
    ring

theorem dec_blocks_stream_length (E : cipher_type) (key nonce : block_type) (c : Nat)
    (xs : block_type) :
    (dec_blocks E key nonce c (xs.length / E.block_size) xs).length =
      E.block_size * (xs.length / E.block_size) := by
  rw [dec_blocks_length E key nonce c _ xs (Nat.div_mul_le_self _ _), Nat.mul_comm]

/-- The state of `mread` after `ib.reads(cipher_buf_pos, cipher_buf.end())` and the update of
the byte counter. -/
theorem mread_loop_succ (E : cipher_type) (fuel : Nat) (s : basic_ictr) (room : Nat) :
    basic_ictr.mread_loop E (fuel + 1) s room =
      if room = 0 then (s, [])
      else
        let r := s.ib.reads (E.block_size - s.cipher_buf_pos)
        let s1 : basic_ictr :=
          { s with
            cipher_buf := uninitialized_copy s.cipher_buf s.cipher_buf_pos r.1
            cipher_buf_pos := s.cipher_buf_pos + r.1.length
            char_counter := to_size_t E (s.char_counter + r.1.length)
            ib := r.2 }
        if s1.cipher_buf_pos ≠ E.block_size then (s1, [])
        else
          let block_counter := size_t_pred E (s1.char_counter / E.block_size)
          let plain := xor_block (keystream E s1.key s1.nonce block_counter) s1.cipher_buf
          let s2 : basic_ictr := { s1 with cipher_buf_pos := 0 }
          if room < E.block_size then
            ({ s2 with
               plaintext_buf := uninitialized_copy s2.plaintext_buf 0 (plain.drop room)
               plaintext_buf_pos := (plain.drop room).length },
             plain.take room)
          else
            let r3 := basic_ictr.mread_loop E fuel s2 (room - E.block_size)
            (r3.1, plain ++ r3.2) := rfl

theorem take_append_drop_length_take {α : Type} (l : List α) (k : Nat) :
    l.take k ++ l.drop (l.take k).length = l := by
  rw [List.length_take]
  by_cases h : k ≤ l.length
  · rw [Nat.min_eq_left h, List.take_append_drop]
  · rw [Nat.min_eq_right (by omega), List.take_of_length_le (by omega), List.drop_length,
      List.append_nil]

theorem dec_blocks_short (E : cipher_type) (key nonce : block_type) (c : Nat) (xs : block_type)
    (h : xs.length < E.block_size) :
    dec_blocks E key nonce c (xs.length / E.block_size) xs = [] := by
  rw [Nat.div_eq_of_lt h]; rfl

theorem dec_blocks_unfold (E : cipher_type) (key nonce : block_type) (c : Nat)
    (B xs : block_type) (hB : B.length = E.block_size) :
    dec_blocks E key nonce c ((B ++ xs).length / E.block_size) (B ++ xs) =
      xor_block (keystream E key nonce (size_t_pred E (c / E.block_size))) B ++
        dec_blocks E key nonce (to_size_t E (c + E.block_size)) (xs.length / E.block_size) xs := by
  have hpos := E.block_size_pos
  have : (B ++ xs).length / E.block_size = xs.length / E.block_size + 1 := by
    rw [List.length_append, hB, Nat.add_comm, Nat.add_div_right _ hpos]
  rw [this]
  simp only [dec_blocks]
  rw [List.take_left' hB, List.drop_left' hB]

theorem mread_loop_spec (E : cipher_type) (fuel : Nat) (s : basic_ictr) (room : Nat)
    (hwf : s.wf E) (hp : s.plaintext_buf_pos = 0) (hfuel : room < fuel) :
    (basic_ictr.mread_loop E fuel s room).2 = (s.pending E).take room ∧
    (basic_ictr.mread_loop E fuel s room).1.pending E = (s.pending E).drop room ∧
    (basic_ictr.mread_loop E fuel s room).1.wf E ∧
    (basic_ictr.mread_loop E fuel s room).1.key = s.key ∧
    (basic_ictr.mread_loop E fuel s room).1.nonce = s.nonce ∧
    (basic_ictr.mread_loop E fuel s room).1.ib.data = s.ib.data := by
  induction fuel generalizing s room with
  | zero => omega
  | succ fuel ih =>
    have hpos := E.block_size_pos
    rw [mread_loop_succ]
    by_cases hroom : room = 0
    · rw [if_pos hroom]; subst hroom
      simp [hwf]
    · rw [if_neg hroom]
      simp only
      have hcb := hwf.cipher_buf_size
      have hcp := hwf.cipher_buf_pos_le
      have hgot : (s.ib.reads (E.block_size - s.cipher_buf_pos)).1 =
          s.remaining.take (E.block_size - s.cipher_buf_pos) := rfl
      have hib : (s.ib.reads (E.block_size - s.cipher_buf_pos)).2 =
          { data := s.ib.data, pos := s.ib.pos +
              (s.remaining.take (E.block_size - s.cipher_buf_pos)).length } := rfl
      rw [hgot, hib]
      have hrem0 := take_append_drop_length_take s.remaining (E.block_size - s.cipher_buf_pos)
      have hshort : (s.remaining.take (E.block_size - s.cipher_buf_pos)).length <
          E.block_size - s.cipher_buf_pos → s.remaining.length < E.block_size - s.cipher_buf_pos := by
        rw [List.length_take]; omega
      have hgl : (s.remaining.take (E.block_size - s.cipher_buf_pos)).length ≤
          E.block_size - s.cipher_buf_pos := by
        rw [List.length_take]; exact Nat.min_le_left _ _
      generalize s.remaining.take (E.block_size - s.cipher_buf_pos) = got at hrem0 hshort hgl ⊢
      have hrem : got ++ s.ib.data.drop (s.ib.pos + got.length) = s.remaining := by
        rw [← List.drop_drop]; exact hrem0
      have hpend : s.pending E = dec_blocks E s.key s.nonce
          (to_size_t E (s.char_counter + (E.block_size - s.cipher_buf_pos)))
          ((s.staged ++ s.remaining).length / E.block_size) (s.staged ++ s.remaining) := by
        simp [basic_ictr.pending, basic_ictr.overflow, hp]
      have hstl : s.staged.length = s.cipher_buf_pos := by
        simp only [basic_ictr.staged, List.length_take]; omega
      by_cases hfull : s.cipher_buf_pos + got.length = E.block_size
      · rw [if_neg (by simpa using hfull)]
        have hbuf : uninitialized_copy s.cipher_buf s.cipher_buf_pos got = s.staged ++ got :=
          uninitialized_copy_full (by omega)
        have hBl : (s.staged ++ got).length = E.block_size := by
          rw [List.length_append, hstl]; exact hfull
        have hc1 : to_size_t E (s.char_counter + got.length) =
            to_size_t E (s.char_counter + (E.block_size - s.cipher_buf_pos)) := by
          congr 2; omega
        rw [hbuf, hc1]
        generalize hc1v : to_size_t E (s.char_counter + (E.block_size - s.cipher_buf_pos)) = c1
          at hpend ⊢
        have hpend2 : s.pending E =
            xor_block (keystream E s.key s.nonce (size_t_pred E (c1 / E.block_size)))
              (s.staged ++ got) ++
            dec_blocks E s.key s.nonce (to_size_t E (c1 + E.block_size))
              ((s.ib.data.drop (s.ib.pos + got.length)).length / E.block_size)
              (s.ib.data.drop (s.ib.pos + got.length)) := by
          rw [hpend, ← hrem, ← List.append_assoc, dec_blocks_unfold E _ _ _ _ _ hBl]
        generalize hplain : xor_block (keystream E s.key s.nonce
          (size_t_pred E (c1 / E.block_size))) (s.staged ++ got) = plain at hpend2 ⊢
        have hpl : plain.length = E.block_size := by
          rw [← hplain, xor_block_length (by rw [keystream_length, hBl]), keystream_length]
        by_cases hlt : room < E.block_size
        · rw [if_pos hlt]
          simp only
          refine ⟨?_, ?_, ?_, trivial, trivial, trivial⟩
          · rw [hpend2, List.take_append_of_le_length (by omega)]
          · rw [hpend2, List.drop_append_of_le_length (by omega)]
            simp only [basic_ictr.pending, basic_ictr.overflow, basic_ictr.staged,
              basic_ictr.remaining, List.take_zero, List.nil_append, Nat.sub_zero]
            rw [uninitialized_copy_zero_take]
          · constructor
            · exact hBl
            · show (uninitialized_copy _ _ _).length = _
              rw [uninitialized_copy_length (by
                rw [List.length_drop, hpl, hwf.plaintext_buf_size]; omega)]
              exact hwf.plaintext_buf_size
            · exact Nat.zero_le _
            · show (plain.drop room).length ≤ _
              rw [List.length_drop, hpl]; omega
        · rw [if_neg hlt]
          simp only
          have hwf2 : basic_ictr.wf E
              { s with
                cipher_buf := s.staged ++ got
                cipher_buf_pos := 0
                char_counter := c1
                ib := { data := s.ib.data, pos := s.ib.pos + got.length } } :=
            ⟨hBl, hwf.plaintext_buf_size, Nat.zero_le _, hwf.plaintext_buf_pos_le⟩
          obtain ⟨h1, h2, h3, h4, h5, h6⟩ := ih _ (room - E.block_size) hwf2 hp (by omega)
          have hpend3 : basic_ictr.pending E
              { s with
                cipher_buf := s.staged ++ got
                cipher_buf_pos := 0
                char_counter := c1
                ib := { data := s.ib.data, pos := s.ib.pos + got.length } } =
              dec_blocks E s.key s.nonce (to_size_t E (c1 + E.block_size))
                ((s.ib.data.drop (s.ib.pos + got.length)).length / E.block_size)
                (s.ib.data.drop (s.ib.pos + got.length)) := by
            simp [basic_ictr.pending, basic_ictr.overflow, basic_ictr.staged,
              basic_ictr.remaining, hp]
          rw [hpend3] at h1 h2
          refine ⟨?_, ?_, h3, h4, h5, h6⟩
          · have e1 : List.take room plain = plain := List.take_of_length_le (by omega)
            rw [h1, hpend2, List.take_append_eq_append_take, e1, hpl]
          · have e1 : List.drop room plain = [] := List.drop_of_length_le (by omega)
            rw [h2, hpend2, List.drop_append_eq_append_drop, e1, hpl, List.nil_append]
      · rw [if_pos (by simpa using hfull)]
        simp only
        have hlt : s.cipher_buf_pos + got.length < E.block_size := by omega
        have hremlen : s.remaining.length < E.block_size - s.cipher_buf_pos := by
          apply hshort; omega
        have hnil : s.pending E = [] := by
          rw [hpend]
          apply dec_blocks_short
          rw [List.length_append, hstl]; omega
        have hst1 : (uninitialized_copy s.cipher_buf s.cipher_buf_pos got).take
            (s.cipher_buf_pos + got.length) = s.staged ++ got :=
          uninitialized_copy_take (by omega)
        refine ⟨by rw [hnil, List.take_nil], ?_, ?_, trivial, trivial, trivial⟩
        · rw [hnil, List.drop_nil]
          simp only [basic_ictr.pending, basic_ictr.overflow, basic_ictr.staged,
            basic_ictr.remaining, hp, List.take_zero, List.nil_append]
          rw [hst1, List.append_assoc, hrem]
          apply dec_blocks_short
          rw [List.length_append, hstl]; omega
        · constructor
          · show (uninitialized_copy _ _ _).length = _
            rw [uninitialized_copy_length (by omega)]; exact hcb
          · exact hwf.plaintext_buf_size
          · show s.cipher_buf_pos + got.length ≤ _
            omega
          · exact hwf.plaintext_buf_pos_le

theorem overflow_length (E : cipher_type) (s : basic_ictr) (hwf : s.wf E) :
    s.overflow.length = s.plaintext_buf_pos := by
  have := hwf.plaintext_buf_size
  have := hwf.plaintext_buf_pos_le
  simp only [basic_ictr.overflow, List.length_take]; omega

theorem staged_length (E : cipher_type) (s : basic_ictr) (hwf : s.wf E) :
    s.staged.length = s.cipher_buf_pos := by
  have := hwf.cipher_buf_size
  have := hwf.cipher_buf_pos_le
  simp only [basic_ictr.staged, List.length_take]; omega

theorem mread_spec (E : cipher_type) (s : basic_ictr) (n : Nat) (hwf : s.wf E) :
    (s.mread E n).2 = (s.pending E).take n ∧
    (s.mread E n).1.pending E = (s.pending E).drop n ∧
    (s.mread E n).1.wf E ∧
    (s.mread E n).1.key = s.key ∧
    (s.mread E n).1.nonce = s.nonce ∧
    (s.mread E n).1.ib.data = s.ib.data := by
  unfold basic_ictr.mread
  by_cases hp : s.plaintext_buf_pos = 0
  · rw [if_neg (by simpa using hp)]
    exact mread_loop_spec E (n + 1) s n hwf hp (Nat.lt_succ_self n)
  · rw [if_pos hp]
    have hol := overflow_length E s hwf
    have hpb := hwf.plaintext_buf_size
    have hpp := hwf.plaintext_buf_pos_le
    simp only
    by_cases hlt : s.plaintext_buf_pos < n
    · -- the overflow bytes are used up and the loop runs
      rw [if_pos hlt, if_neg (by simp)]
      simp only [Nat.sub_self]
      have hwf0 : basic_ictr.wf E { s with plaintext_buf_pos := 0 } :=
        ⟨hwf.cipher_buf_size, hwf.plaintext_buf_size, hwf.cipher_buf_pos_le, Nat.zero_le _⟩
      obtain ⟨h1, h2, h3, h4, h5, h6⟩ := mread_loop_spec E (n - s.plaintext_buf_pos + 1)
        { s with plaintext_buf_pos := 0 } (n - s.plaintext_buf_pos) hwf0 rfl (Nat.lt_succ_self _)
      have hpend : s.pending E = s.overflow ++
          basic_ictr.pending E { s with plaintext_buf_pos := 0 } := by
        simp [basic_ictr.pending, basic_ictr.overflow, basic_ictr.staged, basic_ictr.remaining]
      refine ⟨?_, ?_, h3, h4, h5, h6⟩
      · have e1 : List.take n s.overflow = s.overflow := List.take_of_length_le (by omega)
        rw [h1, hpend, List.take_append_eq_append_take, e1, hol]
        rfl
      · have e1 : List.drop n s.overflow = [] := List.drop_of_length_le (by omega)
        rw [h2, hpend, List.drop_append_eq_append_drop, e1, hol, List.nil_append]
    · rw [if_neg hlt]
      have hpend : s.pending E = s.overflow ++
          basic_ictr.pending E { s with plaintext_buf_pos := 0 } := by
        simp [basic_ictr.pending, basic_ictr.overflow, basic_ictr.staged, basic_ictr.remaining]
      by_cases hrem : s.plaintext_buf_pos - n = 0
      · -- the destination takes exactly the overflow bytes
        rw [if_neg (by simpa using hrem)]
        have hn : n = s.plaintext_buf_pos := by omega
        simp only [Nat.sub_self]
        have hwf0 : basic_ictr.wf E { s with plaintext_buf_pos := 0 } :=
          ⟨hwf.cipher_buf_size, hwf.plaintext_buf_size, hwf.cipher_buf_pos_le, Nat.zero_le _⟩
        obtain ⟨h1, h2, h3, h4, h5, h6⟩ := mread_loop_spec E (0 + 1)
          { s with plaintext_buf_pos := 0 } 0 hwf0 rfl (Nat.lt_succ_self _)
        refine ⟨?_, ?_, h3, h4, h5, h6⟩
        · have e1 : List.take n s.overflow = s.overflow := List.take_of_length_le (by omega)
          rw [h1, hpend, List.take_append_eq_append_take, e1, hol, hn, Nat.sub_self]
          rfl
        · have e1 : List.drop n s.overflow = [] := List.drop_of_length_le (by omega)
          rw [h2, hpend, List.drop_append_eq_append_drop, e1, hol, hn, Nat.sub_self,
            List.nil_append]
      · -- the destination is filled from the overflow buffer alone
        rw [if_pos hrem]
        have hsrc : ((s.plaintext_buf.drop n).take (s.plaintext_buf_pos - n)).length =
            s.plaintext_buf_pos - n := by
          rw [List.length_take, List.length_drop]; omega
        refine ⟨?_, ?_, ?_, rfl, rfl, rfl⟩
        · show List.take n s.plaintext_buf = _
          rw [hpend, List.take_append_of_le_length (by omega)]
          simp only [basic_ictr.overflow, List.take_take]
          rw [Nat.min_eq_left (by omega)]
        · rw [hpend, List.drop_append_of_le_length (by omega)]
          simp only [basic_ictr.pending, basic_ictr.overflow, basic_ictr.staged,
            basic_ictr.remaining]
          congr 1
          have := uninitialized_copy_zero_take s.plaintext_buf
            ((s.plaintext_buf.drop n).take (s.plaintext_buf_pos - n))
          rw [hsrc] at this
          rw [this, List.drop_take]
        · constructor
          · exact hwf.cipher_buf_size
          · show (uninitialized_copy _ _ _).length = _
            rw [uninitialized_copy_length (by rw [hsrc]; omega)]
            exact hpb
          · exact hwf.cipher_buf_pos_le
          · show s.plaintext_buf_pos - n ≤ _
            omega

theorem reads_spec (E : cipher_type) (s : basic_ictr) (n : Nat) (hwf : s.wf E) :
    (s.reads E n).2 = (s.pending E).take n ∧
    (s.reads E n).1.pending E = (s.pending E).drop n ∧
    (s.reads E n).1.wf E ∧
    (s.reads E n).1.key = s.key ∧
    (s.reads E n).1.nonce = s.nonce ∧
    (s.reads E n).1.ib.data = s.ib.data := mread_spec E s n hwf

theorem pending_length (E : cipher_type) (s : basic_ictr) (hwf : s.wf E) :
    (s.pending E).length = s.plaintext_buf_pos +
      E.block_size * ((s.cipher_buf_pos + (s.ib.data.length - s.ib.pos)) / E.block_size) := by
  unfold basic_ictr.pending
  rw [List.length_append, dec_blocks_stream_length, overflow_length E s hwf, List.length_append,
    staged_length E s hwf]
  simp [basic_ictr.remaining]

theorem reads_seq_spec (E : cipher_type) (s : basic_ictr) (ns : List Nat) (hwf : s.wf E) :
    (basic_ictr.reads_seq E s ns).2 = (s.pending E).take ns.sum ∧
    (basic_ictr.reads_seq E s ns).1.pending E = (s.pending E).drop ns.sum ∧
    (basic_ictr.reads_seq E s ns).1.wf E := by
  induction ns generalizing s with
  | nil => simp [basic_ictr.reads_seq, hwf]
  | cons n ns ih =>
    obtain ⟨h1, h2, h3, -, -, -⟩ := reads_spec E s n hwf
    obtain ⟨i1, i2, i3⟩ := ih (s.reads E n).1 h3
    simp only [basic_ictr.reads_seq, List.sum_cons]
    refine ⟨?_, ?_, i3⟩
    · rw [i1, h1, h2, List.take_add]
    · rw [i2, h2, List.drop_drop]

theorem init_wf (E : cipher_type) (key nonce : block_type) (ib : source) :
    (basic_ictr.init E key nonce ib).wf E := by
  constructor <;> simp [basic_ictr.init]

/-! ## Decryption without wrap-around -/

/-- Without wrap-around, `mread` decrypts block `j` of the stream with the keystream block of
index `j`. -/
theorem dec_blocks_eq_ctr_from (E : cipher_type) (key nonce : block_type) (i n : Nat)
    (xs : block_type) (hi : (i + n) * E.block_size < size_t_card E)
    (hx : n * E.block_size ≤ xs.length) :
    dec_blocks E key nonce ((i + 1) * E.block_size) n xs = ctr_from E key nonce i n xs := by
  have hpos := E.block_size_pos
  induction n generalizing i xs with
  | zero => rfl
  | succ n ih =>
    have hle : E.block_size ≤ xs.length := by nlinarith
    have hi1 : i + 1 < size_t_card E := by nlinarith
    simp only [dec_blocks, ctr_from]
    rw [Nat.mul_div_cancel _ hpos, size_t_pred_succ E hi1,
      zero_pad_of_length E (by rw [List.length_take]; exact Nat.min_eq_left hle)]
    congr 1
    cases n with
    | zero => rfl
    | succ m =>
      have h2 : (i + 1) * E.block_size + E.block_size = (i + 1 + 1) * E.block_size := by ring
      rw [h2, to_size_t_of_lt E (by nlinarith)]
      exact ih (i + 1) _ (by rw [show i + 1 + (m + 1) = i + (m + 1 + 1) by omega]; exact hi)
        (by rw [List.length_drop]; rw [Nat.succ_mul] at hx; omega)

theorem ctr_from_ctr_from (E : cipher_type) (key nonce : block_type) (i n : Nat)
    (xs : block_type) :
    ctr_from E key nonce i n (ctr_from E key nonce i n xs) =
      (xs ++ List.replicate (n * E.block_size - xs.length) 0).take (n * E.block_size) := by
  have hpos := E.block_size_pos
  induction n generalizing i xs with
  | zero => simp [ctr_from]
  | succ n ih =>
    have hBl : (xor_block (keystream E key nonce i) (zero_pad E (xs.take E.block_size))).length =
        E.block_size := by
      rw [xor_block_length (by rw [keystream_length, zero_pad_take_length]), keystream_length]
    simp only [ctr_from]
    have hinv := xor_block_xor_block (keystream E key nonce i)
      (zero_pad E (xs.take E.block_size)) (by rw [keystream_length, zero_pad_take_length])
    generalize xor_block (keystream E key nonce i) (zero_pad E (xs.take E.block_size)) = B
      at hBl hinv ⊢
    rw [List.take_left' hBl, List.drop_left' hBl, zero_pad_of_length E hBl, ih, hinv]
    have hsplit : (n + 1) * E.block_size = E.block_size + n * E.block_size := by ring
    by_cases hle : E.block_size ≤ xs.length
    · have htl : (xs.take E.block_size).length = E.block_size := by
        rw [List.length_take]; exact Nat.min_eq_left hle
      rw [zero_pad_of_length E htl]
      have hz : (n + 1) * E.block_size - xs.length =
          n * E.block_size - (xs.drop E.block_size).length := by
        rw [List.length_drop, hsplit]; omega
      rw [hz]
      conv_rhs => rw [← List.take_append_drop E.block_size xs, List.append_assoc, hsplit,
        List.take_add]
      rw [List.take_left' htl, List.drop_left' htl]
      simp only [List.take_append_drop]
    · have hxs : xs.take E.block_size = xs := List.take_of_length_le (by omega)
      have hdr : xs.drop E.block_size = [] := List.drop_of_length_le (by omega)
      rw [hxs, hdr]
      simp only [zero_pad, List.length_nil, Nat.sub_zero, List.nil_append]
      rw [List.take_of_length_le (by simp), List.take_of_length_le (by simp; omega),
        List.append_assoc, List.append_replicate_replicate]
      congr 2
      rw [hsplit]; omega

theorem dec_stream_eq (E : cipher_type) (key nonce : block_type) (i : Nat) (xs : block_type)
    (h : i * E.block_size + xs.length < size_t_card E) :
    dec_blocks E key nonce (to_size_t E (i * E.block_size + E.block_size))
      (xs.length / E.block_size) xs = ctr_from E key nonce i (xs.length / E.block_size) xs := by
  have hpos := E.block_size_pos
  by_cases hx : xs.length < E.block_size
  · rw [Nat.div_eq_of_lt hx]; rfl
  · have hdm : xs.length / E.block_size * E.block_size ≤ xs.length := Nat.div_mul_le_self _ _
    rw [to_size_t_of_lt E (by omega)]
    have : i * E.block_size + E.block_size = (i + 1) * E.block_size := by ring
    rw [this]
    exact dec_blocks_eq_ctr_from E key nonce i _ xs (by rw [Nat.add_mul]; omega) hdm

theorem ctr_from_drop (E : cipher_type) (key nonce : block_type) (q : Nat) (C : block_type)
    (hq : q * E.block_size ≤ C.length) :
    (ctr_from E key nonce 0 (C.length / E.block_size) C).drop (q * E.block_size) =
      ctr_from E key nonce q ((C.length - q * E.block_size) / E.block_size)
        (C.drop (q * E.block_size)) := by
  have hpos := E.block_size_pos
  have htl : (C.take (q * E.block_size)).length = q * E.block_size := by
    rw [List.length_take]; exact Nat.min_eq_left hq
  have hdiv : C.length / E.block_size = q + (C.length - q * E.block_size) / E.block_size := by
    have : C.length = (C.length - q * E.block_size) + q * E.block_size := by omega
    conv_lhs => rw [this, Nat.add_mul_div_right _ _ hpos]
    omega
  have := ctr_from_append E key nonce 0 q ((C.length - q * E.block_size) / E.block_size)
    (C.take (q * E.block_size)) (C.drop (q * E.block_size)) htl
  rw [List.take_append_drop, Nat.zero_add] at this
  rw [hdiv, this]
  exact List.drop_left' (ctr_from_length E key nonce 0 q _)

theorem init_pending (E : cipher_type) (key nonce C : block_type)
    (h : C.length < size_t_card E) :
    (basic_ictr.init E key nonce { data := C, pos := 0 }).pending E =
      ctr_from E key nonce 0 (C.length / E.block_size) C := by
  have := dec_stream_eq E key nonce 0 C (by simpa using h)
  simp only [Nat.zero_mul, Nat.zero_add] at this
  simp [basic_ictr.pending, basic_ictr.overflow, basic_ictr.staged, basic_ictr.remaining,
    basic_ictr.init, this]

theorem seek_aligned_eq (E : cipher_type) (p : Nat) (hp : p < size_t_card E) :
    to_size_t E (p / E.block_size * E.block_size) = p / E.block_size * E.block_size :=
  to_size_t_of_lt E (Nat.lt_of_le_of_lt (Nat.div_mul_le_self _ _) hp)

theorem seek_read_length_lt (E : cipher_type) (p : Nat) (hp : p < size_t_card E) :
    p - to_size_t E (p / E.block_size * E.block_size) < E.block_size := by
  rw [seek_aligned_eq E p hp]
  have h1 := Nat.div_add_mod p E.block_size
  have h2 := Nat.mod_lt p E.block_size_pos
  rw [Nat.mul_comm] at h1
  omega

theorem seek_wf (E : cipher_type) (s : basic_ictr) (offset : Nat) (hwf : s.wf E) :
    (s.seek E offset).1.wf E ∧ (s.seek E offset).1.key = s.key ∧
    (s.seek E offset).1.nonce = s.nonce ∧ (s.seek E offset).1.ib.data = s.ib.data := by
  have hpos := E.block_size_pos
  simp only [basic_ictr.seek, source.seek]
  split
  · exact ⟨⟨hwf.cipher_buf_size, hwf.plaintext_buf_size, Nat.zero_le _, Nat.zero_le _⟩,
      rfl, rfl, rfl⟩
  · split
    · exact ⟨⟨hwf.cipher_buf_size, hwf.plaintext_buf_size, hwf.cipher_buf_pos_le,
        hwf.plaintext_buf_pos_le⟩, rfl, rfl, rfl⟩
    · rename_i hlen
      simp only [ne_eq, Decidable.not_not] at hlen
      have hrl : to_size_t E offset -
          to_size_t E (to_size_t E offset / E.block_size * E.block_size) < E.block_size := by
        exact seek_read_length_lt E _ (Nat.mod_lt _ (size_t_card_pos E))
      have hwf1 : basic_ictr.wf E
          { s with
            ib := ((({ s.ib with pos := offset } : source).seek
              (to_size_t E (to_size_t E offset / E.block_size * E.block_size))).1.reads
              (to_size_t E offset -
                to_size_t E (to_size_t E offset / E.block_size * E.block_size))).2
            cipher_buf := uninitialized_copy (List.replicate E.block_size 0) 0
              ((({ s.ib with pos := offset } : source).seek
              (to_size_t E (to_size_t E offset / E.block_size * E.block_size))).1.reads
              (to_size_t E offset -
                to_size_t E (to_size_t E offset / E.block_size * E.block_size))).1
            cipher_buf_pos := to_size_t E offset -
                to_size_t E (to_size_t E offset / E.block_size * E.block_size)
            plaintext_buf_pos := 0
            char_counter := to_size_t E offset } := by
        constructor
        · show (uninitialized_copy _ _ _).length = _
          rw [uninitialized_copy_length (by
            simp only [source.seek] at hlen ⊢
            rw [hlen, List.length_replicate]; omega)]
          simp
        · exact hwf.plaintext_buf_size
        · exact Nat.le_of_lt hrl
        · exact Nat.zero_le _
      obtain ⟨-, -, h3, h4, h5, h6⟩ := reads_spec E _ (to_size_t E offset -
        to_size_t E (to_size_t E offset / E.block_size * E.block_size)) hwf1
      exact ⟨h3, h4, h5, h6⟩

theorem call_wf (E : cipher_type) (s : basic_ictr) (c : ictr_call) (hwf : s.wf E) :
    (s.call E c).wf E ∧ (s.call E c).key = s.key ∧ (s.call E c).nonce = s.nonce ∧
    (s.call E c).ib.data = s.ib.data := by
  cases c with
  | reads n =>
    obtain ⟨-, -, h3, h4, h5, h6⟩ := reads_spec E s n hwf
    exact ⟨h3, h4, h5, h6⟩
  | seek offset => exact seek_wf E s offset hwf

theorem calls_wf (E : cipher_type) (s : basic_ictr) (cs : List ictr_call) (hwf : s.wf E) :
    (s.calls E cs).wf E ∧ (s.calls E cs).key = s.key ∧ (s.calls E cs).nonce = s.nonce ∧
    (s.calls E cs).ib.data = s.ib.data := by
  induction cs generalizing s with
  | nil => exact ⟨hwf, rfl, rfl, rfl⟩
  | cons c cs ih =>
    obtain ⟨h1, h2, h3, h4⟩ := call_wf E s c hwf
    obtain ⟨i1, i2, i3, i4⟩ := ih (s.call E c) h1
    exact ⟨i1, i2.trans h2, i3.trans h3, i4.trans h4⟩

theorem seek_spec (E : cipher_type) (s : basic_ictr) (k : Nat) (hwf : s.wf E)
    (hlt : s.ib.data.length < size_t_card E) (hk : k ≤ s.ib.data.length) :
    (s.seek E k).2 = some k ∧
    (s.seek E k).1.pending E =
      (ctr_from E s.key s.nonce 0 (s.ib.data.length / E.block_size) s.ib.data).drop k := by
  have hpos := E.block_size_pos
  have hkW : k < size_t_card E := Nat.lt_of_le_of_lt hk hlt
  have hq : k / E.block_size * E.block_size ≤ k := Nat.div_mul_le_self _ _
  have hmod : k - k / E.block_size * E.block_size < E.block_size := by
    have h1 := Nat.div_add_mod k E.block_size
    have h2 := Nat.mod_lt k hpos
    rw [Nat.mul_comm] at h1
    omega
  simp only [basic_ictr.seek, source.seek]
  rw [to_size_t_of_lt E hkW, seek_aligned_eq E k hkW]
  generalize hqd : k / E.block_size = q at hq hmod ⊢
  have hdrop := ctr_from_drop E s.key s.nonce q s.ib.data (by omega)
  have hstream := dec_stream_eq E s.key s.nonce q (s.ib.data.drop (q * E.block_size))
    (by rw [List.length_drop]; omega)
  rw [List.length_drop] at hstream
  by_cases hal : k = q * E.block_size
  · rw [if_pos hal]
    refine ⟨rfl, ?_⟩
    simp only [basic_ictr.pending, basic_ictr.overflow, basic_ictr.staged, basic_ictr.remaining,
      List.take_zero, List.nil_append, Nat.sub_zero, List.length_drop]
    rw [hal, hstream, hdrop]
  · rw [if_neg hal]
    have hgl : ((s.ib.data.drop (q * E.block_size)).take (k - q * E.block_size)).length =
        k - q * E.block_size := by
      rw [List.length_take, List.length_drop]; omega
    have hgot : (({ data := s.ib.data, pos := q * E.block_size } : source).reads
        (k - q * E.block_size)) =
        ((s.ib.data.drop (q * E.block_size)).take (k - q * E.block_size),
          { data := s.ib.data, pos := k }) := by
      simp only [source.reads, hgl]
      congr 2
      omega
    rw [hgot]
    simp only
    rw [if_neg (by simpa using hgl)]
    refine ⟨rfl, ?_⟩
    have hcl : (uninitialized_copy (List.replicate E.block_size 0) 0
        ((s.ib.data.drop (q * E.block_size)).take (k - q * E.block_size))).length =
        E.block_size := by
      rw [uninitialized_copy_length (by rw [hgl, List.length_replicate]; omega)]
      simp
    have hwf1 : basic_ictr.wf E
        { s with
          ib := { data := s.ib.data, pos := k }
          cipher_buf := uninitialized_copy (List.replicate E.block_size 0) 0
            ((s.ib.data.drop (q * E.block_size)).take (k - q * E.block_size))
          cipher_buf_pos := k - q * E.block_size
          plaintext_buf_pos := 0
          char_counter := k } :=
      ⟨hcl, hwf.plaintext_buf_size, Nat.le_of_lt hmod, Nat.zero_le _⟩
    obtain ⟨-, h2, -, -, -, -⟩ := reads_spec E _ (k - q * E.block_size) hwf1
    rw [h2]
    have hst : (uninitialized_copy (List.replicate E.block_size 0) 0
        ((s.ib.data.drop (q * E.block_size)).take (k - q * E.block_size))).take
        (k - q * E.block_size) =
        (s.ib.data.drop (q * E.block_size)).take (k - q * E.block_size) := by
      have := uninitialized_copy_zero_take (List.replicate E.block_size 0)
        ((s.ib.data.drop (q * E.block_size)).take (k - q * E.block_size))
      rw [hgl] at this
      exact this
    have hjoin : (s.ib.data.drop (q * E.block_size)).take (k - q * E.block_size) ++
        s.ib.data.drop k = s.ib.data.drop (q * E.block_size) := by
      have : s.ib.data.drop k =
          (s.ib.data.drop (q * E.block_size)).drop (k - q * E.block_size) := by
        rw [List.drop_drop]; congr 1; omega
      rw [this, List.take_append_drop]
    have hcnt : k + (E.block_size - (k - q * E.block_size)) = q * E.block_size + E.block_size := by
      omega
    simp only [basic_ictr.pending, basic_ictr.overflow, basic_ictr.staged, basic_ictr.remaining,
      List.take_zero, List.nil_append]
    rw [hst, hjoin, hcnt, List.length_drop, hstream, ← hdrop, List.drop_drop]
    congr 1
    omega

/-! ## Encryption followed by decryption -/

theorem block_count_mul_ge (E : cipher_type) (n : Nat) :
    n ≤ block_count E n * E.block_size := by
  have hpos := E.block_size_pos
  unfold block_count
  have h1 := Nat.div_add_mod (n + E.block_size - 1) E.block_size
  have h2 := Nat.mod_lt (n + E.block_size - 1) hpos
  rw [Nat.mul_comm] at h1
  omega

theorem block_count_mul_lt (E : cipher_type) (n : Nat) :
    block_count E n * E.block_size < n + E.block_size := by
  have hpos := E.block_size_pos
  unfold block_count
  have := Nat.div_mul_le_self (n + E.block_size - 1) E.block_size
  omega

theorem writes_seq_flush (E : cipher_type) (key nonce : block_type) (chunks : List input_range)
    (hpe : ∀ input ∈ chunks, E.block_size ≤ input.pe)
    (h : (input_bytes chunks).length < size_t_card E) :
    ((basic_octr.init E key nonce).writes_seq E chunks).map (fun s => (s.flush E).ob.bytes) =
      some (ctr_reference E key nonce (input_bytes chunks)) := by
  obtain ⟨s1, F, T, hs1, heq, hh⟩ := writes_seq_holds E key nonce chunks [] [] _
    (init_holds E key nonce) hpe (by simpa using h)
  rw [hs1, Option.map_some', flush_holds E key nonce F T _ hh, heq]
  simp

theorem writes_flush (E : cipher_type) (key nonce : block_type) (P : input_range)
    (hpe : E.block_size ≤ P.pe) (h : P.bytes.length < size_t_card E) :
    ((basic_octr.init E key nonce).writes E P).map (fun s => (s.flush E).ob.bytes) =
      some (ctr_reference E key nonce P.bytes) := by
  obtain ⟨s1, F, T, hs1, heq, hh⟩ := writes_holds E key nonce [] [] P _
    (init_holds E key nonce) hpe (by simpa using h)
  rw [hs1, Option.map_some', flush_holds E key nonce F T _ hh, heq]
  simp

theorem ctr_reference_length (E : cipher_type) (key nonce P : block_type) :
    (ctr_reference E key nonce P).length = block_count E P.length * E.block_size := by
  rw [ctr_reference_eq, ctr_from_length]

/-- Decrypting the reference ciphertext of `P` from offset `0` delivers `P` followed by the
zero padding. -/
theorem init_pending_reference (E : cipher_type) (key nonce P : block_type)
    (h : P.length + E.block_size ≤ size_t_card E) :
    (basic_ictr.init E key nonce { data := ctr_reference E key nonce P, pos := 0 }).pending E =
      P ++ List.replicate (block_count E P.length * E.block_size - P.length) 0 := by
  have hpos := E.block_size_pos
  have h1 := block_count_mul_ge E P.length
  have h2 := block_count_mul_lt E P.length
  rw [init_pending E key nonce _ (by rw [ctr_reference_length]; omega), ctr_reference_length,
    Nat.mul_div_cancel _ hpos, ctr_reference_eq, ctr_from_ctr_from]
  apply List.take_of_length_le
  simp only [List.length_append, List.length_replicate]
  omega

/-! ## Properties of the adapters -/

/-- Round trip on a range that does not end below the address `block_size`: writing the bytes
of the range to a fresh encrypt adapter with one `writes` call followed by `flush`, and reading
the bytes the sink received through a fresh decrypt adapter with the same key and nonce by one
`reads` call into a destination of as many bytes, returns exactly the bytes written. The
plaintext and the block buffer are objects of one address space: their sizes together do not
exceed the number of `std::size_t` values. -/
theorem round_trip (E : cipher_type) (key nonce : block_type) (P : input_range)
    (hpe : E.block_size ≤ P.pe) (hsize : P.bytes.length + E.block_size ≤ size_t_card E) :
    ((basic_octr.init E key nonce).writes E P).map (fun s =>
      ((basic_ictr.init E key nonce { data := (s.flush E).ob.bytes, pos := 0 }).reads E
        P.bytes.length).2) = some P.bytes := by
  have hpos := E.block_size_pos
  obtain ⟨s1, F, T, hs1, heq, hh⟩ := writes_holds E key nonce [] [] P _
    (init_holds E key nonce) hpe (by simp only [List.length_nil]; omega)
  have hf : (s1.flush E).ob.bytes = ctr_reference E key nonce P.bytes := by
    rw [flush_holds E key nonce F T _ hh, heq]; simp
  rw [hs1, Option.map_some', hf]
  obtain ⟨h1, -⟩ := reads_spec E _ P.bytes.length
    (init_wf E key nonce { data := ctr_reference E key nonce P.bytes, pos := 0 })
  rw [h1, init_pending_reference E key nonce P.bytes hsize]
  exact congrArg some (List.take_left' rfl)

/-- The round trip of 20 bytes at the address `4096` through blocks of 16 bytes with a
`std::size_t` of 8 bytes. -/
theorem round_trip_example :
    ((basic_octr.init (sum_cipher 15 8) (List.replicate 16 0) (List.replicate 8 0)).writes
        (sum_cipher 15 8) { pb := 4096, bytes := List.replicate 20 65 }).map (fun s =>
      ((basic_ictr.init (sum_cipher 15 8) (List.replicate 16 0) (List.replicate 8 0)
        { data := (s.flush (sum_cipher 15 8)).ob.bytes, pos := 0 }).reads (sum_cipher 15 8)
        20).2) = some (List.replicate 20 65) :=
  round_trip (sum_cipher 15 8) (List.replicate 16 0) (List.replicate 8 0)
    { pb := 4096, bytes := List.replicate 20 65 } (by decide) (by decide)

/-- C1 (round trip), evaluated where the code departs from the claim: for the empty plaintext
given as the range of a null pointer (`b` and `e` both null, as for an empty `std::vector`),
`writes` on a fresh encrypt adapter computes `last_length = pe - block_size`, which wraps
around to the address `2^64 - 16`; the test `pi <= last_length` holds, the block loop is
entered and `encrypt_out` reads a block at the address `0`, outside the range. The call does
not return, so there is no ciphertext to read back. For the empty range at the address `4096`
the call returns and the round trip delivers the empty plaintext. -/
theorem round_trip_null_range :
    last_length (sum_cipher 15 8) 0 = 2 ^ 64 - 16 ∧
    (basic_octr.init (sum_cipher 15 8) (List.replicate 16 0) (List.replicate 8 0)).writes
        (sum_cipher 15 8) { pb := 0, bytes := [] } = none ∧
    ((basic_octr.init (sum_cipher 15 8) (List.replicate 16 0) (List.replicate 8 0)).writes
        (sum_cipher 15 8) { pb := 4096, bytes := [] }).map (fun s =>
      ((basic_ictr.init (sum_cipher 15 8) (List.replicate 16 0) (List.replicate 8 0)
        { data := (s.flush (sum_cipher 15 8)).ob.bytes, pos := 0 }).reads (sum_cipher 15 8)
        0).2) = some [] := by
  decide

/-- The reference ciphertext on a range that does not end below the address `block_size`:
after `writes` of the range and `flush` on a fresh encrypt adapter the sink has received
exactly the reference ciphertext of its bytes `P`: `ceil(|P| / block_size)` blocks, block `i`
being the XOR of `E(nonce ++ bytes(i))` with block `i` of `P` zero-padded to a block boundary,
and nothing else. -/
theorem writes_flush_reference (E : cipher_type) (key nonce : block_type) (P : input_range)
    (hpe : E.block_size ≤ P.pe) (hsize : P.bytes.length < size_t_card E) :
    ((basic_octr.init E key nonce).writes E P).map (fun s => (s.flush E).ob.bytes) =
      some (ctr_reference E key nonce P.bytes) ∧
    (ctr_reference E key nonce P.bytes).length = block_count E P.bytes.length * E.block_size :=
  ⟨writes_flush E key nonce P hpe hsize, ctr_reference_length E key nonce P.bytes⟩

/-- The reference ciphertext of 20 bytes at the address `4096`: two blocks of 16 bytes. -/
theorem writes_flush_reference_example :
    ((basic_octr.init (sum_cipher 15 8) (List.replicate 16 0) (List.replicate 8 0)).writes
        (sum_cipher 15 8) { pb := 4096, bytes := List.replicate 20 65 }).map
        (fun s => (s.flush (sum_cipher 15 8)).ob.bytes) =
      some (ctr_reference (sum_cipher 15 8) (List.replicate 16 0) (List.replicate 8 0)
        (List.replicate 20 65)) ∧
    (ctr_reference (sum_cipher 15 8) (List.replicate 16 0) (List.replicate 8 0)
        (List.replicate 20 65)).length = 2 * 16 :=
  writes_flush_reference (sum_cipher 15 8) (List.replicate 16 0) (List.replicate 8 0)
    { pb := 4096, bytes := List.replicate 20 65 } (by decide) (by decide)

/-- C2 (reference CTR ciphertext), evaluated where the code departs from the claim: for the
empty plaintext the reference ciphertext has no block, and the claim has `writes` and `flush`
send nothing; given the empty plaintext as the range of a null pointer, `writes` on a fresh
encrypt adapter reads a block at the address `0` and does not return, so `flush` is not
reached. For the empty range at the address `4096` the sink receives nothing, as claimed. -/
theorem writes_flush_null_range :
    ctr_reference (sum_cipher 15 8) (List.replicate 16 0) (List.replicate 8 0) [] = [] ∧
    ((basic_octr.init (sum_cipher 15 8) (List.replicate 16 0) (List.replicate 8 0)).writes
        (sum_cipher 15 8) { pb := 0, bytes := [] }).map
        (fun s => (s.flush (sum_cipher 15 8)).ob.bytes) = none ∧
    ((basic_octr.init (sum_cipher 15 8) (List.replicate 16 0) (List.replicate 8 0)).writes
        (sum_cipher 15 8) { pb := 4096, bytes := [] }).map
        (fun s => (s.flush (sum_cipher 15 8)).ob.bytes) = some [] := by
  decide

/-- Write-side chunk invariance on ranges that do not end below the address `block_size`:
passing the chunks of a plaintext to successive `writes` calls on a fresh encrypt adapter and
then calling `flush` makes the sink receive the same bytes as a single `writes` of the whole
plaintext followed by `flush`. -/
theorem writes_chunk_invariance (E : cipher_type) (key nonce : block_type)
    (chunks : List input_range) (P : input_range) (hP : P.bytes = input_bytes chunks)
    (hpe : ∀ input ∈ chunks, E.block_size ≤ input.pe) (hPe : E.block_size ≤ P.pe)
    (hsize : P.bytes.length < size_t_card E) :
    ((basic_octr.init E key nonce).writes_seq E chunks).map (fun s => (s.flush E).ob.bytes) =
      ((basic_octr.init E key nonce).writes E P).map (fun s => (s.flush E).ob.bytes) := by
  rw [writes_seq_flush E key nonce chunks hpe (by rw [← hP]; exact hsize),
    writes_flush E key nonce P hPe hsize, hP]

/-- Chunks of 1, 0, 2 and 17 bytes of a plaintext of 20 bytes at the address `4096`. -/
theorem writes_chunk_invariance_example :
    ((basic_octr.init (sum_cipher 15 8) (List.replicate 16 0) (List.replicate 8 0)).writes_seq
        (sum_cipher 15 8)
        [{ pb := 4096, bytes := [65] }, { pb := 4097, bytes := [] },
          { pb := 4097, bytes := [66, 67] }, { pb := 4099, bytes := List.replicate 17 68 }]).map
        (fun s => (s.flush (sum_cipher 15 8)).ob.bytes) =
      ((basic_octr.init (sum_cipher 15 8) (List.replicate 16 0) (List.replicate 8 0)).writes
        (sum_cipher 15 8) { pb := 4096, bytes := [65, 66, 67] ++ List.replicate 17 68 }).map
        (fun s => (s.flush (sum_cipher 15 8)).ob.bytes) :=
  writes_chunk_invariance (sum_cipher 15 8) (List.replicate 16 0) (List.replicate 8 0)
    [{ pb := 4096, bytes := [65] }, { pb := 4097, bytes := [] },
      { pb := 4097, bytes := [66, 67] }, { pb := 4099, bytes := List.replicate 17 68 }]
    { pb := 4096, bytes := [65, 66, 67] ++ List.replicate 17 68 }
    (by decide) (by decide) (by decide) (by decide)

/-- C3 (write-side chunk invariance), evaluated where the code departs from the claim: a
plaintext of 16 bytes passed as a chunk of 16 bytes followed by an empty chunk that is the
range of a null pointer. The first `writes` emits the block and leaves the accumulator empty;
the second `writes` then enters the block loop, reads a block at the address `0` and does not
return, so the sink never receives what the single `writes` of the 16 bytes followed by
`flush` sends. With the empty chunk at the address `4112` the two sinks agree. -/
theorem writes_seq_null_chunk :
    ((basic_octr.init (sum_cipher 15 8) (List.replicate 16 0) (List.replicate 8 0)).writes_seq
        (sum_cipher 15 8)
        [{ pb := 4096, bytes := List.replicate 16 65 }, { pb := 0, bytes := [] }]).map
        (fun s => (s.flush (sum_cipher 15 8)).ob.bytes) = none ∧
    ((basic_octr.init (sum_cipher 15 8) (List.replicate 16 0) (List.replicate 8 0)).writes
        (sum_cipher 15 8) { pb := 4096, bytes := List.replicate 16 65 }).map
        (fun s => (s.flush (sum_cipher 15 8)).ob.bytes) =
      some (ctr_reference (sum_cipher 15 8) (List.replicate 16 0) (List.replicate 8 0)
        (List.replicate 16 65)) ∧
    ((basic_octr.init (sum_cipher 15 8) (List.replicate 16 0) (List.replicate 8 0)).writes_seq
        (sum_cipher 15 8)
        [{ pb := 4096, bytes := List.replicate 16 65 }, { pb := 4112, bytes := [] }]).map
        (fun s => (s.flush (sum_cipher 15 8)).ob.bytes) =
      some (ctr_reference (sum_cipher 15 8) (List.replicate 16 0) (List.replicate 8 0)
        (List.replicate 16 65)) := by
  decide

/-- C4 (read-side chunk invariance). For every ciphertext source `C` and every sequence of
destination lengths, the concatenation of the bytes returned by successive `reads` calls on a
fresh decrypt adapter is the prefix, of the same length, of the bytes returned by a single
`reads` call with a destination of `|C|` bytes on another fresh decrypt adapter over `C`. -/
theorem reads_chunk_invariance (E : cipher_type) (key nonce C : block_type) (ns : List Nat) :
    (basic_ictr.reads_seq E (basic_ictr.init E key nonce { data := C, pos := 0 }) ns).2 =
      (((basic_ictr.init E key nonce { data := C, pos := 0 }).reads E C.length).2).take
        (basic_ictr.reads_seq E (basic_ictr.init E key nonce { data := C, pos := 0 }) ns).2.length
    := by
  have hwf := init_wf E key nonce { data := C, pos := 0 }
  obtain ⟨h1, -, -⟩ := reads_seq_spec E _ ns hwf
  obtain ⟨h2, -⟩ := reads_spec E _ C.length hwf
  have hlen := pending_length E _ hwf
  have hle : ((basic_ictr.init E key nonce { data := C, pos := 0 }).pending E).length ≤
      C.length := by
    rw [hlen]
    simp only [basic_ictr.init, Nat.zero_add, Nat.sub_zero]
    exact Nat.mul_div_le _ _
  rw [h1, h2, List.take_of_length_le hle, List.length_take]
  rcases Nat.le_total ns.sum
    ((basic_ictr.init E key nonce { data := C, pos := 0 }).pending E).length with h | h
  · rw [Nat.min_eq_left h]
  · rw [Nat.min_eq_right h, List.take_of_length_le h, List.take_length]

/-- C5 (seek correctness). For a ciphertext source of `N` whole blocks, an offset
`k < N * block_size` and a decrypt adapter in any state reached by earlier `reads` and `seek`
calls, `seek(k)` succeeds and a following `reads` with a destination of `N * block_size - k`
bytes returns the bytes from position `k` onward of the decryption obtained by reading the
whole source from offset `0` with a fresh adapter. The offsets of the source are
`std::size_t` values. -/
theorem seek_correct (E : cipher_type) (key nonce C : block_type) (N k : Nat)
    (cs : List ictr_call) (hN : C.length = N * E.block_size)
    (hsize : C.length < size_t_card E) (hk : k < N * E.block_size) :
    (((basic_ictr.init E key nonce { data := C, pos := 0 }).calls E cs).seek E k).2 = some k ∧
    (((((basic_ictr.init E key nonce { data := C, pos := 0 }).calls E cs).seek E k).1).reads E
        (N * E.block_size - k)).2 =
      (((basic_ictr.init E key nonce { data := C, pos := 0 }).reads E (N * E.block_size)).2).drop k
    := by
  have hpos := E.block_size_pos
  have hwf0 := init_wf E key nonce { data := C, pos := 0 }
  obtain ⟨hwf, hkey, hnonce, hdata⟩ := calls_wf E _ cs hwf0
  have hdata2 : ((basic_ictr.init E key nonce { data := C, pos := 0 }).calls E cs).ib.data = C :=
    hdata
  have hkey2 : ((basic_ictr.init E key nonce { data := C, pos := 0 }).calls E cs).key = key :=
    hkey
  have hnonce2 : ((basic_ictr.init E key nonce { data := C, pos := 0 }).calls E cs).nonce
      = nonce := hnonce
  obtain ⟨s1, s2⟩ := seek_spec E _ k hwf (by rw [hdata2]; exact hsize) (by rw [hdata2]; omega)
  obtain ⟨swf, -⟩ := seek_wf E _ k hwf
  obtain ⟨r1, -⟩ := reads_spec E _ (N * E.block_size - k) swf
  obtain ⟨f1, -⟩ := reads_spec E _ (N * E.block_size) hwf0
  refine ⟨s1, ?_⟩
  rw [r1, s2, f1, init_pending E key nonce C hsize, hdata2, hkey2, hnonce2]
  have hl : (ctr_from E key nonce 0 (C.length / E.block_size) C).length = N * E.block_size := by
    rw [ctr_from_length, hN, Nat.mul_div_cancel _ hpos]
  rw [List.take_of_length_le (by rw [List.length_drop, hl]),
    List.take_of_length_le (by rw [hl])]

/-- A seek to offset 21 of a source of two blocks of 16 bytes, after a read and a seek. -/
theorem seek_correct_witness :
    ((List.replicate 32 7).length = 2 * (sum_cipher 15 8).block_size ∧
      (List.replicate 32 7).length < size_t_card (sum_cipher 15 8) ∧
      21 < 2 * (sum_cipher 15 8).block_size) ∧
    ((((basic_ictr.init (sum_cipher 15 8) (List.replicate 16 0) (List.replicate 8 0)
          { data := List.replicate 32 7, pos := 0 }).calls (sum_cipher 15 8)
          [ictr_call.reads 3, ictr_call.seek 7]).seek (sum_cipher 15 8) 21).2 = some 21 ∧
      (((((basic_ictr.init (sum_cipher 15 8) (List.replicate 16 0) (List.replicate 8 0)
          { data := List.replicate 32 7, pos := 0 }).calls (sum_cipher 15 8)
          [ictr_call.reads 3, ictr_call.seek 7]).seek (sum_cipher 15 8) 21).1).reads
          (sum_cipher 15 8) (2 * (sum_cipher 15 8).block_size - 21)).2 =
        (((basic_ictr.init (sum_cipher 15 8) (List.replicate 16 0) (List.replicate 8 0)
          { data := List.replicate 32 7, pos := 0 }).reads (sum_cipher 15 8)
          (2 * (sum_cipher 15 8).block_size)).2).drop 21) :=
  ⟨⟨by decide, by decide, by decide⟩,
    seek_correct (sum_cipher 15 8) (List.replicate 16 0) (List.replicate 8 0)
      (List.replicate 32 7) 2 21 [ictr_call.reads 3, ictr_call.seek 7]
      (by decide) (by decide) (by decide)⟩

/-- C6 (byte-at-a-time writing with `put`), evaluated where the code departs from the claim:
with blocks of 16 bytes, a key of 16 zero bytes and a nonce of 8 zero bytes, 16 `put` calls and
`flush` on a fresh encrypt adapter send the block XORed with the keystream block of index `1`,
whereas `writes` of the same 16 bytes (a range at the address `4096`) and `flush` send it XORed
with the keystream block of index `0`; the two sinks differ. -/
theorem put_seq_flush_differs :
    (((basic_octr.init (sum_cipher 15 8) (List.replicate 16 0) (List.replicate 8 0)).put_seq
        (sum_cipher 15 8) (List.replicate 16 65)).flush (sum_cipher 15 8)).ob.bytes =
      xor_block (keystream (sum_cipher 15 8) (List.replicate 16 0) (List.replicate 8 0) 1)
        (List.replicate 16 65) ∧
    ((basic_octr.init (sum_cipher 15 8) (List.replicate 16 0) (List.replicate 8 0)).writes
        (sum_cipher 15 8) { pb := 4096, bytes := List.replicate 16 65 }).map
        (fun s => (s.flush (sum_cipher 15 8)).ob.bytes) =
      some (xor_block
        (keystream (sum_cipher 15 8) (List.replicate 16 0) (List.replicate 8 0) 0)
        (List.replicate 16 65)) ∧
    some (((basic_octr.init (sum_cipher 15 8) (List.replicate 16 0)
        (List.replicate 8 0)).put_seq (sum_cipher 15 8)
        (List.replicate 16 65)).flush (sum_cipher 15 8)).ob.bytes ≠
      ((basic_octr.init (sum_cipher 15 8) (List.replicate 16 0) (List.replicate 8 0)).writes
        (sum_cipher 15 8) { pb := 4096, bytes := List.replicate 16 65 }).map
        (fun s => (s.flush (sum_cipher 15 8)).ob.bytes) := by
  decide

/-- C7 (`get` reads the next plaintext byte), evaluated where the code departs from the claim:
with blocks of 16 bytes, over the one-block ciphertext of 16 bytes `65` the first `get` returns
`65` and leaves 15 bytes `65` waiting in the overflow buffer; the second `get` returns the
element behind the waiting bytes (`0`) instead of `65` and lengthens the overflow buffer to 16
bytes, while `reads` with a destination of two bytes returns `65, 65`. -/
theorem get_seq_differs :
    xor_block (keystream (sum_cipher 15 8) (List.replicate 16 0) (List.replicate 8 0) 0)
        (List.replicate 16 65) =
      [65, 80, 99, 114, 5, 20, 39, 54, 201, 216, 235, 250, 141, 156, 175, 190] ∧
    basic_ictr.get_seq (sum_cipher 15 8)
        (basic_ictr.init (sum_cipher 15 8) (List.replicate 16 0) (List.replicate 8 0)
          { data := [65, 80, 99, 114, 5, 20, 39, 54, 201, 216, 235, 250, 141, 156, 175, 190],
            pos := 0 }) 2 =
      [get_result.value 65, get_result.value 0] ∧
    ((basic_ictr.init (sum_cipher 15 8) (List.replicate 16 0) (List.replicate 8 0)
        { data := [65, 80, 99, 114, 5, 20, 39, 54, 201, 216, 235, 250, 141, 156, 175, 190],
          pos := 0 }).reads (sum_cipher 15 8) 2).2 = [65, 65] ∧
    (((basic_ictr.init (sum_cipher 15 8) (List.replicate 16 0) (List.replicate 8 0)
        { data := [65, 80, 99, 114, 5, 20, 39, 54, 201, 216, 235, 250, 141, 156, 175, 190],
          pos := 0 }).get (sum_cipher 15 8)).1).overflow = List.replicate 15 65 ∧
    (((((basic_ictr.init (sum_cipher 15 8) (List.replicate 16 0) (List.replicate 8 0)
        { data := [65, 80, 99, 114, 5, 20, 39, 54, 201, 216, 235, 250, 141, 156, 175, 190],
          pos := 0 }).get (sum_cipher 15 8)).1).get (sum_cipher 15 8)).1).plaintext_buf_pos =
      16 := by
  decide

/-- C8 (`put` emits a block as soon as it is complete), evaluated where the code departs from
the claim: with blocks of 16 bytes, after 16 `put` calls on a fresh encrypt adapter the sink
has received nothing and the accumulator holds 16 bytes; the block is written by the 17th
`put`. -/
theorem put_defers_block :
    ((basic_octr.init (sum_cipher 15 8) (List.replicate 16 0) (List.replicate 8 0)).put_seq
        (sum_cipher 15 8) (List.replicate 16 65)).ob.bytes = [] ∧
    ((basic_octr.init (sum_cipher 15 8) (List.replicate 16 0) (List.replicate 8 0)).put_seq
        (sum_cipher 15 8) (List.replicate 16 65)).plaintext_buf_pos = 16 ∧
    ((basic_octr.init (sum_cipher 15 8) (List.replicate 16 0) (List.replicate 8 0)).put_seq
        (sum_cipher 15 8) (List.replicate 17 65)).ob.bytes =
      xor_block (keystream (sum_cipher 15 8) (List.replicate 16 0) (List.replicate 8 0) 0)
        (List.replicate 16 65) := by
  decide

/-- Padding exposure on ranges that do not end below the address `block_size`: after `writes`
calls in any chunking and `flush` on a fresh encrypt adapter the ciphertext of a plaintext `P`
has `ceil(|P| / block_size) * block_size` bytes, and one `reads` call of that length on a fresh
decrypt adapter over it yields `P` followed by zero bytes up to the block boundary. -/
theorem padding_exposure (E : cipher_type) (key nonce : block_type) (chunks : List input_range)
    (hpe : ∀ input ∈ chunks, E.block_size ≤ input.pe)
    (hsize : (input_bytes chunks).length + E.block_size ≤ size_t_card E) :
    ((basic_octr.init E key nonce).writes_seq E chunks).map
        (fun s => (s.flush E).ob.bytes.length) =
      some (block_count E (input_bytes chunks).length * E.block_size) ∧
    ((basic_octr.init E key nonce).writes_seq E chunks).map (fun s =>
      ((basic_ictr.init E key nonce { data := (s.flush E).ob.bytes, pos := 0 }).reads E
        (s.flush E).ob.bytes.length).2) =
      some (input_bytes chunks ++
        List.replicate (block_count E (input_bytes chunks).length * E.block_size -
          (input_bytes chunks).length) 0) := by
  have hpos := E.block_size_pos
  have h1 := block_count_mul_ge E (input_bytes chunks).length
  obtain ⟨s1, F, T, hs1, heq, hh⟩ := writes_seq_holds E key nonce chunks [] [] _
    (init_holds E key nonce) hpe (by simp only [List.length_nil]; omega)
  have hf : (s1.flush E).ob.bytes = ctr_reference E key nonce (input_bytes chunks) := by
    rw [flush_holds E key nonce F T _ hh, heq]; simp
  rw [hs1, Option.map_some', Option.map_some', hf, ctr_reference_length]
  refine ⟨rfl, congrArg some ?_⟩
  obtain ⟨r1, -⟩ := reads_spec E _ (block_count E (input_bytes chunks).length * E.block_size)
    (init_wf E key nonce { data := ctr_reference E key nonce (input_bytes chunks), pos := 0 })
  rw [r1, init_pending_reference E key nonce _ hsize]
  apply List.take_of_length_le
  simp only [List.length_append, List.length_replicate]
  omega

/-- The scenario of the specification: blocks of 16 bytes, a key of 16 zero bytes, a nonce of 8
zero bytes and 20 bytes `A` written by `writes` calls of 7 and 13 bytes give 32 ciphertext
bytes, which decrypt to the 20 bytes `A` followed by 12 zero bytes. -/
theorem padding_exposure_example :
    ((basic_octr.init (sum_cipher 15 8) (List.replicate 16 0) (List.replicate 8 0)).writes_seq
        (sum_cipher 15 8)
        [{ pb := 4096, bytes := List.replicate 7 65 },
          { pb := 4103, bytes := List.replicate 13 65 }]).map
        (fun s => (s.flush (sum_cipher 15 8)).ob.bytes.length) = some 32 ∧
    ((basic_octr.init (sum_cipher 15 8) (List.replicate 16 0) (List.replicate 8 0)).writes_seq
        (sum_cipher 15 8)
        [{ pb := 4096, bytes := List.replicate 7 65 },
          { pb := 4103, bytes := List.replicate 13 65 }]).map (fun s =>
      ((basic_ictr.init (sum_cipher 15 8) (List.replicate 16 0) (List.replicate 8 0)
        { data := (s.flush (sum_cipher 15 8)).ob.bytes, pos := 0 }).reads (sum_cipher 15 8)
        (s.flush (sum_cipher 15 8)).ob.bytes.length).2) =
      some (List.replicate 20 65 ++ List.replicate 12 0) :=
  padding_exposure (sum_cipher 15 8) (List.replicate 16 0) (List.replicate 8 0)
    [{ pb := 4096, bytes := List.replicate 7 65 },
      { pb := 4103, bytes := List.replicate 13 65 }] (by decide) (by decide)

/-- C9 (padding exposure), evaluated where the code departs from the claim: 20 bytes `A`
written in a chunking that has an empty chunk at the block boundary, the range of a null
pointer (chunks of 16, 0 and 4 bytes). The first `writes` leaves the accumulator empty; the
`writes` of the empty chunk enters the block loop, reads a block at the address `0` and does
not return, so no ciphertext of 32 bytes comes about. Without the empty chunk, and with the
empty chunk at the address `4112`, the sink receives 32 bytes that decrypt to the 20 bytes
followed by 12 zero bytes. -/
theorem padding_exposure_null_chunk :
    (basic_octr.init (sum_cipher 15 8) (List.replicate 16 0) (List.replicate 8 0)).writes_seq
        (sum_cipher 15 8)
        [{ pb := 4096, bytes := List.replicate 16 65 }, { pb := 0, bytes := [] },
          { pb := 4112, bytes := List.replicate 4 65 }] = none ∧
    ((basic_octr.init (sum_cipher 15 8) (List.replicate 16 0) (List.replicate 8 0)).writes_seq
        (sum_cipher 15 8)
        [{ pb := 4096, bytes := List.replicate 16 65 },
          { pb := 4112, bytes := List.replicate 4 65 }]).map (fun s =>
      ((basic_ictr.init (sum_cipher 15 8) (List.replicate 16 0) (List.replicate 8 0)
        { data := (s.flush (sum_cipher 15 8)).ob.bytes, pos := 0 }).reads (sum_cipher 15 8)
        32).2) = some (List.replicate 20 65 ++ List.replicate 12 0) ∧
    ((basic_octr.init (sum_cipher 15 8) (List.replicate 16 0) (List.replicate 8 0)).writes_seq
        (sum_cipher 15 8)
        [{ pb := 4096, bytes := List.replicate 16 65 }, { pb := 4112, bytes := [] },
          { pb := 4112, bytes := List.replicate 4 65 }]).map (fun s =>
      ((basic_ictr.init (sum_cipher 15 8) (List.replicate 16 0) (List.replicate 8 0)
        { data := (s.flush (sum_cipher 15 8)).ob.bytes, pos := 0 }).reads (sum_cipher 15 8)
        32).2) = some (List.replicate 20 65 ++ List.replicate 12 0) := by
  decide

/-- C10 (count returned by `reads`). In every state of a decrypt adapter reached from a fresh
one by `reads` and `seek` calls, with `o` bytes waiting in the overflow buffer, `s` bytes in
the staging buffer and `R` bytes left in the source, `reads` with a destination of `n` bytes
returns `min(n, o + block_size * floor((s + R) / block_size))` bytes; it returns fewer than
`n` bytes exactly when the overflow bytes and the whole blocks the source can still complete
do not fill the destination. -/
theorem reads_count (E : cipher_type) (key nonce : block_type) (ib : source)
    (cs : List ictr_call) (n : Nat) :
    ((((basic_ictr.init E key nonce ib).calls E cs).reads E n).2).length =
      min n (((basic_ictr.init E key nonce ib).calls E cs).plaintext_buf_pos +
        E.block_size *
          ((((basic_ictr.init E key nonce ib).calls E cs).cipher_buf_pos +
            (((basic_ictr.init E key nonce ib).calls E cs).ib.data.length -
              ((basic_ictr.init E key nonce ib).calls E cs).ib.pos)) / E.block_size)) ∧
    (((((basic_ictr.init E key nonce ib).calls E cs).reads E n).2).length < n ↔
      ((basic_ictr.init E key nonce ib).calls E cs).plaintext_buf_pos +
        E.block_size *
          ((((basic_ictr.init E key nonce ib).calls E cs).cipher_buf_pos +
            (((basic_ictr.init E key nonce ib).calls E cs).ib.data.length -
              ((basic_ictr.init E key nonce ib).calls E cs).ib.pos)) / E.block_size) < n) := by
  obtain ⟨hwf, -⟩ := calls_wf E _ cs (init_wf E key nonce ib)
  obtain ⟨r1, -⟩ := reads_spec E _ n hwf
  rw [r1, List.length_take, pending_length E _ hwf]
  exact ⟨rfl, by omega⟩

/-! ## `get`, `try_get` and `flush` -/

/-- C12 (`try_get` is `get` with the failure turned into a flag). In every state of a decrypt
adapter, over every source, `get` throws `eof` exactly when `try_get` returns a pair whose flag
is true, `get` returns the byte `b` exactly when `try_get` returns `(b, false)`, and the two
calls leave the adapter and its source in the same state. -/
theorem try_get_matches_get (E : cipher_type) (s : basic_ictr) :
    ((s.get E).2 = get_result.eof ↔ ∃ b, (s.try_get E).2 = some (b, true)) ∧
    (∀ b, (s.get E).2 = get_result.value b ↔ (s.try_get E).2 = some (b, false)) ∧
    (s.get E).1 = (s.try_get E).1 := by
  unfold basic_ictr.get basic_ictr.try_get
  by_cases hp : s.plaintext_buf_pos = 0
  · rw [if_pos hp, if_pos hp]
    generalize s.reads E 1 = r
    rcases r with ⟨s1, _ | ⟨ch, _ | ⟨ch2, rest⟩⟩⟩ <;> simp
  · rw [if_neg hp, if_neg hp]
    unfold basic_ictr.deref_plaintext_buf_pos
    generalize s.plaintext_buf.get? s.plaintext_buf_pos = d
    cases d <;> simp

/-- C13 (`flush` with an empty accumulator; `flush` twice). In a state whose accumulator is
empty `flush` only flushes the sink: no byte is written, and the byte counter and the
accumulator are unchanged. In every state, a `flush` that immediately follows a `flush` only
flushes the sink again: it writes no further bytes and leaves the adapter unchanged. -/
theorem flush_empty_accumulator (E : cipher_type) (s t : basic_octr)
    (hempty : s.plaintext_buf_pos = 0) :
    s.flush E = { s with ob := s.ob.flush } ∧
    (s.flush E).ob.bytes = s.ob.bytes ∧
    (t.flush E).flush E = { t.flush E with ob := (t.flush E).ob.flush } ∧
    ((t.flush E).flush E).ob.bytes = (t.flush E).ob.bytes := by
  have h1 : ∀ u : basic_octr, u.plaintext_buf_pos = 0 →
      u.flush E = { u with ob := u.ob.flush } := by
    intro u hu
    simp [basic_octr.flush, basic_octr.write_remain, hu]
  have h2 : (t.flush E).plaintext_buf_pos = 0 := by
    unfold basic_octr.flush basic_octr.write_remain
    by_cases ht : t.plaintext_buf_pos = 0
    · simp [ht]
    · simp [ht, basic_octr.encrypt_out]
  refine ⟨h1 s hempty, ?_, h1 _ h2, ?_⟩
  · rw [h1 s hempty]; rfl
  · rw [h1 _ h2]; rfl

/-- A `flush` of a fresh adapter, and two `flush` calls after a `writes` of three bytes (a
range at the address `4096`). -/
theorem flush_empty_accumulator_witness :
    (basic_octr.init (sum_cipher 15 8) (List.replicate 16 0)
        (List.replicate 8 0)).plaintext_buf_pos = 0 ∧
    (basic_octr.init (sum_cipher 15 8) (List.replicate 16 0) (List.replicate 8 0)).writes
        (sum_cipher 15 8) { pb := 4096, bytes := [65, 66, 67] } =
      some { plaintext_buf := [65, 66, 67] ++ List.replicate 13 0
             plaintext_buf_pos := 3
             key := List.replicate 16 0
             nonce := List.replicate 8 0
             char_counter := 3
             ob := { bytes := [], flushes := 0 } } ∧
    ((basic_octr.init (sum_cipher 15 8) (List.replicate 16 0) (List.replicate 8 0)).flush
        (sum_cipher 15 8) =
      { basic_octr.init (sum_cipher 15 8) (List.replicate 16 0) (List.replicate 8 0) with
        ob := (basic_octr.init (sum_cipher 15 8) (List.replicate 16 0)
          (List.replicate 8 0)).ob.flush } ∧
    ((basic_octr.init (sum_cipher 15 8) (List.replicate 16 0) (List.replicate 8 0)).flush
        (sum_cipher 15 8)).ob.bytes =
      (basic_octr.init (sum_cipher 15 8) (List.replicate 16 0) (List.replicate 8 0)).ob.bytes ∧
    ((({ plaintext_buf := [65, 66, 67] ++ List.replicate 13 0
         plaintext_buf_pos := 3
         key := List.replicate 16 0
         nonce := List.replicate 8 0
         char_counter := 3
         ob := { bytes := [], flushes := 0 } } : basic_octr).flush
        (sum_cipher 15 8)).flush (sum_cipher 15 8)) =
      { (({ plaintext_buf := [65, 66, 67] ++ List.replicate 13 0
            plaintext_buf_pos := 3
            key := List.replicate 16 0
            nonce := List.replicate 8 0
            char_counter := 3
            ob := { bytes := [], flushes := 0 } } : basic_octr).flush (sum_cipher 15 8)) with
        ob := ((({ plaintext_buf := [65, 66, 67] ++ List.replicate 13 0
                   plaintext_buf_pos := 3
                   key := List.replicate 16 0
                   nonce := List.replicate 8 0
                   char_counter := 3
                   ob := { bytes := [], flushes := 0 } } : basic_octr).flush
          (sum_cipher 15 8)).ob).flush } ∧
    ((({ plaintext_buf := [65, 66, 67] ++ List.replicate 13 0
         plaintext_buf_pos := 3
         key := List.replicate 16 0
         nonce := List.replicate 8 0
         char_counter := 3
         ob := { bytes := [], flushes := 0 } } : basic_octr).flush
        (sum_cipher 15 8)).flush (sum_cipher 15 8)).ob.bytes =
      (({ plaintext_buf := [65, 66, 67] ++ List.replicate 13 0
          plaintext_buf_pos := 3
          key := List.replicate 16 0
          nonce := List.replicate 8 0
          char_counter := 3
          ob := { bytes := [], flushes := 0 } } : basic_octr).flush
        (sum_cipher 15 8)).ob.bytes) :=
  ⟨by decide, by decide,
    flush_empty_accumulator (sum_cipher 15 8)
      (basic_octr.init (sum_cipher 15 8) (List.replicate 16 0) (List.replicate 8 0))
      { plaintext_buf := [65, 66, 67] ++ List.replicate 13 0
        plaintext_buf_pos := 3
        key := List.replicate 16 0
        nonce := List.replicate 8 0
        char_counter := 3
        ob := { bytes := [], flushes := 0 } } (by decide)⟩

/-! ## The state after `writes`; failure of `seek` -/

theorem holds_split (E : cipher_type) (key nonce F T : block_type) (s : basic_octr)
    (h : s.holds E key nonce F T) :
    F.length = (F ++ T).length / E.block_size * E.block_size ∧
    T.length = (F ++ T).length % E.block_size := by
  have hpos := E.block_size_pos
  have hF := length_of_mod_eq_zero E h.emitted_blocks
  have hT := h.tail_short
  generalize F.length / E.block_size = k at hF
  rw [List.length_append, hF, Nat.add_comm]
  rw [Nat.add_mul_div_right _ _ hpos, Nat.div_eq_of_lt hT, Nat.zero_add,
    Nat.add_mul_mod_self_right, Nat.mod_eq_of_lt hT]
  exact ⟨rfl, rfl⟩

/-- The state after `writes` calls on ranges that do not end below the address `block_size`,
the inputs totalling `n` bytes: the sink has received exactly
`floor(n / block_size) * block_size` bytes, namely the reference ciphertext of the complete
blocks; the accumulator holds exactly the last `n mod block_size` input bytes; and the byte
counter equals `n`, a `std::size_t` value. -/
theorem writes_postcondition (E : cipher_type) (key nonce : block_type)
    (chunks : List input_range) (hpe : ∀ input ∈ chunks, E.block_size ≤ input.pe)
    (hsize : (input_bytes chunks).length < size_t_card E) :
    ∃ s, (basic_octr.init E key nonce).writes_seq E chunks = some s ∧
      s.ob.bytes.length = (input_bytes chunks).length / E.block_size * E.block_size ∧
      s.ob.bytes = ctr_reference E key nonce
        ((input_bytes chunks).take
          ((input_bytes chunks).length / E.block_size * E.block_size)) ∧
      s.plaintext_buf_pos = (input_bytes chunks).length % E.block_size ∧
      s.plaintext_buf.take s.plaintext_buf_pos =
        (input_bytes chunks).drop
          ((input_bytes chunks).length - (input_bytes chunks).length % E.block_size) ∧
      s.char_counter = (input_bytes chunks).length := by
  have hpos := E.block_size_pos
  obtain ⟨s, F, T, hs, heq, hh⟩ := writes_seq_holds E key nonce chunks [] [] _
    (init_holds E key nonce) hpe (by simpa using hsize)
  simp only [List.append_nil, List.nil_append] at heq
  obtain ⟨hF, hT⟩ := holds_split E key nonce F T _ hh
  rw [heq] at hF hT
  have htake : (input_bytes chunks).take
      ((input_bytes chunks).length / E.block_size * E.block_size) = F := by
    rw [← hF, ← heq]
    exact List.take_left _ _
  have hdrop : (input_bytes chunks).drop
      ((input_bytes chunks).length - (input_bytes chunks).length % E.block_size) = T := by
    have hlen : (input_bytes chunks).length - (input_bytes chunks).length % E.block_size =
        F.length := by
      have := congrArg List.length heq
      rw [List.length_append] at this
      omega
    rw [hlen, ← heq]
    exact List.drop_left _ _
  have hsink : s.ob.bytes = ctr_reference E key nonce F := by
    rw [hh.sink_eq, ctr_reference_eq]
    congr 1
    have := block_count_whole E (F.length / E.block_size)
    rw [← length_of_mod_eq_zero E hh.emitted_blocks] at this
    exact this.symm
  refine ⟨s, hs, ?_, ?_, ?_, ?_, ?_⟩
  · rw [hh.sink_eq, ctr_from_length, ← hF]
    exact (length_of_mod_eq_zero E hh.emitted_blocks).symm
  · rw [htake]; exact hsink
  · rw [hh.pos_eq, hT]
  · rw [hh.tail_eq, hdrop]
  · rw [hh.counter_eq]
    have := congrArg List.length heq
    rw [List.length_append] at this
    exact this

/-- C15 (postcondition of `writes` without `flush`), evaluated where the code departs from the
claim: a `writes` of 32 bytes followed by a `writes` of the empty range of a null pointer, the
inputs totalling 32 bytes. After the first call the sink has received 32 bytes, the
accumulator is empty and the byte counter is 32, which is the state the claim describes for a
total of 32 bytes; the second call finds the accumulator empty, enters the block loop, reads a
block at the address `0` and does not return. With the empty range at the address `4128` the
second call returns and leaves that state. -/
theorem writes_postcondition_null_range :
    ((basic_octr.init (sum_cipher 15 8) (List.replicate 16 0) (List.replicate 8 0)).writes_seq
        (sum_cipher 15 8) [{ pb := 4096, bytes := List.replicate 32 65 }]).map
        (fun s => (s.ob.bytes.length, s.plaintext_buf_pos, s.char_counter)) =
      some (32, 0, 32) ∧
    (basic_octr.init (sum_cipher 15 8) (List.replicate 16 0) (List.replicate 8 0)).writes_seq
        (sum_cipher 15 8)
        [{ pb := 4096, bytes := List.replicate 32 65 }, { pb := 0, bytes := [] }] = none ∧
    ((basic_octr.init (sum_cipher 15 8) (List.replicate 16 0) (List.replicate 8 0)).writes_seq
        (sum_cipher 15 8)
        [{ pb := 4096, bytes := List.replicate 32 65 }, { pb := 4128, bytes := [] }]).map
        (fun s => (s.ob.bytes.length, s.plaintext_buf_pos, s.char_counter)) =
      some (32, 0, 32) := by
  decide

/-- C16 (`seek` failure). For an offset `t` that is a `std::size_t` value, over a source of
length `L` whose own `seek` accepts `t` and returns it, `seek` throws `eof` exactly when `t` is
not a multiple of `block_size` and `L < t`, and returns `t` otherwise (in particular for every
block-aligned `t`); `L < t` is the case in which the source cannot supply the
`t mod block_size` bytes that precede `t` inside its block. -/
theorem seek_failure (E : cipher_type) (s : basic_ictr) (t : Nat)
    (ht : t < size_t_card E) :
    (s.seek E t).2 =
      (if t % E.block_size ≠ 0 ∧ s.ib.data.length < t then none else some t) ∧
    (((s.ib.data.drop (t - t % E.block_size)).take (t % E.block_size)).length
        < t % E.block_size ↔ t % E.block_size ≠ 0 ∧ s.ib.data.length < t) := by
  have hpos := E.block_size_pos
  have hdm := Nat.div_add_mod t E.block_size
  rw [Nat.mul_comm] at hdm
  have hml := Nat.mod_lt t hpos
  refine ⟨?_, ?_⟩
  · simp only [basic_ictr.seek, source.seek, source.reads]
    rw [to_size_t_of_lt E ht, seek_aligned_eq E t ht]
    by_cases ha : t % E.block_size = 0
    · rw [if_pos (by omega), if_neg (by simp [ha])]
    · rw [if_neg (by omega)]
      have hrl : t - t / E.block_size * E.block_size = t % E.block_size := by omega
      rw [hrl]
      by_cases hlen : ((s.ib.data.drop (t / E.block_size * E.block_size)).take
          (t % E.block_size)).length = t % E.block_size
      · rw [if_neg (by simpa using hlen)]
        rw [List.length_take, List.length_drop] at hlen
        rw [if_neg (by omega)]
      · rw [if_pos (by simpa using hlen)]
        rw [List.length_take, List.length_drop] at hlen
        rw [if_pos ⟨ha, by omega⟩]
  · rw [List.length_take, List.length_drop]
    omega

/-- Offset 37 of a source of 32 bytes: the five bytes that precede it in its block are not
all there. -/
theorem seek_failure_witness :
    37 < size_t_card (sum_cipher 15 8) ∧
    ((basic_ictr.init (sum_cipher 15 8) (List.replicate 16 0) (List.replicate 8 0)
        { data := List.replicate 32 7, pos := 0 }).seek (sum_cipher 15 8) 37).2 =
      (if 37 % (sum_cipher 15 8).block_size ≠ 0 ∧ (List.replicate 32 7).length < 37 then none
        else some 37) ∧
    ((((List.replicate 32 7).drop (37 - 37 % (sum_cipher 15 8).block_size)).take
        (37 % (sum_cipher 15 8).block_size)).length < 37 % (sum_cipher 15 8).block_size ↔
      37 % (sum_cipher 15 8).block_size ≠ 0 ∧ (List.replicate 32 7).length < 37) :=
  ⟨by decide,
    seek_failure (sum_cipher 15 8)
      (basic_ictr.init (sum_cipher 15 8) (List.replicate 16 0) (List.replicate 8 0)
        { data := List.replicate 32 7, pos := 0 }) 37 (by decide)⟩

/-! ## Evaluations of `put`, `get` and the move constructor -/

/-- C14 (buffer bound between calls), evaluated where the code departs from the claim: with
blocks of 16 bytes, after 16 `put` calls on a fresh encrypt adapter the accumulator holds 16
bytes, and after two `get` calls (or two `try_get` calls) on a fresh decrypt adapter over a
one-block source the overflow buffer holds 16 bytes; neither is below `block_size`. -/
theorem buffer_bound_violated :
    ((basic_octr.init (sum_cipher 15 8) (List.replicate 16 0) (List.replicate 8 0)).run
        (sum_cipher 15 8) (List.replicate 16 (octr_op.put 65))).map
        (fun s => s.plaintext_buf_pos) = some (sum_cipher 15 8).block_size ∧
    ((basic_ictr.init (sum_cipher 15 8) (List.replicate 16 0) (List.replicate 8 0)
        { data := [65, 80, 99, 114, 5, 20, 39, 54, 201, 216, 235, 250, 141, 156, 175, 190],
          pos := 0 }).run (sum_cipher 15 8) [ictr_op.get, ictr_op.get]).plaintext_buf_pos =
      (sum_cipher 15 8).block_size ∧
    ((basic_ictr.init (sum_cipher 15 8) (List.replicate 16 0) (List.replicate 8 0)
        { data := [65, 80, 99, 114, 5, 20, 39, 54, 201, 216, 235, 250, 141, 156, 175, 190],
          pos := 0 }).run (sum_cipher 15 8)
        [ictr_op.try_get, ictr_op.try_get]).plaintext_buf_pos =
      (sum_cipher 15 8).block_size := by
  decide

/-- C17 (move transfer keeps the buffered plaintext), evaluated where the code departs from
the claim: for an adapter `A` that holds three buffered bytes after a `writes` call (of a range
at the address `4096`), the adapter `B` move-constructed from `A` has an accumulator array with
the indeterminate contents of its storage, whatever they are, instead of the three bytes; the
iterator of `B` points into the array of `A`; and the iterator of `A` points into the array of
`B`, so that by the test of `writes` and `write_remain` the accumulator of `A` is not empty. -/
theorem move_construct_loses_buffer (indeterminate : block_type) :
    ((basic_octr.init (sum_cipher 15 8) (List.replicate 16 0) (List.replicate 8 0)).writes
        (sum_cipher 15 8) { pb := 4096, bytes := [65, 66, 67] }).map
        (fun A => A.plaintext_buf.take 3) = some [65, 66, 67] ∧
    ((basic_octr.init (sum_cipher 15 8) (List.replicate 16 0) (List.replicate 8 0)).writes
        (sum_cipher 15 8) { pb := 4096, bytes := [65, 66, 67] }).map
        (fun A => A.plaintext_buf_pos) = some 3 ∧
    ((basic_octr.init (sum_cipher 15 8) (List.replicate 16 0) (List.replicate 8 0)).writes
        (sum_cipher 15 8) { pb := 4096, bytes := [65, 66, 67] }).map
        (fun A => (basic_octr.move_construct indeterminate A).1.plaintext_buf) =
      some indeterminate ∧
    ((basic_octr.init (sum_cipher 15 8) (List.replicate 16 0) (List.replicate 8 0)).writes
        (sum_cipher 15 8) { pb := 4096, bytes := [65, 66, 67] }).map
        (fun A => (basic_octr.move_construct indeterminate A).1.plaintext_buf_pos) =
      some (block_iterator.other 3) ∧
    ((basic_octr.init (sum_cipher 15 8) (List.replicate 16 0) (List.replicate 8 0)).writes
        (sum_cipher 15 8) { pb := 4096, bytes := [65, 66, 67] }).map
        (fun A => (basic_octr.move_construct indeterminate A).2.plaintext_buf_pos) =
      some (block_iterator.other 0) ∧
    ((basic_octr.init (sum_cipher 15 8) (List.replicate 16 0) (List.replicate 8 0)).writes
        (sum_cipher 15 8) { pb := 4096, bytes := [65, 66, 67] }).map
        (fun A => (basic_octr.move_construct indeterminate A).2.accumulator_nonempty) =
      some true := by
  have hA : (basic_octr.init (sum_cipher 15 8) (List.replicate 16 0)
      (List.replicate 8 0)).writes (sum_cipher 15 8) { pb := 4096, bytes := [65, 66, 67] } =
      some { plaintext_buf := [65, 66, 67] ++ List.replicate 13 0
             plaintext_buf_pos := 3
             key := List.replicate 16 0
             nonce := List.replicate 8 0
             char_counter := 3
             ob := { bytes := [], flushes := 0 } } := by decide
  rw [hA]
  exact ⟨rfl, rfl, rfl, rfl, rfl, rfl⟩

/-! ## Sequences of `writes` and `flush` -/

/-- The zero bytes `flush` adds behind a plaintext of which `t` bytes wait in the
accumulator. -/
theorem flush_padding_length (E : cipher_type) (F T : block_type)
    (hF : F.length % E.block_size = 0) (hT : T.length < E.block_size) :
    (E.block_size - (F ++ T).length % E.block_size) % E.block_size =
      if T.length = 0 then 0 else E.block_size - T.length := by
  have hpos := E.block_size_pos
  have hFl := length_of_mod_eq_zero E hF
  have hmod : (F ++ T).length % E.block_size = T.length := by
    rw [List.length_append, hFl, Nat.add_comm, Nat.add_mul_mod_self_right, Nat.mod_eq_of_lt hT]
  rw [hmod]
  by_cases h0 : T.length = 0
  · rw [if_pos h0, h0, Nat.sub_zero, Nat.mod_self]
  · rw [if_neg h0]
    exact Nat.mod_eq_of_lt (by omega)

theorem flush_of_empty (E : cipher_type) (s : basic_octr) (h0 : s.plaintext_buf_pos = 0) :
    s.flush E = { s with ob := s.ob.flush } := by
  simp [basic_octr.flush, basic_octr.write_remain, h0]

theorem flush_of_nonempty (E : cipher_type) (s : basic_octr) (h0 : s.plaintext_buf_pos ≠ 0) :
    s.flush E =
      { plaintext_buf := s.plaintext_buf.take s.plaintext_buf_pos ++
          List.replicate (E.block_size - s.plaintext_buf_pos) 0
        plaintext_buf_pos := 0
        key := s.key
        nonce := s.nonce
        char_counter :=
          to_size_t E (to_size_t E (s.char_counter / E.block_size + 1) * E.block_size)
        ob := { bytes := s.ob.bytes ++
                  xor_block (keystream E s.key s.nonce (s.char_counter / E.block_size))
                    (s.plaintext_buf.take s.plaintext_buf_pos ++
                      List.replicate (E.block_size - s.plaintext_buf_pos) 0)
                flushes := s.ob.flushes + 1 } } := by
  simp [basic_octr.flush, basic_octr.write_remain, h0, basic_octr.encrypt_out, sink.writes,
    sink.flush]

/-- The state after `flush`: the padded tail has been emitted as one more block. -/
theorem flush_holds_state (E : cipher_type) (key nonce F T : block_type) (s : basic_octr)
    (h : s.holds E key nonce F T)
    (hsize : F.length + E.block_size < size_t_card E ∨ T = []) :
    (s.flush E).holds E key nonce
      (F ++ T ++ List.replicate
        ((E.block_size - (F ++ T).length % E.block_size) % E.block_size) 0) [] := by
  have hpos := E.block_size_pos
  have hF := length_of_mod_eq_zero E h.emitted_blocks
  have hTs := h.tail_short
  rw [flush_padding_length E F T h.emitted_blocks hTs]
  by_cases h0 : s.plaintext_buf_pos = 0
  · rw [flush_of_empty E s h0]
    have hT : T = [] := List.length_eq_zero.mp (by rw [← h.pos_eq, h0])
    subst hT
    simp only [List.length_nil, if_true, List.replicate_zero, List.append_nil]
    exact ⟨h.plaintext_buf_size, h.emitted_blocks, h.tail_short, h.tail_eq, h.pos_eq,
      h.counter_eq, h.key_eq, h.nonce_eq, h.sink_eq⟩
  · rw [flush_of_nonempty E s h0]
    have hTpos : T.length ≠ 0 := by rw [← h.pos_eq]; exact h0
    have hTne : T ≠ [] := fun hT => hTpos (by rw [hT]; rfl)
    have hsz : F.length + E.block_size < size_t_card E := by
      rcases hsize with hsz | hT
      · exact hsz
      · exact absurd hT hTne
    rw [if_neg hTpos]
    have hBl : (T ++ List.replicate (E.block_size - T.length) 0).length = E.block_size := by
      rw [List.length_append, List.length_replicate]; omega
    have hdiv : (F.length + T.length) / E.block_size = F.length / E.block_size := by
      have := (holds_split E key nonce F T s h).1
      rw [List.length_append] at this
      have h3 := Nat.mul_div_cancel ((F.length + T.length) / E.block_size) hpos
      rw [← this] at h3
      exact h3.symm
    have hFdiv : F.length / E.block_size + 1 ≤ F.length + E.block_size := by
      have := Nat.div_le_self F.length E.block_size
      omega
    have hcnt : to_size_t E (to_size_t E (F.length / E.block_size + 1) * E.block_size) =
        F.length + E.block_size := by
      have e1 : to_size_t E (F.length / E.block_size + 1) = F.length / E.block_size + 1 :=
        to_size_t_of_lt E (by omega)
      rw [e1, Nat.add_mul, ← hF, Nat.one_mul]
      exact to_size_t_of_lt E hsz
    rw [h.tail_eq, h.pos_eq, h.counter_eq, hdiv, hcnt]
    constructor
    · exact hBl
    · rw [List.append_assoc, List.length_append, hBl, Nat.add_mod_right]
      exact h.emitted_blocks
    · simpa using hpos
    · simp
    · rfl
    · show F.length + E.block_size = _
      rw [List.append_assoc, List.length_append, hBl]; simp
    · exact h.key_eq
    · exact h.nonce_eq
    · show s.ob.bytes ++ xor_block (keystream E s.key s.nonce _) _ = _
      rw [h.sink_eq, h.key_eq, h.nonce_eq, List.append_assoc, List.length_append, hBl,
        Nat.add_div_right _ hpos, ctr_from_append E key nonce 0 _ 1 F _ hF,
        ctr_from_one E key nonce _ _ hBl, Nat.zero_add]

theorem padded_plaintext_length_ge (E : cipher_type) (written : block_type)
    (cs : List octr_call) : written.length ≤ (padded_plaintext E written cs).length := by
  induction cs generalizing written with
  | nil => exact le_refl _
  | cons c cs ih =>
    cases c with
    | writes input =>
      have := ih (written ++ input.bytes)
      simp only [padded_plaintext]
      rw [List.length_append] at this
      omega
    | flush =>
      have := ih (written ++ List.replicate
        ((E.block_size - written.length % E.block_size) % E.block_size) 0)
      simp only [padded_plaintext]
      rw [List.length_append] at this
      omega

theorem calls_cons (E : cipher_type) (s s1 : basic_octr) (c : octr_call) (cs : List octr_call)
    (h : s.call E c = some s1) : s.calls E (c :: cs) = s1.calls E cs := by
  simp only [basic_octr.calls, h]

theorem calls_holds (E : cipher_type) (key nonce : block_type) (cs : List octr_call)
    (F T : block_type) (s : basic_octr) (h : s.holds E key nonce F T)
    (hpe : ∀ input, octr_call.writes input ∈ cs → E.block_size ≤ input.pe)
    (hsize : (padded_plaintext E (F ++ T) cs).length < size_t_card E) :
    ∃ s1 F1 T1, s.calls E cs = some s1 ∧ F1 ++ T1 = padded_plaintext E (F ++ T) cs ∧
      s1.holds E key nonce F1 T1 := by
  induction cs generalizing F T s with
  | nil => exact ⟨s, F, T, rfl, rfl, h⟩
  | cons c cs ih =>
    have hpe1 : ∀ input, octr_call.writes input ∈ cs → E.block_size ≤ input.pe :=
      fun i hi => hpe i (List.mem_cons_of_mem _ hi)
    cases c with
    | writes input =>
      have hge := padded_plaintext_length_ge E (F ++ T ++ input.bytes) cs
      simp only [padded_plaintext] at hsize
      obtain ⟨s1, F1, T1, hs1, heq, h1⟩ := writes_holds E key nonce F T input s h
        (hpe input (List.mem_cons_self _ _)) (by
          simp only [List.length_append] at hge; omega)
      rw [← heq] at hsize
      obtain ⟨s2, F2, T2, hs2, heq2, h2⟩ := ih F1 T1 s1 h1 hpe1 hsize
      refine ⟨s2, F2, T2, ?_, ?_, h2⟩
      · rw [calls_cons E s s1 (octr_call.writes input) cs hs1]; exact hs2
      · rw [heq2, heq]; rfl
    | flush =>
      simp only [padded_plaintext] at hsize
      have hge := padded_plaintext_length_ge E (F ++ T ++ List.replicate
        ((E.block_size - (F ++ T).length % E.block_size) % E.block_size) 0) cs
      have hpad := flush_padding_length E F T h.emitted_blocks h.tail_short
      have h1 := flush_holds_state E key nonce F T s h (by
        by_cases hT : T = []
        · exact Or.inr hT
        · left
          have hTl : T.length ≠ 0 := fun h0 => hT (List.length_eq_zero.mp h0)
          have hsize1 := hsize
          rw [hpad, if_neg hTl] at hge hsize1
          simp only [List.length_append, List.length_replicate] at hge
          have := h.tail_short
          omega)
      have hsize2 : (padded_plaintext E ((F ++ T ++ List.replicate
          ((E.block_size - (F ++ T).length % E.block_size) % E.block_size) 0) ++ []) cs).length
          < size_t_card E := by
        rw [List.append_nil]; exact hsize
      obtain ⟨s2, F2, T2, hs2, heq2, h2⟩ := ih _ [] (s.flush E) h1 hpe1 hsize2
      refine ⟨s2, F2, T2, ?_, ?_, h2⟩
      · rw [calls_cons E s (s.flush E) octr_call.flush cs rfl]; exact hs2
      · rw [heq2, List.append_nil]; rfl

/-- The keystream index follows the position in the emitted stream, on ranges that do not end
below the address `block_size`: after any sequence of `writes` and `flush` calls on a fresh
encrypt adapter the sink holds the reference ciphertext of the whole blocks of the padded
plaintext (the written plaintext with zero bytes inserted up to the block boundary at each
`flush` of a begun block): block `i` of the sink is the XOR of block `i` of the padded
plaintext with the keystream block of index `i`. Decrypting the whole sink content with a
fresh decrypt adapter yields those blocks of the padded plaintext. The length of the padded
plaintext is a `std::size_t` value. -/
theorem flush_keeps_stream_position (E : cipher_type) (key nonce : block_type)
    (cs : List octr_call)
    (hpe : ∀ input, octr_call.writes input ∈ cs → E.block_size ≤ input.pe)
    (hsize : (padded_plaintext E [] cs).length < size_t_card E) :
    ((basic_octr.init E key nonce).calls E cs).map (fun s => s.ob.bytes) =
      some (ctr_reference E key nonce
        ((padded_plaintext E [] cs).take
          ((padded_plaintext E [] cs).length / E.block_size * E.block_size))) ∧
    ((basic_octr.init E key nonce).calls E cs).map (fun s =>
      ((basic_ictr.init E key nonce { data := s.ob.bytes, pos := 0 }).reads E
        s.ob.bytes.length).2) =
      some ((padded_plaintext E [] cs).take
        ((padded_plaintext E [] cs).length / E.block_size * E.block_size)) := by
  have hpos := E.block_size_pos
  obtain ⟨s, F, T, hs, heq, hh⟩ := calls_holds E key nonce cs [] [] _ (init_holds E key nonce)
    hpe (by simpa using hsize)
  simp only [List.append_nil] at heq
  obtain ⟨hF, hT⟩ := holds_split E key nonce F T _ hh
  rw [heq] at hF
  have htake : (padded_plaintext E [] cs).take
      ((padded_plaintext E [] cs).length / E.block_size * E.block_size) = F := by
    rw [← hF, ← heq]
    exact List.take_left _ _
  have hFl := length_of_mod_eq_zero E hh.emitted_blocks
  have hle : F.length ≤ (padded_plaintext E [] cs).length := by
    rw [← heq, List.length_append]; omega
  rw [htake, hs, Option.map_some', Option.map_some']
  have hsink : s.ob.bytes = ctr_from E key nonce 0 (F.length / E.block_size) F := hh.sink_eq
  have hsl : s.ob.bytes.length = F.length := by
    rw [hsink, ctr_from_length, ← hFl]
  refine ⟨congrArg some ?_, congrArg some ?_⟩
  · rw [hsink, ctr_reference_eq]
    congr 1
    have := block_count_whole E (F.length / E.block_size)
    rw [← hFl] at this
    exact this.symm
  · obtain ⟨r1, -⟩ := reads_spec E _ s.ob.bytes.length
      (init_wf E key nonce { data := s.ob.bytes, pos := 0 })
    rw [r1, init_pending E key nonce _ (by rw [hsl]; omega), hsl, hsink, ctr_from_ctr_from,
      ← hFl, Nat.sub_self, List.replicate_zero, List.append_nil,
      List.take_of_length_le (le_refl _), List.take_of_length_le (le_refl _)]

/-- Seven bytes, a `flush`, thirteen bytes, a `flush`, and three more bytes. -/
theorem flush_keeps_stream_position_example :
    ((basic_octr.init (sum_cipher 15 8) (List.replicate 16 0) (List.replicate 8 0)).calls
        (sum_cipher 15 8)
        [octr_call.writes { pb := 4096, bytes := List.replicate 7 65 }, octr_call.flush,
          octr_call.writes { pb := 4103, bytes := List.replicate 13 66 }, octr_call.flush,
          octr_call.writes { pb := 4116, bytes := [67, 67, 67] }]).map (fun s => s.ob.bytes) =
      some (ctr_reference (sum_cipher 15 8) (List.replicate 16 0) (List.replicate 8 0)
        (List.replicate 7 65 ++ List.replicate 9 0 ++ List.replicate 13 66 ++
          List.replicate 3 0)) ∧
    ((basic_octr.init (sum_cipher 15 8) (List.replicate 16 0) (List.replicate 8 0)).calls
        (sum_cipher 15 8)
        [octr_call.writes { pb := 4096, bytes := List.replicate 7 65 }, octr_call.flush,
          octr_call.writes { pb := 4103, bytes := List.replicate 13 66 }, octr_call.flush,
          octr_call.writes { pb := 4116, bytes := [67, 67, 67] }]).map (fun s =>
      ((basic_ictr.init (sum_cipher 15 8) (List.replicate 16 0) (List.replicate 8 0)
        { data := s.ob.bytes, pos := 0 }).reads (sum_cipher 15 8) s.ob.bytes.length).2) =
      some (List.replicate 7 65 ++ List.replicate 9 0 ++ List.replicate 13 66 ++
        List.replicate 3 0) :=
  flush_keeps_stream_position (sum_cipher 15 8) (List.replicate 16 0) (List.replicate 8 0)
    [octr_call.writes { pb := 4096, bytes := List.replicate 7 65 }, octr_call.flush,
      octr_call.writes { pb := 4103, bytes := List.replicate 13 66 }, octr_call.flush,
      octr_call.writes { pb := 4116, bytes := [67, 67, 67] }]
    (by
      intro input h
      simp at h
      rcases h with rfl | rfl | rfl <;> decide)
    (by decide)

/-- C18 (the keystream index follows the position in the emitted stream), evaluated where the
code departs from the claim: a `writes` of three bytes, a `flush`, and a `writes` of the empty
range of a null pointer. After the `flush` the sink holds the block of the three bytes and
their zero padding, XORed with the keystream block of index `0`, and the accumulator is
empty; the `writes` that follows enters the block loop, reads a block at the address `0` and
does not return. With the empty range at the address `4099` the call returns and the sink
still holds that block. -/
theorem calls_null_range :
    ((basic_octr.init (sum_cipher 15 8) (List.replicate 16 0) (List.replicate 8 0)).calls
        (sum_cipher 15 8)
        [octr_call.writes { pb := 4096, bytes := [65, 66, 67] }, octr_call.flush]).map
        (fun s => s.ob.bytes) =
      some (xor_block
        (keystream (sum_cipher 15 8) (List.replicate 16 0) (List.replicate 8 0) 0)
        ([65, 66, 67] ++ List.replicate 13 0)) ∧
    (basic_octr.init (sum_cipher 15 8) (List.replicate 16 0) (List.replicate 8 0)).calls
        (sum_cipher 15 8)
        [octr_call.writes { pb := 4096, bytes := [65, 66, 67] }, octr_call.flush,
          octr_call.writes { pb := 0, bytes := [] }] = none ∧
    ((basic_octr.init (sum_cipher 15 8) (List.replicate 16 0) (List.replicate 8 0)).calls
        (sum_cipher 15 8)
        [octr_call.writes { pb := 4096, bytes := [65, 66, 67] }, octr_call.flush,
          octr_call.writes { pb := 4099, bytes := [] }]).map (fun s => s.ob.bytes) =
      some (xor_block
        (keystream (sum_cipher 15 8) (List.replicate 16 0) (List.replicate 8 0) 0)
        ([65, 66, 67] ++ List.replicate 13 0)) := by
  decide

/-! ## The byte counter and the block index -/

theorem mread_loop_evals_succ (E : cipher_type) (fuel : Nat) (s : basic_ictr) (room : Nat) :
    basic_ictr.mread_loop_evals E (fuel + 1) s room =
      if room = 0 then []
      else
        let r := s.ib.reads (E.block_size - s.cipher_buf_pos)
        let s1 : basic_ictr :=
          { s with
            cipher_buf := uninitialized_copy s.cipher_buf s.cipher_buf_pos r.1
            cipher_buf_pos := s.cipher_buf_pos + r.1.length
            char_counter := to_size_t E (s.char_counter + r.1.length)
            ib := r.2 }
        if s1.cipher_buf_pos ≠ E.block_size then []
        else
          s1 :: (if room < E.block_size then []
            else basic_ictr.mread_loop_evals E fuel { s1 with cipher_buf_pos := 0 }
              (room - E.block_size)) := rfl

/-- The source after `ib.reads(first, first + n)`: what it has left. -/
theorem source_reads_remaining (ib : source) (n : Nat) :
    (ib.reads n).1 = (ib.data.drop ib.pos).take n ∧
    (ib.reads n).2.data = ib.data ∧
    (ib.reads n).2.pos = ib.pos + (ib.reads n).1.length ∧
    ((ib.reads n).2.data.drop (ib.reads n).2.pos).length + (ib.reads n).1.length =
      (ib.data.drop ib.pos).length ∧
    (ib.reads n).1.length ≤ n ∧
    ((ib.reads n).1.length < n → (ib.reads n).2.data.length ≤ (ib.reads n).2.pos) := by
  refine ⟨rfl, rfl, rfl, ?_, ?_, ?_⟩ <;>
    simp only [source.reads, List.length_take, List.length_drop] <;> omega

/-- The loop of `mread` keeps the staging block short of full between calls; while the byte
counter does not wrap around it also keeps the staged bytes counted, and every evaluation of
`char_counter / block_size - 1` finds `char_counter` at least `block_size`. -/
theorem mread_loop_counted (E : cipher_type) (fuel : Nat) (s : basic_ictr) (room : Nat)
    (hlt : s.cipher_buf_pos < E.block_size) (hfuel : room < fuel) :
    (basic_ictr.mread_loop E fuel s room).1.cipher_buf_pos < E.block_size ∧
    (s.cipher_buf_pos ≤ s.char_counter →
      s.char_counter + s.remaining.length < size_t_card E →
      (basic_ictr.mread_loop E fuel s room).1.cipher_buf_pos ≤
          (basic_ictr.mread_loop E fuel s room).1.char_counter ∧
        (basic_ictr.mread_loop E fuel s room).1.char_counter +
            (basic_ictr.mread_loop E fuel s room).1.remaining.length =
          s.char_counter + s.remaining.length ∧
        ∀ e ∈ basic_ictr.mread_loop_evals E fuel s room, E.block_size ≤ e.char_counter) := by
  induction fuel generalizing s room with
  | zero => omega
  | succ fuel ih =>
    have hpos := E.block_size_pos
    rw [mread_loop_succ, mread_loop_evals_succ]
    by_cases hroom : room = 0
    · rw [if_pos hroom, if_pos hroom]
      exact ⟨hlt, fun hle _ => ⟨hle, rfl, by simp⟩⟩
    · rw [if_neg hroom, if_neg hroom]
      obtain ⟨-, h2, h3, h4, h5, -⟩ := source_reads_remaining s.ib
        (E.block_size - s.cipher_buf_pos)
      simp only
      generalize s.ib.reads (E.block_size - s.cipher_buf_pos) = r at h2 h3 h4 h5 ⊢
      have hrem : s.remaining.length = (s.ib.data.drop s.ib.pos).length := rfl
      by_cases hfull : s.cipher_buf_pos + r.1.length = E.block_size
      · have hne : ¬(s.cipher_buf_pos + r.1.length ≠ E.block_size) := by simpa using hfull
        rw [if_neg hne, if_neg hne]
        by_cases hroomlt : room < E.block_size
        · rw [if_pos hroomlt, if_pos hroomlt]
          refine ⟨hpos, fun hle hW => ?_⟩
          have hc : to_size_t E (s.char_counter + r.1.length) = s.char_counter + r.1.length :=
            to_size_t_of_lt E (by omega)
          simp only [basic_ictr.remaining, hc]
          refine ⟨Nat.zero_le _, by omega, ?_⟩
          intro e he
          simp only [List.mem_singleton] at he
          subst he
          show E.block_size ≤ s.char_counter + r.1.length
          omega
        · rw [if_neg hroomlt, if_neg hroomlt]
          obtain ⟨i1, i2⟩ := ih
            { s with
              cipher_buf := uninitialized_copy s.cipher_buf s.cipher_buf_pos r.1
              cipher_buf_pos := 0
              char_counter := to_size_t E (s.char_counter + r.1.length)
              ib := r.2 } (room - E.block_size) hpos (by omega)
          refine ⟨i1, fun hle hW => ?_⟩
          have hc : to_size_t E (s.char_counter + r.1.length) = s.char_counter + r.1.length :=
            to_size_t_of_lt E (by omega)
          obtain ⟨j1, j2, j3⟩ := i2 (Nat.zero_le _) (by
            simp only [basic_ictr.remaining, hc]; omega)
          refine ⟨j1, ?_, ?_⟩
          · rw [j2]
            simp only [basic_ictr.remaining, hc]; omega
          · intro e he
            rcases List.mem_cons.mp he with h | h
            · subst h
              show E.block_size ≤ to_size_t E (s.char_counter + r.1.length)
              rw [hc]; omega
            · exact j3 e h
      · have hne : s.cipher_buf_pos + r.1.length ≠ E.block_size := hfull
        rw [if_pos hne, if_pos hne]
        refine ⟨by show s.cipher_buf_pos + r.1.length < _; omega, fun hle hW => ?_⟩
        have hc : to_size_t E (s.char_counter + r.1.length) = s.char_counter + r.1.length :=
          to_size_t_of_lt E (by omega)
        simp only [basic_ictr.remaining, hc]
        exact ⟨by omega, by omega, by simp⟩

theorem mread_counted (E : cipher_type) (s : basic_ictr) (n : Nat)
    (hlt : s.cipher_buf_pos < E.block_size) :
    (s.mread E n).1.cipher_buf_pos < E.block_size ∧
    (s.cipher_buf_pos ≤ s.char_counter →
      s.char_counter + s.remaining.length < size_t_card E →
      (s.mread E n).1.cipher_buf_pos ≤ (s.mread E n).1.char_counter ∧
        (s.mread E n).1.char_counter + (s.mread E n).1.remaining.length =
          s.char_counter + s.remaining.length ∧
        ∀ e ∈ s.mread_evals E n, E.block_size ≤ e.char_counter) := by
  unfold basic_ictr.mread basic_ictr.mread_evals
  by_cases hp : s.plaintext_buf_pos = 0
  · have hne : ¬(s.plaintext_buf_pos ≠ 0) := by simpa using hp
    rw [if_neg hne, if_neg hne]
    exact mread_loop_counted E (n + 1) s n hlt (Nat.lt_succ_self n)
  · have hne : s.plaintext_buf_pos ≠ 0 := hp
    rw [if_pos hne, if_pos hne]
    simp only
    generalize (if s.plaintext_buf_pos < n then s.plaintext_buf_pos else n) = m
    by_cases hrem : s.plaintext_buf_pos - m = 0
    · have hne2 : ¬(s.plaintext_buf_pos - m ≠ 0) := by simpa using hrem
      rw [if_neg hne2, if_neg hne2]
      exact mread_loop_counted E (n - m + 1) { s with plaintext_buf_pos := 0 } (n - m) hlt
        (Nat.lt_succ_self _)
    · have hne2 : s.plaintext_buf_pos - m ≠ 0 := hrem
      rw [if_pos hne2, if_pos hne2]
      exact ⟨hlt, fun hle _ => ⟨hle, rfl, by simp⟩⟩

theorem to_size_t_lt (E : cipher_type) (n : Nat) : to_size_t E n < size_t_card E :=
  Nat.mod_lt _ (size_t_card_pos E)

theorem to_size_t_le (E : cipher_type) (n : Nat) : to_size_t E n ≤ n := Nat.mod_le _ _

/-- The call `seek` with a block-aligned target. -/
theorem seek_of_aligned (E : cipher_type) (s : basic_ictr) (t : Nat)
    (ha : to_size_t E t = to_size_t E t / E.block_size * E.block_size) :
    s.seek E t =
      ({ s with
         ib := { data := s.ib.data, pos := t }
         cipher_buf_pos := 0
         plaintext_buf_pos := 0
         char_counter := to_size_t E t }, some t) ∧
    s.seek_staged E t = none := by
  simp only [basic_ictr.seek, basic_ictr.seek_staged, source.seek]
  rw [seek_aligned_eq E _ (to_size_t_lt E t)]
  rw [if_pos ha, if_pos ha]
  exact ⟨rfl, rfl⟩

/-- The call `seek` with a target that is not block-aligned, when the source cannot supply
the bytes that precede the target in its block. -/
theorem seek_of_short (E : cipher_type) (s : basic_ictr) (t : Nat)
    (ha : to_size_t E t ≠ to_size_t E t / E.block_size * E.block_size)
    (hL : s.ib.data.length < to_size_t E t) :
    (s.seek E t).2 = none ∧
    s.seek_staged E t = none ∧
    (s.seek E t).1.cipher_buf = s.cipher_buf ∧
    (s.seek E t).1.cipher_buf_pos = s.cipher_buf_pos ∧
    (s.seek E t).1.plaintext_buf = s.plaintext_buf ∧
    (s.seek E t).1.plaintext_buf_pos = s.plaintext_buf_pos ∧
    (s.seek E t).1.char_counter = s.char_counter ∧
    (s.seek E t).1.ib.data = s.ib.data ∧
    (s.seek E t).1.remaining = [] := by
  have hq : to_size_t E t / E.block_size * E.block_size ≤ to_size_t E t :=
    Nat.div_mul_le_self _ _
  simp only [basic_ictr.seek, basic_ictr.seek_staged, source.seek, source.reads]
  rw [seek_aligned_eq E _ (to_size_t_lt E t)]
  rw [if_neg ha, if_neg ha]
  generalize to_size_t E t = p at ha hL hq
  generalize p / E.block_size * E.block_size = a at ha hq
  have hlen : ((s.ib.data.drop a).take (p - a)).length ≠ p - a := by
    rw [List.length_take, List.length_drop]; omega
  rw [if_pos hlen, if_pos hlen]
  refine ⟨rfl, rfl, rfl, rfl, rfl, rfl, rfl, rfl, ?_⟩
  simp only [basic_ictr.remaining]
  apply List.drop_of_length_le
  rw [List.length_take, List.length_drop]
  omega

/-- The call `seek` with a target that is not block-aligned, when the source supplies the
bytes that precede the target in its block. -/
theorem seek_of_staged (E : cipher_type) (s : basic_ictr) (t : Nat)
    (ha : to_size_t E t ≠ to_size_t E t / E.block_size * E.block_size)
    (hL : to_size_t E t ≤ s.ib.data.length) :
    s.seek_staged E t =
      some { s with
             ib := { data := s.ib.data, pos := to_size_t E t }
             cipher_buf := uninitialized_copy (List.replicate E.block_size 0) 0
               ((s.ib.data.drop (to_size_t E t / E.block_size * E.block_size)).take
                 (to_size_t E t - to_size_t E t / E.block_size * E.block_size))
             cipher_buf_pos := to_size_t E t - to_size_t E t / E.block_size * E.block_size
             plaintext_buf_pos := 0
             char_counter := to_size_t E t } ∧
    s.seek E t =
      ((basic_ictr.reads E
          { s with
            ib := { data := s.ib.data, pos := to_size_t E t }
            cipher_buf := uninitialized_copy (List.replicate E.block_size 0) 0
              ((s.ib.data.drop (to_size_t E t / E.block_size * E.block_size)).take
                (to_size_t E t - to_size_t E t / E.block_size * E.block_size))
            cipher_buf_pos := to_size_t E t - to_size_t E t / E.block_size * E.block_size
            plaintext_buf_pos := 0
            char_counter := to_size_t E t }
          (to_size_t E t - to_size_t E t / E.block_size * E.block_size)).1, some t) := by
  have hq : to_size_t E t / E.block_size * E.block_size ≤ to_size_t E t :=
    Nat.div_mul_le_self _ _
  simp only [basic_ictr.seek, basic_ictr.seek_staged, source.seek, source.reads]
  rw [seek_aligned_eq E _ (to_size_t_lt E t)]
  rw [if_neg ha, if_neg ha]
  generalize to_size_t E t = p at ha hL hq
  generalize p / E.block_size * E.block_size = a at ha hq
  have hlen : ((s.ib.data.drop a).take (p - a)).length = p - a := by
    rw [List.length_take, List.length_drop]; omega
  have hne : ¬(((s.ib.data.drop a).take (p - a)).length ≠ p - a) := by simpa using hlen
  rw [if_neg hne, if_neg hne, hlen]
  have hap : a + (p - a) = p := by omega
  rw [hap]
  exact ⟨rfl, rfl⟩

theorem get_state (E : cipher_type) (s : basic_ictr) :
    (s.get E).1 =
      if s.plaintext_buf_pos = 0 then (s.reads E 1).1 else s.advance_plaintext_buf_pos E := by
  unfold basic_ictr.get
  by_cases hp : s.plaintext_buf_pos = 0
  · rw [if_pos hp, if_pos hp]
    generalize s.reads E 1 = r
    rcases r with ⟨s1, _ | ⟨ch, _ | ⟨ch2, rest⟩⟩⟩ <;> rfl
  · rw [if_neg hp, if_neg hp]

theorem try_get_state (E : cipher_type) (s : basic_ictr) :
    (s.try_get E).1 =
      if s.plaintext_buf_pos = 0 then (s.reads E 1).1 else s.advance_plaintext_buf_pos E := by
  unfold basic_ictr.try_get
  by_cases hp : s.plaintext_buf_pos = 0
  · rw [if_pos hp, if_pos hp]
    generalize s.reads E 1 = r
    rcases r with ⟨s1, _ | ⟨ch, _ | ⟨ch2, rest⟩⟩⟩ <;> rfl
  · rw [if_neg hp, if_neg hp]

theorem advance_wf (E : cipher_type) (s : basic_ictr) (hwf : s.wf E) :
    (s.advance_plaintext_buf_pos E).wf E := by
  have := hwf.plaintext_buf_pos_le
  unfold basic_ictr.advance_plaintext_buf_pos
  by_cases h : s.plaintext_buf_pos = E.block_size
  · rw [if_pos h]
    exact ⟨hwf.cipher_buf_size, hwf.plaintext_buf_size, hwf.cipher_buf_pos_le, Nat.zero_le _⟩
  · rw [if_neg h]
    exact ⟨hwf.cipher_buf_size, hwf.plaintext_buf_size, hwf.cipher_buf_pos_le, by
      show s.plaintext_buf_pos + 1 ≤ _
      omega⟩

theorem advance_fields (E : cipher_type) (s : basic_ictr) :
    (s.advance_plaintext_buf_pos E).cipher_buf = s.cipher_buf ∧
    (s.advance_plaintext_buf_pos E).cipher_buf_pos = s.cipher_buf_pos ∧
    (s.advance_plaintext_buf_pos E).char_counter = s.char_counter ∧
    (s.advance_plaintext_buf_pos E).ib = s.ib ∧
    (s.advance_plaintext_buf_pos E).key = s.key ∧
    (s.advance_plaintext_buf_pos E).nonce = s.nonce := by
  unfold basic_ictr.advance_plaintext_buf_pos
  by_cases h : s.plaintext_buf_pos = E.block_size
  · rw [if_pos h]; exact ⟨rfl, rfl, rfl, rfl, rfl, rfl⟩
  · rw [if_neg h]; exact ⟨rfl, rfl, rfl, rfl, rfl, rfl⟩

/-- Between public calls the arrays keep their size and the staging block is short of
full; the key, the nonce and the bytes of the source do not change. -/
theorem step_wf (E : cipher_type) (s : basic_ictr) (op : ictr_op) (hwf : s.wf E)
    (hlt : s.cipher_buf_pos < E.block_size) :
    (s.step E op).wf E ∧ (s.step E op).cipher_buf_pos < E.block_size ∧
    (s.step E op).key = s.key ∧ (s.step E op).nonce = s.nonce ∧
    (s.step E op).ib.data = s.ib.data := by
  cases op with
  | reads n =>
    obtain ⟨-, -, h3, h4, h5, h6⟩ := reads_spec E s n hwf
    exact ⟨h3, (mread_counted E s n hlt).1, h4, h5, h6⟩
  | get =>
    show (s.get E).1.wf E ∧ (s.get E).1.cipher_buf_pos < _ ∧ (s.get E).1.key = _ ∧
      (s.get E).1.nonce = _ ∧ (s.get E).1.ib.data = _
    rw [get_state]
    by_cases hp : s.plaintext_buf_pos = 0
    · rw [if_pos hp]
      obtain ⟨-, -, h3, h4, h5, h6⟩ := reads_spec E s 1 hwf
      exact ⟨h3, (mread_counted E s 1 hlt).1, h4, h5, h6⟩
    · rw [if_neg hp]
      obtain ⟨-, a2, -, a4, a5, a6⟩ := advance_fields E s
      exact ⟨advance_wf E s hwf, by rw [a2]; exact hlt, a5, a6, by rw [a4]⟩
  | try_get =>
    show (s.try_get E).1.wf E ∧ (s.try_get E).1.cipher_buf_pos < _ ∧ (s.try_get E).1.key = _ ∧
      (s.try_get E).1.nonce = _ ∧ (s.try_get E).1.ib.data = _
    rw [try_get_state]
    by_cases hp : s.plaintext_buf_pos = 0
    · rw [if_pos hp]
      obtain ⟨-, -, h3, h4, h5, h6⟩ := reads_spec E s 1 hwf
      exact ⟨h3, (mread_counted E s 1 hlt).1, h4, h5, h6⟩
    · rw [if_neg hp]
      obtain ⟨-, a2, -, a4, a5, a6⟩ := advance_fields E s
      exact ⟨advance_wf E s hwf, by rw [a2]; exact hlt, a5, a6, by rw [a4]⟩
  | seek t =>
    obtain ⟨w1, w2, w3, w4⟩ := seek_wf E s t hwf
    refine ⟨w1, ?_, w2, w3, w4⟩
    show (s.seek E t).1.cipher_buf_pos < _
    by_cases ha : to_size_t E t = to_size_t E t / E.block_size * E.block_size
    · rw [(seek_of_aligned E s t ha).1]
      exact E.block_size_pos
    · by_cases hL : to_size_t E t ≤ s.ib.data.length
      · rw [(seek_of_staged E s t ha hL).2]
        apply (mread_counted E _ _ _).1
        have := seek_read_length_lt E (to_size_t E t) (to_size_t_lt E t)
        rw [seek_aligned_eq E _ (to_size_t_lt E t)] at this
        exact this
      · obtain ⟨-, -, -, h4, -⟩ := seek_of_short E s t ha (by omega)
        rw [h4]; exact hlt

theorem run_wf (E : cipher_type) (s : basic_ictr) (ops : List ictr_op) (hwf : s.wf E)
    (hlt : s.cipher_buf_pos < E.block_size) :
    (s.run E ops).wf E ∧ (s.run E ops).cipher_buf_pos < E.block_size ∧
    (s.run E ops).key = s.key ∧ (s.run E ops).nonce = s.nonce ∧
    (s.run E ops).ib.data = s.ib.data := by
  induction ops generalizing s with
  | nil => exact ⟨hwf, hlt, rfl, rfl, rfl⟩
  | cons op ops ih =>
    obtain ⟨h1, h2, h3, h4, h5⟩ := step_wf E s op hwf hlt
    obtain ⟨i1, i2, i3, i4, i5⟩ := ih (s.step E op) h1 h2
    exact ⟨i1, i2, i3.trans h3, i4.trans h4, i5.trans h5⟩

/-- An adapter whose source is exhausted and whose buffers hold no complete block has nothing
to deliver. -/
theorem pending_of_exhausted (E : cipher_type) (s : basic_ictr) (hwf : s.wf E)
    (hlt : s.cipher_buf_pos < E.block_size) (hsrc : s.ib.data.length ≤ s.ib.pos)
    (hov : s.plaintext_buf_pos = 0) : s.pending E = [] := by
  have hlen := pending_length E s hwf
  rw [hov, Nat.zero_add, Nat.sub_eq_zero_of_le hsrc, Nat.add_zero, Nat.div_eq_of_lt hlt,
    Nat.mul_zero] at hlen
  exact List.length_eq_zero.mp hlen

/-- C11 (short-read signalling). In every state of a decrypt adapter reached from a fresh one
by public calls in which the source is exhausted and no decrypted bytes wait in the overflow
buffer, `try_get` returns a pair whose end-of-stream flag is true, and every `reads` call made
afterwards, with a destination of any length, returns no bytes. -/
theorem try_get_exhausted (E : cipher_type) (key nonce : block_type) (ib : source)
    (ops : List ictr_op) (ns : List Nat)
    (hsrc : ((basic_ictr.init E key nonce ib).run E ops).ib.data.length ≤
      ((basic_ictr.init E key nonce ib).run E ops).ib.pos)
    (hov : ((basic_ictr.init E key nonce ib).run E ops).plaintext_buf_pos = 0) :
    (((basic_ictr.init E key nonce ib).run E ops).try_get E).2 = some (0, true) ∧
    (basic_ictr.reads_seq E ((((basic_ictr.init E key nonce ib).run E ops).try_get E).1) ns).2
      = [] ∧
    ∀ n, ((((((basic_ictr.init E key nonce ib).run E ops).try_get E).1).reads E n).2).length
      = 0 := by
  obtain ⟨hwf, hlt, -⟩ := run_wf E _ ops (init_wf E key nonce ib) E.block_size_pos
  generalize (basic_ictr.init E key nonce ib).run E ops = s at hsrc hov hwf hlt
  have hpend := pending_of_exhausted E s hwf hlt hsrc hov
  obtain ⟨r1, r2, r3, -⟩ := reads_spec E s 1 hwf
  rw [hpend] at r1 r2
  simp only [List.take_nil, List.drop_nil] at r1 r2
  have hst : (s.try_get E).1 = (s.reads E 1).1 := by rw [try_get_state, if_pos hov]
  have hres : (s.try_get E).2 = some (0, true) := by
    unfold basic_ictr.try_get
    rw [if_pos hov]
    generalize s.reads E 1 = r at r1
    rcases r with ⟨s1, out⟩
    simp only at r1
    subst r1
    rfl
  refine ⟨hres, ?_, ?_⟩
  · rw [hst]
    obtain ⟨q1, -⟩ := reads_seq_spec E _ ns r3
    rw [q1, r2, List.take_nil]
  · intro n
    rw [hst]
    obtain ⟨q1, -⟩ := reads_spec E _ n r3
    rw [q1, r2, List.take_nil]
    rfl

/-- A source of 16 bytes read to its end, then `try_get` and two `reads` calls. -/
theorem try_get_exhausted_witness :
    (((basic_ictr.init (sum_cipher 15 8) (List.replicate 16 0) (List.replicate 8 0)
        { data := List.replicate 16 7, pos := 0 }).run (sum_cipher 15 8)
        [ictr_op.reads 16]).ib.data.length ≤
      ((basic_ictr.init (sum_cipher 15 8) (List.replicate 16 0) (List.replicate 8 0)
        { data := List.replicate 16 7, pos := 0 }).run (sum_cipher 15 8)
        [ictr_op.reads 16]).ib.pos ∧
    ((basic_ictr.init (sum_cipher 15 8) (List.replicate 16 0) (List.replicate 8 0)
        { data := List.replicate 16 7, pos := 0 }).run (sum_cipher 15 8)
        [ictr_op.reads 16]).plaintext_buf_pos = 0) ∧
    ((((basic_ictr.init (sum_cipher 15 8) (List.replicate 16 0) (List.replicate 8 0)
        { data := List.replicate 16 7, pos := 0 }).run (sum_cipher 15 8)
        [ictr_op.reads 16]).try_get (sum_cipher 15 8)).2 = some (0, true) ∧
    (basic_ictr.reads_seq (sum_cipher 15 8)
        ((((basic_ictr.init (sum_cipher 15 8) (List.replicate 16 0) (List.replicate 8 0)
          { data := List.replicate 16 7, pos := 0 }).run (sum_cipher 15 8)
          [ictr_op.reads 16]).try_get (sum_cipher 15 8)).1) [5, 40]).2 = [] ∧
    ∀ n, ((((((basic_ictr.init (sum_cipher 15 8) (List.replicate 16 0) (List.replicate 8 0)
        { data := List.replicate 16 7, pos := 0 }).run (sum_cipher 15 8)
        [ictr_op.reads 16]).try_get (sum_cipher 15 8)).1).reads (sum_cipher 15 8) n).2).length
      = 0) :=
  ⟨⟨by decide, by decide⟩,
    try_get_exhausted (sum_cipher 15 8) (List.replicate 16 0) (List.replicate 8 0)
      { data := List.replicate 16 7, pos := 0 } [ictr_op.reads 16] [5, 40]
      (by decide) (by decide)⟩

theorem step_counted (E : cipher_type) (s : basic_ictr) (op : ictr_op) (hc : s.counted E)
    (hL : s.ib.data.length < size_t_card E) :
    (s.step E op).counted E ∧ ∀ e ∈ s.op_evals E op, E.block_size ≤ e.char_counter := by
  have hpos := E.block_size_pos
  have hmread : ∀ n, (s.mread E n).1.counted E ∧
      ∀ e ∈ s.mread_evals E n, E.block_size ≤ e.char_counter := by
    intro n
    obtain ⟨m1, m2⟩ := mread_counted E s n hc.staging_lt
    obtain ⟨m3, m4, m5⟩ := m2 hc.staging_le hc.no_wrap
    exact ⟨⟨m1, m3, by rw [m4]; exact hc.no_wrap⟩, m5⟩
  have hadv : (s.advance_plaintext_buf_pos E).counted E := by
    obtain ⟨-, a2, a3, a4, -⟩ := advance_fields E s
    exact ⟨by rw [a2]; exact hc.staging_lt, by rw [a2, a3]; exact hc.staging_le, by
      simp only [basic_ictr.remaining]
      rw [a3, a4]; exact hc.no_wrap⟩
  cases op with
  | reads n => exact hmread n
  | get =>
    show (s.get E).1.counted E ∧ ∀ e ∈ s.op_evals E ictr_op.get, _
    rw [get_state]
    simp only [basic_ictr.op_evals]
    by_cases hp : s.plaintext_buf_pos = 0
    · rw [if_pos hp, if_pos hp]; exact hmread 1
    · rw [if_neg hp, if_neg hp]; exact ⟨hadv, by simp⟩
  | try_get =>
    show (s.try_get E).1.counted E ∧ ∀ e ∈ s.op_evals E ictr_op.try_get, _
    rw [try_get_state]
    simp only [basic_ictr.op_evals]
    by_cases hp : s.plaintext_buf_pos = 0
    · rw [if_pos hp, if_pos hp]; exact hmread 1
    · rw [if_neg hp, if_neg hp]; exact ⟨hadv, by simp⟩
  | seek t =>
    show (s.seek E t).1.counted E ∧ ∀ e ∈ s.op_evals E (ictr_op.seek t), _
    simp only [basic_ictr.op_evals]
    have hpt := to_size_t_lt E t
    have hple := to_size_t_le E t
    by_cases ha : to_size_t E t = to_size_t E t / E.block_size * E.block_size
    · obtain ⟨h1, h2⟩ := seek_of_aligned E s t ha
      rw [h1, h2]
      refine ⟨⟨hpos, Nat.zero_le _, ?_⟩, by simp⟩
      simp only [basic_ictr.remaining, List.length_drop]
      omega
    · by_cases hLt : to_size_t E t ≤ s.ib.data.length
      · obtain ⟨h1, h2⟩ := seek_of_staged E s t ha hLt
        rw [h1, h2]
        have hrl := seek_read_length_lt E (to_size_t E t) hpt
        rw [seek_aligned_eq E _ hpt] at hrl
        obtain ⟨m1, m2⟩ := mread_counted E
          { s with
            ib := { data := s.ib.data, pos := to_size_t E t }
            cipher_buf := uninitialized_copy (List.replicate E.block_size 0) 0
              ((s.ib.data.drop (to_size_t E t / E.block_size * E.block_size)).take
                (to_size_t E t - to_size_t E t / E.block_size * E.block_size))
            cipher_buf_pos := to_size_t E t - to_size_t E t / E.block_size * E.block_size
            plaintext_buf_pos := 0
            char_counter := to_size_t E t }
          (to_size_t E t - to_size_t E t / E.block_size * E.block_size) hrl
        have hnw : to_size_t E t + (s.ib.data.drop (to_size_t E t)).length < size_t_card E := by
          rw [List.length_drop]; omega
        obtain ⟨m3, m4, m5⟩ := m2 (Nat.sub_le _ _) hnw
        exact ⟨⟨m1, m3, lt_of_eq_of_lt m4 hnw⟩, m5⟩
      · obtain ⟨-, h2, -, h4, -, -, h7, -, h9⟩ := seek_of_short E s t ha (by omega)
        rw [h2]
        refine ⟨⟨by rw [h4]; exact hc.staging_lt, by rw [h4, h7]; exact hc.staging_le, ?_⟩,
          by simp⟩
        rw [h7, h9]
        have := hc.no_wrap
        simp only [List.length_nil]
        omega

theorem init_counted (E : cipher_type) (key nonce : block_type) (ib : source)
    (hL : ib.data.length < size_t_card E) : (basic_ictr.init E key nonce ib).counted E := by
  refine ⟨E.block_size_pos, Nat.zero_le _, ?_⟩
  simp only [basic_ictr.init, basic_ictr.remaining, List.length_drop]
  omega

theorem run_counted (E : cipher_type) (s : basic_ictr) (ops : List ictr_op) (hwf : s.wf E)
    (hc : s.counted E) (hL : s.ib.data.length < size_t_card E) :
    ∀ e ∈ basic_ictr.run_evals E s ops, E.block_size ≤ e.char_counter := by
  induction ops generalizing s with
  | nil => simp [basic_ictr.run_evals]
  | cons op ops ih =>
    obtain ⟨w1, -, -, -, w5⟩ := step_wf E s op hwf hc.staging_lt
    obtain ⟨c1, c2⟩ := step_counted E s op hc hL
    intro e he
    simp only [basic_ictr.run_evals, List.mem_append] at he
    rcases he with h | h
    · exact c2 e h
    · exact ih (s.step E op) w1 c1 (by rw [w5]; exact hL) e h

theorem writes_blocks_counter (E : cipher_type) (s : basic_octr) (pe : Nat) (X : block_type)
    (hle : X.length ≤ pe) (hW : s.char_counter + X.length < size_t_card E) (s1 : basic_octr)
    (h : basic_octr.writes_blocks E s pe X = some s1) :
    s1.plaintext_buf_pos = X.length % E.block_size ∧
    s1.char_counter = s.char_counter + X.length := by
  have hpos := E.block_size_pos
  have hdm := Nat.div_add_mod X.length E.block_size
  rw [Nat.mul_comm] at hdm
  have hbc : s.char_counter / E.block_size ≤ s.char_counter := Nat.div_le_self _ _
  unfold basic_octr.writes_blocks at h
  by_cases hpe : E.block_size ≤ pe
  · rw [writes_loop_spec E X.length s _ pe X (le_refl _) hpe hle hW (by omega)] at h
    rw [← Option.some.inj h]
    simp only [List.length_drop]
    refine ⟨by omega, ?_⟩
    rw [to_size_t_of_lt E (by omega)]
    omega
  · rw [writes_loop_of_low E _ s _ pe X (by omega) hle] at h
    by_cases ht : pe - X.length ≤ last_length E pe
    · rw [if_pos ht] at h
      exact absurd h (by simp)
    · rw [if_neg ht] at h
      rw [← Option.some.inj h]
      simp only
      refine ⟨(Nat.mod_eq_of_lt (by omega)).symm, to_size_t_of_lt E hW⟩

theorem writes_counted (E : cipher_type) (s : basic_octr) (input : input_range)
    (hle : s.plaintext_buf_pos ≤ E.block_size) (hc : s.plaintext_buf_pos ≤ s.char_counter)
    (hW : s.char_counter + input.bytes.length < size_t_card E) :
    (∀ v ∈ s.op_evals E (octr_op.writes input), E.block_size ≤ v) ∧
    ∀ s1, s.writes E input = some s1 →
      s1.plaintext_buf_pos ≤ E.block_size ∧ s1.plaintext_buf_pos ≤ s1.char_counter ∧
      s1.char_counter ≤ s.char_counter + input.bytes.length := by
  have hpos := E.block_size_pos
  have hple : input.bytes.length ≤ input.pe := Nat.le_add_left _ _
  generalize hX : input.bytes = X at hW hple
  simp only [basic_octr.writes, basic_octr.op_evals, hX]
  by_cases h0 : s.plaintext_buf_pos = 0
  · have hne : ¬(s.plaintext_buf_pos ≠ 0) := by simpa using h0
    rw [if_neg hne, if_neg hne]
    refine ⟨by simp, fun s1 hs1 => ?_⟩
    obtain ⟨w1, w2⟩ := writes_blocks_counter E s input.pe X hple hW s1 hs1
    have hmod := Nat.mod_lt X.length hpos
    have hmodle := Nat.mod_le X.length E.block_size
    rw [w1, w2]
    exact ⟨by omega, by omega, le_refl _⟩
  · have hne : s.plaintext_buf_pos ≠ 0 := h0
    rw [if_pos hne, if_pos hne]
    generalize hm : min (E.block_size - s.plaintext_buf_pos) X.length = m
    have hm1 : m ≤ E.block_size - s.plaintext_buf_pos := by rw [← hm]; exact Nat.min_le_left _ _
    have hm2 : m ≤ X.length := by rw [← hm]; exact Nat.min_le_right _ _
    have hcm : to_size_t E (s.char_counter + m) = s.char_counter + m :=
      to_size_t_of_lt E (by omega)
    by_cases hfull : s.plaintext_buf_pos + m = E.block_size
    · have hne2 : ¬(s.plaintext_buf_pos + m ≠ E.block_size) := by simpa using hfull
      rw [if_neg hne2, if_neg hne2, hcm]
      refine ⟨?_, fun s1 hs1 => ?_⟩
      · intro v hv
        simp only [List.mem_singleton] at hv
        omega
      · obtain ⟨w1, w2⟩ := writes_blocks_counter E _ input.pe (X.drop m)
          (by rw [List.length_drop]; omega)
          (by
            show s.char_counter + m + (X.drop m).length < _
            rw [List.length_drop]; omega) s1 hs1
        have hmod2 := Nat.mod_lt (X.drop m).length hpos
        have hmodle2 := Nat.mod_le (X.drop m).length E.block_size
        have w3 : s1.char_counter = s.char_counter + m + (X.drop m).length := w2
        rw [w1, w3]
        rw [List.length_drop] at hmod2 hmodle2 ⊢
        exact ⟨by omega, by omega, by omega⟩
    · have hne2 : s.plaintext_buf_pos + m ≠ E.block_size := hfull
      rw [if_pos hne2, if_pos hne2]
      refine ⟨by simp, fun s1 hs1 => ?_⟩
      rw [← Option.some.inj hs1]
      refine ⟨?_, ?_, ?_⟩
      · show s.plaintext_buf_pos + m ≤ _
        omega
      · show s.plaintext_buf_pos + m ≤ to_size_t E (s.char_counter + m)
        rw [hcm]; omega
      · show to_size_t E (s.char_counter + m) ≤ _
        rw [hcm]; omega

theorem put_counted (E : cipher_type) (s : basic_octr) (ch : unsigned_char_type)
    (hle : s.plaintext_buf_pos ≤ E.block_size) (hc : s.plaintext_buf_pos ≤ s.char_counter)
    (hW : s.char_counter + 1 < size_t_card E) :
    (s.put E ch).plaintext_buf_pos ≤ E.block_size ∧
    (s.put E ch).plaintext_buf_pos ≤ (s.put E ch).char_counter ∧
    (s.put E ch).char_counter ≤ s.char_counter + 1 ∧
    ∀ v ∈ s.op_evals E (octr_op.put ch), E.block_size ≤ v := by
  have hpos := E.block_size_pos
  simp only [basic_octr.put, basic_octr.op_evals]
  have hc1 : to_size_t E (s.char_counter + 1) = s.char_counter + 1 :=
    to_size_t_of_lt E hW
  by_cases hfull : s.plaintext_buf_pos = E.block_size
  · rw [if_pos hfull, if_pos hfull]
    simp only [basic_octr.encrypt_out]
    rw [hc1]
    refine ⟨by omega, by omega, le_refl _, ?_⟩
    intro v hv
    simp only [List.mem_singleton] at hv
    omega
  · rw [if_neg hfull, if_neg hfull, hc1]
    exact ⟨by omega, by omega, le_refl _, by simp⟩

theorem flush_counted (E : cipher_type) (s : basic_octr)
    (hle : s.plaintext_buf_pos ≤ E.block_size) (hc : s.plaintext_buf_pos ≤ s.char_counter)
    (hW : s.char_counter + E.block_size < size_t_card E) :
    (s.flush E).plaintext_buf_pos ≤ E.block_size ∧
    (s.flush E).plaintext_buf_pos ≤ (s.flush E).char_counter ∧
    (s.flush E).char_counter ≤ s.char_counter + E.block_size ∧
    ∀ v ∈ s.op_evals E octr_op.flush, E.block_size ≤ v := by
  have hpos := E.block_size_pos
  simp only [basic_octr.op_evals]
  by_cases h0 : s.plaintext_buf_pos = 0
  · rw [flush_of_empty E s h0]
    exact ⟨hle, hc, by show s.char_counter ≤ _; omega, by simp⟩
  · rw [flush_of_nonempty E s h0]
    have hd : s.char_counter / E.block_size * E.block_size ≤ s.char_counter :=
      Nat.div_mul_le_self _ _
    have hd2 : s.char_counter / E.block_size ≤ s.char_counter := Nat.div_le_self _ _
    have e1 : to_size_t E (s.char_counter / E.block_size + 1) =
        s.char_counter / E.block_size + 1 := to_size_t_of_lt E (by omega)
    have e2 : (s.char_counter / E.block_size + 1) * E.block_size ≤
        s.char_counter + E.block_size := by rw [Nat.add_mul]; omega
    refine ⟨Nat.zero_le _, Nat.zero_le _, ?_, by simp⟩
    show to_size_t E (to_size_t E (s.char_counter / E.block_size + 1) * E.block_size) ≤ _
    rw [e1, to_size_t_of_lt E (by omega)]
    exact e2

theorem octr_step_counted (E : cipher_type) (s : basic_octr) (op : octr_op)
    (hle : s.plaintext_buf_pos ≤ E.block_size) (hc : s.plaintext_buf_pos ≤ s.char_counter)
    (hW : s.char_counter + op.growth E < size_t_card E) :
    (∀ v ∈ s.op_evals E op, E.block_size ≤ v) ∧
    ∀ s1, s.step E op = some s1 →
      s1.plaintext_buf_pos ≤ E.block_size ∧ s1.plaintext_buf_pos ≤ s1.char_counter ∧
      s1.char_counter ≤ s.char_counter + op.growth E := by
  cases op with
  | writes input => exact writes_counted E s input hle hc hW
  | put ch =>
    obtain ⟨h1, h2, h3, h4⟩ := put_counted E s ch hle hc hW
    refine ⟨h4, fun s1 hs1 => ?_⟩
    rw [← Option.some.inj hs1]
    exact ⟨h1, h2, h3⟩
  | flush =>
    obtain ⟨h1, h2, h3, h4⟩ := flush_counted E s hle hc hW
    refine ⟨h4, fun s1 hs1 => ?_⟩
    rw [← Option.some.inj hs1]
    exact ⟨h1, h2, h3⟩

theorem octr_run_counted (E : cipher_type) (s : basic_octr) (ops : List octr_op)
    (hle : s.plaintext_buf_pos ≤ E.block_size) (hc : s.plaintext_buf_pos ≤ s.char_counter)
    (hW : s.char_counter + octr_growth E ops < size_t_card E) :
    ∀ v ∈ basic_octr.run_evals E s ops, E.block_size ≤ v := by
  induction ops generalizing s with
  | nil => simp [basic_octr.run_evals]
  | cons op ops ih =>
    simp only [octr_growth, List.map_cons, List.sum_cons] at hW
    obtain ⟨h4, hstep⟩ := octr_step_counted E s op hle hc (by omega)
    intro v hv
    simp only [basic_octr.run_evals, List.mem_append] at hv
    rcases hv with h | h
    · exact h4 v h
    · generalize hr : s.step E op = r at h
      cases r with
      | none => simp at h
      | some s1 =>
        obtain ⟨h1, h2, h3⟩ := hstep s1 hr
        exact ih s1 h1 h2 (by simp only [octr_growth]; omega) v h

/-- C19 (no underflow in the block-index computation). In every run of public calls on a
fresh decrypt adapter (`reads`, `get`, `try_get`, `seek`) and on a fresh encrypt adapter
(`writes`, `put`, `flush`), each evaluation of `char_counter / block_size - 1` finds
`char_counter` at least `block_size`, as long as the byte counter itself has not wrapped
around: the source is shorter than the number of `std::size_t` values, and so is the number
of bytes written plus one block for each `flush`. -/
theorem no_index_underflow (E : cipher_type) (key nonce : block_type) (ib : source)
    (rops : List ictr_op) (wops : List octr_op)
    (hsrc : ib.data.length < size_t_card E) (hwr : octr_growth E wops < size_t_card E) :
    (∀ e ∈ basic_ictr.run_evals E (basic_ictr.init E key nonce ib) rops,
      E.block_size ≤ e.char_counter) ∧
    (∀ v ∈ basic_octr.run_evals E (basic_octr.init E key nonce) wops, E.block_size ≤ v) :=
  ⟨run_counted E _ rops (init_wf E key nonce ib) (init_counted E key nonce ib hsrc) hsrc,
    octr_run_counted E _ wops (Nat.zero_le _) (Nat.zero_le _) (by
      show 0 + octr_growth E wops < _
      omega)⟩

/-- Runs in which the index is computed twice on each side: the byte counter is 16 and 32 at
the evaluations of the decrypt adapter, and 16 and 32 at those of the encrypt adapter. -/
theorem no_index_underflow_witness :
    ((List.replicate 40 7).length < size_t_card (sum_cipher 15 8) ∧
      octr_growth (sum_cipher 15 8)
        ([octr_op.writes { pb := 4096, bytes := List.replicate 7 65 },
          octr_op.writes { pb := 4103, bytes := List.replicate 13 66 }] ++
          List.replicate 13 (octr_op.put 68) ++ [octr_op.flush]) <
        size_t_card (sum_cipher 15 8)) ∧
    ((basic_ictr.run_evals (sum_cipher 15 8)
        (basic_ictr.init (sum_cipher 15 8) (List.replicate 16 0) (List.replicate 8 0)
          { data := List.replicate 40 7, pos := 0 })
        [ictr_op.reads 3, ictr_op.get, ictr_op.try_get, ictr_op.seek 21,
          ictr_op.reads 19]).map (fun e => e.char_counter) = [16, 32] ∧
      basic_octr.run_evals (sum_cipher 15 8)
        (basic_octr.init (sum_cipher 15 8) (List.replicate 16 0) (List.replicate 8 0))
        ([octr_op.writes { pb := 4096, bytes := List.replicate 7 65 },
          octr_op.writes { pb := 4103, bytes := List.replicate 13 66 }] ++
          List.replicate 13 (octr_op.put 68) ++ [octr_op.flush]) = [16, 32]) ∧
    ((∀ e ∈ basic_ictr.run_evals (sum_cipher 15 8)
        (basic_ictr.init (sum_cipher 15 8) (List.replicate 16 0) (List.replicate 8 0)
          { data := List.replicate 40 7, pos := 0 })
        [ictr_op.reads 3, ictr_op.get, ictr_op.try_get, ictr_op.seek 21, ictr_op.reads 19],
      (sum_cipher 15 8).block_size ≤ e.char_counter) ∧
    (∀ v ∈ basic_octr.run_evals (sum_cipher 15 8)
        (basic_octr.init (sum_cipher 15 8) (List.replicate 16 0) (List.replicate 8 0))
        ([octr_op.writes { pb := 4096, bytes := List.replicate 7 65 },
          octr_op.writes { pb := 4103, bytes := List.replicate 13 66 }] ++
          List.replicate 13 (octr_op.put 68) ++ [octr_op.flush]),
      (sum_cipher 15 8).block_size ≤ v)) :=
  ⟨⟨by decide, by decide⟩, ⟨by decide, by decide⟩,
    no_index_underflow (sum_cipher 15 8) (List.replicate 16 0) (List.replicate 8 0)
      { data := List.replicate 40 7, pos := 0 }
      [ictr_op.reads 3, ictr_op.get, ictr_op.try_get, ictr_op.seek 21, ictr_op.reads 19]
      ([octr_op.writes { pb := 4096, bytes := List.replicate 7 65 },
          octr_op.writes { pb := 4103, bytes := List.replicate 13 66 }] ++
        List.replicate 13 (octr_op.put 68) ++ [octr_op.flush])
      (by decide) (by decide)⟩

/-! ## The bookkeeping of the decrypt adapter -/

theorem mod_add_of_lt {c g b : Nat} (h : c % b + g < b) : (c + g) % b = c % b + g := by
  have hg : g < b := by omega
  rw [Nat.add_mod, Nat.mod_eq_of_lt hg, Nat.mod_eq_of_lt h]

theorem mod_add_of_eq {c g b : Nat} (h : c % b + g = b) : (c + g) % b = 0 := by
  rw [Nat.add_mod]
  by_cases hg : g < b
  · rw [Nat.mod_eq_of_lt hg, h, Nat.mod_self]
  · have hgb : g = b := by omega
    have hc : c % b = 0 := by omega
    rw [hgb, hc, Nat.mod_self]
    rfl

theorem take_length_take {α : Type} (l : List α) (k : Nat) :
    l.take (l.take k).length = l.take k := by
  rw [List.length_take]
  by_cases h : k ≤ l.length
  · rw [Nat.min_eq_left h]
  · rw [Nat.min_eq_right (by omega), List.take_length, List.take_of_length_le (by omega)]

/-- The staged bytes after `ib.reads` has added the bytes `got` to them. -/
theorem staged_after_fill (data : List unsigned_char_type) (pos cpos k : Nat)
    (hle : cpos ≤ pos) :
    (data.drop (pos - cpos)).take cpos ++ (data.drop pos).take k =
      (data.drop (pos + ((data.drop pos).take k).length -
          (cpos + ((data.drop pos).take k).length))).take
        (cpos + ((data.drop pos).take k).length) := by
  have h1 : pos + ((data.drop pos).take k).length - (cpos + ((data.drop pos).take k).length) =
      pos - cpos := by omega
  rw [h1, List.take_add, List.drop_drop]
  have h2 : pos - cpos + cpos = pos := by omega
  rw [h2, take_length_take]

theorem in_place_of_full (E : cipher_type) (e : basic_ictr)
    (hcnt : e.char_counter = e.ib.pos) (hmod : e.char_counter % E.block_size = 0)
    (hge : E.block_size ≤ e.char_counter) (hW : e.char_counter < size_t_card E)
    (hblock : e.cipher_buf = (e.ib.data.drop (e.ib.pos - E.block_size)).take E.block_size) :
    e.decrypts_in_place E := by
  have hpos := E.block_size_pos
  have hdiv := Nat.div_eq_sub_div hpos hge
  have hle : (e.char_counter - E.block_size) / E.block_size ≤ e.char_counter - E.block_size :=
    Nat.div_le_self _ _
  refine ⟨hcnt, by rw [← hcnt]; exact hge, ?_, hblock, ?_⟩
  · rw [← hcnt, ← Nat.mod_eq_sub_mod hge]; exact hmod
  · rw [hdiv, size_t_pred_succ E (by omega), hcnt]

/-- The loop of `mread` keeps the bookkeeping of the adapter in step with the source, and
decrypts every full staging block at its place. -/
theorem mread_loop_in_step (E : cipher_type) (fuel : Nat) (s : basic_ictr) (room : Nat)
    (hwf : s.wf E) (hfuel : room < fuel)
    (hst : s.cipher_buf_pos = s.char_counter % E.block_size)
    (hcnt : s.char_counter = s.ib.pos)
    (hsd : s.staged = (s.ib.data.drop (s.ib.pos - s.cipher_buf_pos)).take s.cipher_buf_pos)
    (hW : s.char_counter + s.remaining.length < size_t_card E) :
    (basic_ictr.mread_loop E fuel s room).1.cipher_buf_pos =
      (basic_ictr.mread_loop E fuel s room).1.char_counter % E.block_size ∧
    (basic_ictr.mread_loop E fuel s room).1.char_counter =
      (basic_ictr.mread_loop E fuel s room).1.ib.pos ∧
    (basic_ictr.mread_loop E fuel s room).1.staged =
      ((basic_ictr.mread_loop E fuel s room).1.ib.data.drop
        ((basic_ictr.mread_loop E fuel s room).1.ib.pos -
          (basic_ictr.mread_loop E fuel s room).1.cipher_buf_pos)).take
        (basic_ictr.mread_loop E fuel s room).1.cipher_buf_pos ∧
    (s.plaintext_buf_pos < E.block_size →
      (basic_ictr.mread_loop E fuel s room).1.plaintext_buf_pos < E.block_size) ∧
    (basic_ictr.mread_loop E fuel s room).1.char_counter +
        (basic_ictr.mread_loop E fuel s room).1.remaining.length =
      s.char_counter + s.remaining.length ∧
    ∀ e ∈ basic_ictr.mread_loop_evals E fuel s room,
      e.decrypts_in_place E ∧ e.ib.data = s.ib.data := by
  induction fuel generalizing s room with
  | zero => omega
  | succ fuel ih =>
    have hpos := E.block_size_pos
    have hcb := hwf.cipher_buf_size
    have hcpl : s.cipher_buf_pos < E.block_size := by rw [hst]; exact Nat.mod_lt _ hpos
    have hcple : s.cipher_buf_pos ≤ s.ib.pos := by
      rw [hst, ← hcnt]; exact Nat.mod_le _ _
    rw [mread_loop_succ, mread_loop_evals_succ]
    by_cases hroom : room = 0
    · rw [if_pos hroom, if_pos hroom]
      exact ⟨hst, hcnt, hsd, fun h => h, rfl, by simp⟩
    · rw [if_neg hroom, if_neg hroom]
      have hfill := staged_after_fill s.ib.data s.ib.pos s.cipher_buf_pos
        (E.block_size - s.cipher_buf_pos) hcple
      have hgl : ((s.ib.data.drop s.ib.pos).take (E.block_size - s.cipher_buf_pos)).length ≤
          E.block_size - s.cipher_buf_pos := by
        rw [List.length_take]; exact Nat.min_le_left _ _
      have hgr : ((s.ib.data.drop s.ib.pos).take (E.block_size - s.cipher_buf_pos)).length ≤
          s.remaining.length := by
        rw [List.length_take]; exact Nat.min_le_right _ _
      have hrem1 : (s.ib.data.drop (s.ib.pos +
          ((s.ib.data.drop s.ib.pos).take (E.block_size - s.cipher_buf_pos)).length)).length +
          ((s.ib.data.drop s.ib.pos).take (E.block_size - s.cipher_buf_pos)).length =
          s.remaining.length := by
        simp only [basic_ictr.remaining, List.length_take, List.length_drop]; omega
      have hr : s.ib.reads (E.block_size - s.cipher_buf_pos) =
          ((s.ib.data.drop s.ib.pos).take (E.block_size - s.cipher_buf_pos),
            { data := s.ib.data, pos := s.ib.pos +
                ((s.ib.data.drop s.ib.pos).take (E.block_size - s.cipher_buf_pos)).length }) :=
        rfl
      rw [hr]
      simp only
      generalize (s.ib.data.drop s.ib.pos).take (E.block_size - s.cipher_buf_pos) = got
        at hfill hgl hgr hrem1
      have hc : to_size_t E (s.char_counter + got.length) = s.char_counter + got.length :=
        to_size_t_of_lt E (by omega)
      rw [hc]
      have hstaged1 : (uninitialized_copy s.cipher_buf s.cipher_buf_pos got).take
          (s.cipher_buf_pos + got.length) =
          (s.ib.data.drop (s.ib.pos + got.length - (s.cipher_buf_pos + got.length))).take
            (s.cipher_buf_pos + got.length) := by
        rw [uninitialized_copy_take (by omega), ← hfill]
        exact congrArg (fun l => l ++ got) hsd
      by_cases hfull : s.cipher_buf_pos + got.length = E.block_size
      · have hne : ¬(s.cipher_buf_pos + got.length ≠ E.block_size) := by simpa using hfull
        rw [if_neg hne, if_neg hne]
        have hmod0 : (s.char_counter + got.length) % E.block_size = 0 :=
          mod_add_of_eq (by rw [← hst]; exact hfull)
        have hbuf : uninitialized_copy s.cipher_buf s.cipher_buf_pos got =
            (s.ib.data.drop (s.ib.pos + got.length - E.block_size)).take E.block_size := by
          have hlen : (uninitialized_copy s.cipher_buf s.cipher_buf_pos got).length =
              E.block_size := by
            rw [uninitialized_copy_length (by omega)]; exact hcb
          rw [hfull] at hstaged1
          rw [← hstaged1, List.take_of_length_le (by omega)]
        have hplace : basic_ictr.decrypts_in_place E
            { s with
              cipher_buf := uninitialized_copy s.cipher_buf s.cipher_buf_pos got
              cipher_buf_pos := s.cipher_buf_pos + got.length
              char_counter := s.char_counter + got.length
              ib := { data := s.ib.data, pos := s.ib.pos + got.length } } :=
          in_place_of_full E _ (by show s.char_counter + got.length = s.ib.pos + got.length; omega)
            hmod0 (by show E.block_size ≤ s.char_counter + got.length; omega)
            (by show s.char_counter + got.length < _; omega) hbuf
        by_cases hroomlt : room < E.block_size
        · rw [if_pos hroomlt, if_pos hroomlt]
          refine ⟨hmod0.symm, by show s.char_counter + got.length = s.ib.pos + got.length; omega,
            by simp [basic_ictr.staged], ?_, ?_, ?_⟩
          · intro _
            show (List.drop room _).length < _
            rw [List.length_drop]
            have : (xor_block (keystream E s.key s.nonce
                (size_t_pred E ((s.char_counter + got.length) / E.block_size)))
                (uninitialized_copy s.cipher_buf s.cipher_buf_pos got)).length ≤ E.block_size := by
              unfold xor_block
              rw [List.length_zipWith, keystream_length]
              exact Nat.min_le_left _ _
            omega
          · simp only [basic_ictr.remaining] at hrem1 ⊢
            omega
          · intro e he
            simp only [List.mem_singleton] at he
            subst he
            exact ⟨hplace, rfl⟩
        · rw [if_neg hroomlt, if_neg hroomlt]
          have hwf2 : basic_ictr.wf E
              { s with
                cipher_buf := uninitialized_copy s.cipher_buf s.cipher_buf_pos got
                cipher_buf_pos := 0
                char_counter := s.char_counter + got.length
                ib := { data := s.ib.data, pos := s.ib.pos + got.length } } :=
            ⟨by show (uninitialized_copy _ _ _).length = _
                rw [uninitialized_copy_length (by omega)]; exact hcb,
              hwf.plaintext_buf_size, Nat.zero_le _, hwf.plaintext_buf_pos_le⟩
          obtain ⟨i1, i2, i3, i4, i5, i6⟩ := ih _ (room - E.block_size) hwf2 (by omega)
            hmod0.symm (by show s.char_counter + got.length = s.ib.pos + got.length; omega)
            (by simp [basic_ictr.staged])
            (by simp only [basic_ictr.remaining] at hrem1 hW ⊢; omega)
          refine ⟨i1, i2, i3, i4, ?_, ?_⟩
          · rw [i5]
            simp only [basic_ictr.remaining] at hrem1 ⊢
            omega
          · intro e he
            rcases List.mem_cons.mp he with h | h
            · subst h; exact ⟨hplace, rfl⟩
            · exact i6 e h
      · have hne : s.cipher_buf_pos + got.length ≠ E.block_size := hfull
        rw [if_pos hne, if_pos hne]
        refine ⟨?_, by show s.char_counter + got.length = s.ib.pos + got.length; omega,
          hstaged1, fun h => h, ?_, by simp⟩
        · show s.cipher_buf_pos + got.length = (s.char_counter + got.length) % E.block_size
          rw [mod_add_of_lt (by rw [← hst]; omega), ← hst]
        · simp only [basic_ictr.remaining] at hrem1 ⊢
          omega

theorem mread_in_step (E : cipher_type) (s : basic_ictr) (n : Nat) (hwf : s.wf E)
    (h : s.in_step E) (hW : s.char_counter + s.remaining.length < size_t_card E) :
    (s.mread E n).1.in_step E ∧
    (s.mread E n).1.char_counter + (s.mread E n).1.remaining.length =
      s.char_counter + s.remaining.length ∧
    ∀ e ∈ s.mread_evals E n, e.decrypts_in_place E ∧ e.ib.data = s.ib.data := by
  unfold basic_ictr.mread basic_ictr.mread_evals
  by_cases hp : s.plaintext_buf_pos = 0
  · have hne : ¬(s.plaintext_buf_pos ≠ 0) := by simpa using hp
    rw [if_neg hne, if_neg hne]
    obtain ⟨l1, l2, l3, l4, l5, l6⟩ := mread_loop_in_step E (n + 1) s n hwf (Nat.lt_succ_self n)
      h.staging_eq h.counter_eq h.staged_eq hW
    exact ⟨⟨l1, l2, l3, l4 h.overflow_lt⟩, l5, l6⟩
  · have hne : s.plaintext_buf_pos ≠ 0 := hp
    rw [if_pos hne, if_pos hne]
    simp only
    generalize (if s.plaintext_buf_pos < n then s.plaintext_buf_pos else n) = m
    by_cases hrem : s.plaintext_buf_pos - m = 0
    · have hne2 : ¬(s.plaintext_buf_pos - m ≠ 0) := by simpa using hrem
      rw [if_neg hne2, if_neg hne2]
      have hwf0 : basic_ictr.wf E { s with plaintext_buf_pos := 0 } :=
        ⟨hwf.cipher_buf_size, hwf.plaintext_buf_size, hwf.cipher_buf_pos_le, Nat.zero_le _⟩
      obtain ⟨l1, l2, l3, l4, l5, l6⟩ := mread_loop_in_step E (n - m + 1)
        { s with plaintext_buf_pos := 0 } (n - m) hwf0 (Nat.lt_succ_self _)
        h.staging_eq h.counter_eq h.staged_eq hW
      exact ⟨⟨l1, l2, l3, l4 E.block_size_pos⟩, l5, l6⟩
    · have hne2 : s.plaintext_buf_pos - m ≠ 0 := hrem
      rw [if_pos hne2, if_pos hne2]
      have := h.overflow_lt
      exact ⟨⟨h.staging_eq, h.counter_eq, h.staged_eq, by
        show s.plaintext_buf_pos - m < _
        omega⟩, rfl, by simp⟩

/-- A `seek` that returns normally, to an offset that is a `std::size_t` value, leaves the
bookkeeping of the adapter in step with the source. -/
theorem seek_in_step (E : cipher_type) (s : basic_ictr) (t : Nat) (hwf : s.wf E)
    (hL : s.ib.data.length < size_t_card E) (ht : t < size_t_card E)
    (hok : (s.seek E t).2.isSome = true) :
    (s.seek E t).1.in_step E ∧
    (s.seek E t).1.char_counter + (s.seek E t).1.remaining.length < size_t_card E ∧
    ∀ e ∈ s.op_evals E (ictr_op.seek t), e.decrypts_in_place E ∧ e.ib.data = s.ib.data := by
  have hpos := E.block_size_pos
  have hp : to_size_t E t = t := to_size_t_of_lt E ht
  have hq : t / E.block_size * E.block_size ≤ t := Nat.div_mul_le_self _ _
  have hdm := Nat.div_add_mod t E.block_size
  rw [Nat.mul_comm] at hdm
  have hml := Nat.mod_lt t hpos
  simp only [basic_ictr.op_evals]
  by_cases ha : to_size_t E t = to_size_t E t / E.block_size * E.block_size
  · obtain ⟨h1, h2⟩ := seek_of_aligned E s t ha
    rw [h1, h2, hp]
    rw [hp] at ha
    refine ⟨⟨?_, rfl, by simp [basic_ictr.staged], hpos⟩, ?_, by simp⟩
    · show 0 = t % E.block_size
      omega
    · simp only [basic_ictr.remaining, List.length_drop]
      omega
  · by_cases hLt : to_size_t E t ≤ s.ib.data.length
    · obtain ⟨h1, h2⟩ := seek_of_staged E s t ha hLt
      rw [h1, h2, hp]
      rw [hp] at ha hLt
      have hgl : ((s.ib.data.drop (t / E.block_size * E.block_size)).take
          (t - t / E.block_size * E.block_size)).length = t - t / E.block_size * E.block_size := by
        rw [List.length_take, List.length_drop]; omega
      have hwf1 : basic_ictr.wf E
          { s with
            ib := { data := s.ib.data, pos := t }
            cipher_buf := uninitialized_copy (List.replicate E.block_size 0) 0
              ((s.ib.data.drop (t / E.block_size * E.block_size)).take
                (t - t / E.block_size * E.block_size))
            cipher_buf_pos := t - t / E.block_size * E.block_size
            plaintext_buf_pos := 0
            char_counter := t } :=
        ⟨by show (uninitialized_copy _ _ _).length = _
            rw [uninitialized_copy_length (by rw [hgl, List.length_replicate]; omega)]
            simp,
          hwf.plaintext_buf_size, by show t - _ ≤ _; omega, Nat.zero_le _⟩
      have hin1 : basic_ictr.in_step E
          { s with
            ib := { data := s.ib.data, pos := t }
            cipher_buf := uninitialized_copy (List.replicate E.block_size 0) 0
              ((s.ib.data.drop (t / E.block_size * E.block_size)).take
                (t - t / E.block_size * E.block_size))
            cipher_buf_pos := t - t / E.block_size * E.block_size
            plaintext_buf_pos := 0
            char_counter := t } := by
        refine ⟨by show t - _ = t % _; omega, rfl, ?_, hpos⟩
        show (uninitialized_copy _ _ _).take _ = (s.ib.data.drop (t - (t - _))).take _
        have h3 := uninitialized_copy_zero_take (List.replicate E.block_size 0)
          ((s.ib.data.drop (t / E.block_size * E.block_size)).take
            (t - t / E.block_size * E.block_size))
        rw [hgl] at h3
        rw [h3]
        congr 2
        omega
      have hW1 : t + (s.ib.data.drop t).length < size_t_card E := by
        rw [List.length_drop]; omega
      obtain ⟨m1, m2, m3⟩ := mread_in_step E _ (t - t / E.block_size * E.block_size) hwf1 hin1
        hW1
      exact ⟨m1, lt_of_eq_of_lt m2 hW1, m3⟩
    · obtain ⟨h1, -⟩ := seek_of_short E s t ha (by omega)
      rw [h1] at hok
      exact absurd hok (by simp)

theorem call_eq_step (E : cipher_type) (s : basic_ictr) (c : ictr_call) :
    s.call E c = s.step E c.op := by
  cases c <;> rfl

theorem calls_in_step (E : cipher_type) (s : basic_ictr) (cs : List ictr_call)
    (hwf : s.wf E) (h : s.in_step E)
    (hW : s.char_counter + s.remaining.length < size_t_card E)
    (hL : s.ib.data.length < size_t_card E)
    (hoff : ∀ t ∈ seek_offsets cs, t < size_t_card E)
    (hok : basic_ictr.calls_succeed E s cs = true) :
    (s.calls E cs).in_step E ∧
    ∀ e ∈ basic_ictr.run_evals E s (cs.map ictr_call.op),
      e.decrypts_in_place E ∧ e.ib.data = s.ib.data := by
  induction cs generalizing s with
  | nil => exact ⟨h, by simp [basic_ictr.run_evals]⟩
  | cons c cs ih =>
    obtain ⟨w1, -, -, w4⟩ := call_wf E s c hwf
    have hstep : (s.call E c).in_step E ∧
        (s.call E c).char_counter + (s.call E c).remaining.length < size_t_card E ∧
        (∀ e ∈ s.op_evals E c.op, e.decrypts_in_place E ∧ e.ib.data = s.ib.data) ∧
        basic_ictr.calls_succeed E (s.call E c) cs = true ∧
        ∀ t ∈ seek_offsets cs, t < size_t_card E := by
      cases c with
      | reads n =>
        obtain ⟨m1, m2, m3⟩ := mread_in_step E s n hwf h hW
        exact ⟨m1, lt_of_eq_of_lt m2 hW, m3, hok, hoff⟩
      | seek t =>
        simp only [basic_ictr.calls_succeed, Bool.and_eq_true] at hok
        simp only [seek_offsets, List.mem_cons, forall_eq_or_imp] at hoff
        obtain ⟨k1, k2, k3⟩ := seek_in_step E s t hwf hL hoff.1 hok.1
        exact ⟨k1, k2, k3, hok.2, hoff.2⟩
    obtain ⟨s1, s2, s3, s4, s5⟩ := hstep
    obtain ⟨i1, i2⟩ := ih (s.call E c) w1 s1 s2 (by rw [w4]; exact hL) s5 s4
    refine ⟨i1, ?_⟩
    intro e he
    simp only [List.map_cons, basic_ictr.run_evals, List.mem_append] at he
    rcases he with h1 | h1
    · exact s3 e h1
    · rw [← call_eq_step] at h1
      obtain ⟨j1, j2⟩ := i2 e h1
      exact ⟨j1, j2.trans w4⟩

/-- C20 (decrypt bookkeeping invariant). In every state reached from a fresh decrypt adapter
over a source at offset `0` by `reads` calls and `seek` calls that return normally, the number
of bytes in the staging buffer is `char_counter mod block_size`, `char_counter` is the read
position of the source, and the overflow buffer holds fewer than `block_size` bytes; and each
time a full staging block is decrypted, the block is the source block that ends at the read
position, its offset is a multiple of `block_size`, and the block index
`char_counter / block_size - 1` is that offset divided by `block_size`. The length of the
source and the offsets passed to `seek` are `std::size_t` values. -/
theorem decrypt_bookkeeping (E : cipher_type) (key nonce C : block_type)
    (cs : List ictr_call) (hsize : C.length < size_t_card E)
    (hoff : ∀ t ∈ seek_offsets cs, t < size_t_card E)
    (hok : basic_ictr.calls_succeed E
      (basic_ictr.init E key nonce { data := C, pos := 0 }) cs = true) :
    ((basic_ictr.init E key nonce { data := C, pos := 0 }).calls E cs).cipher_buf_pos =
      ((basic_ictr.init E key nonce { data := C, pos := 0 }).calls E cs).char_counter %
        E.block_size ∧
    ((basic_ictr.init E key nonce { data := C, pos := 0 }).calls E cs).char_counter =
      ((basic_ictr.init E key nonce { data := C, pos := 0 }).calls E cs).ib.pos ∧
    ((basic_ictr.init E key nonce { data := C, pos := 0 }).calls E cs).plaintext_buf_pos <
      E.block_size ∧
    ∀ e ∈ basic_ictr.run_evals E (basic_ictr.init E key nonce { data := C, pos := 0 })
        (cs.map ictr_call.op),
      e.char_counter = e.ib.pos ∧
      E.block_size ≤ e.ib.pos ∧
      (e.ib.pos - E.block_size) % E.block_size = 0 ∧
      e.cipher_buf = (C.drop (e.ib.pos - E.block_size)).take E.block_size ∧
      size_t_pred E (e.char_counter / E.block_size) =
        (e.ib.pos - E.block_size) / E.block_size := by
  have hinit : (basic_ictr.init E key nonce { data := C, pos := 0 }).in_step E := by
    refine ⟨?_, rfl, ?_, E.block_size_pos⟩
    · show 0 = 0 % E.block_size
      rw [Nat.zero_mod]
    · simp [basic_ictr.staged, basic_ictr.init]
  obtain ⟨h1, h2⟩ := calls_in_step E _ cs (init_wf E key nonce { data := C, pos := 0 }) hinit
    (by simpa [basic_ictr.init, basic_ictr.remaining] using hsize) hsize hoff hok
  refine ⟨h1.staging_eq, h1.counter_eq, h1.overflow_lt, ?_⟩
  intro e he
  obtain ⟨p, hd⟩ := h2 e he
  have hd2 : e.ib.data = C := hd
  refine ⟨p.counter_eq, p.block_le, p.offset_aligned, ?_, p.index_eq⟩
  rw [← hd2]
  exact p.block_eq

/-- A source of 40 bytes: a read of 3 bytes, a seek to offset 21, a read of 19 bytes. Two
blocks are decrypted, at the read positions 16 and 32. -/
theorem decrypt_bookkeeping_witness :
    ((List.replicate 40 7).length < size_t_card (sum_cipher 15 8) ∧
      (∀ t ∈ seek_offsets [ictr_call.reads 3, ictr_call.seek 21, ictr_call.reads 19],
        t < size_t_card (sum_cipher 15 8)) ∧
      basic_ictr.calls_succeed (sum_cipher 15 8)
        (basic_ictr.init (sum_cipher 15 8) (List.replicate 16 0) (List.replicate 8 0)
          { data := List.replicate 40 7, pos := 0 })
        [ictr_call.reads 3, ictr_call.seek 21, ictr_call.reads 19] = true) ∧
    (basic_ictr.run_evals (sum_cipher 15 8)
        (basic_ictr.init (sum_cipher 15 8) (List.replicate 16 0) (List.replicate 8 0)
          { data := List.replicate 40 7, pos := 0 })
        ([ictr_call.reads 3, ictr_call.seek 21, ictr_call.reads 19].map ictr_call.op)).map
        (fun e => e.ib.pos) = [16, 32] ∧
    (((basic_ictr.init (sum_cipher 15 8) (List.replicate 16 0) (List.replicate 8 0)
        { data := List.replicate 40 7, pos := 0 }).calls (sum_cipher 15 8)
        [ictr_call.reads 3, ictr_call.seek 21, ictr_call.reads 19]).cipher_buf_pos =
      ((basic_ictr.init (sum_cipher 15 8) (List.replicate 16 0) (List.replicate 8 0)
        { data := List.replicate 40 7, pos := 0 }).calls (sum_cipher 15 8)
        [ictr_call.reads 3, ictr_call.seek 21, ictr_call.reads 19]).char_counter %
        (sum_cipher 15 8).block_size ∧
    ((basic_ictr.init (sum_cipher 15 8) (List.replicate 16 0) (List.replicate 8 0)
        { data := List.replicate 40 7, pos := 0 }).calls (sum_cipher 15 8)
        [ictr_call.reads 3, ictr_call.seek 21, ictr_call.reads 19]).char_counter =
      ((basic_ictr.init (sum_cipher 15 8) (List.replicate 16 0) (List.replicate 8 0)
        { data := List.replicate 40 7, pos := 0 }).calls (sum_cipher 15 8)
        [ictr_call.reads 3, ictr_call.seek 21, ictr_call.reads 19]).ib.pos ∧
    ((basic_ictr.init (sum_cipher 15 8) (List.replicate 16 0) (List.replicate 8 0)
        { data := List.replicate 40 7, pos := 0 }).calls (sum_cipher 15 8)
        [ictr_call.reads 3, ictr_call.seek 21, ictr_call.reads 19]).plaintext_buf_pos <
      (sum_cipher 15 8).block_size ∧
    ∀ e ∈ basic_ictr.run_evals (sum_cipher 15 8)
        (basic_ictr.init (sum_cipher 15 8) (List.replicate 16 0) (List.replicate 8 0)
          { data := List.replicate 40 7, pos := 0 })
        ([ictr_call.reads 3, ictr_call.seek 21, ictr_call.reads 19].map ictr_call.op),
      e.char_counter = e.ib.pos ∧
      (sum_cipher 15 8).block_size ≤ e.ib.pos ∧
      (e.ib.pos - (sum_cipher 15 8).block_size) % (sum_cipher 15 8).block_size = 0 ∧
      e.cipher_buf = ((List.replicate 40 7).drop
        (e.ib.pos - (sum_cipher 15 8).block_size)).take (sum_cipher 15 8).block_size ∧
      size_t_pred (sum_cipher 15 8) (e.char_counter / (sum_cipher 15 8).block_size) =
        (e.ib.pos - (sum_cipher 15 8).block_size) / (sum_cipher 15 8).block_size) :=
  ⟨⟨by decide, by decide, by decide⟩, by decide,
    decrypt_bookkeeping (sum_cipher 15 8) (List.replicate 16 0) (List.replicate 8 0)
      (List.replicate 40 7) [ictr_call.reads 3, ictr_call.seek 21, ictr_call.reads 19]
      (by decide) (by decide) (by decide)⟩

/-! ## The evaluations and the output of `mread` -/

/-- The bytes the loop of `mread` stores are the plaintext blocks computed at its evaluations
of `char_counter / block_size - 1`, in order, cut to the room of the destination. -/
theorem mread_loop_output_eq_evals (E : cipher_type) (fuel : Nat) (s : basic_ictr)
    (room : Nat) (hwf : s.wf E) (hfuel : room < fuel) :
    (basic_ictr.mread_loop E fuel s room).2 =
      ((basic_ictr.mread_loop_evals E fuel s room).flatMap
        (basic_ictr.decrypt_staged E)).take room := by
  induction fuel generalizing s room with
  | zero => omega
  | succ fuel ih =>
    have hpos := E.block_size_pos
    have hcb := hwf.cipher_buf_size
    have hcp := hwf.cipher_buf_pos_le
    rw [mread_loop_succ, mread_loop_evals_succ]
    by_cases hroom : room = 0
    · rw [if_pos hroom, if_pos hroom]; simp
    · rw [if_neg hroom, if_neg hroom]
      obtain ⟨-, -, -, -, h5, -⟩ := source_reads_remaining s.ib
        (E.block_size - s.cipher_buf_pos)
      simp only
      generalize s.ib.reads (E.block_size - s.cipher_buf_pos) = r at h5 ⊢
      by_cases hfull : s.cipher_buf_pos + r.1.length = E.block_size
      · have hne : ¬(s.cipher_buf_pos + r.1.length ≠ E.block_size) := by simpa using hfull
        rw [if_neg hne, if_neg hne]
        have hbl : (uninitialized_copy s.cipher_buf s.cipher_buf_pos r.1).length =
            E.block_size := by
          rw [uninitialized_copy_length (by omega)]; exact hcb
        have hpl : (xor_block (keystream E s.key s.nonce
            (size_t_pred E (to_size_t E (s.char_counter + r.1.length) / E.block_size)))
            (uninitialized_copy s.cipher_buf s.cipher_buf_pos r.1)).length = E.block_size := by
          rw [xor_block_length (by rw [keystream_length, hbl]), keystream_length]
        by_cases hroomlt : room < E.block_size
        · rw [if_pos hroomlt, if_pos hroomlt]
          simp [basic_ictr.decrypt_staged]
        · rw [if_neg hroomlt, if_neg hroomlt]
          have hwf2 : basic_ictr.wf E
              { s with
                cipher_buf := uninitialized_copy s.cipher_buf s.cipher_buf_pos r.1
                cipher_buf_pos := 0
                char_counter := to_size_t E (s.char_counter + r.1.length)
                ib := r.2 } :=
            ⟨hbl, hwf.plaintext_buf_size, Nat.zero_le _, hwf.plaintext_buf_pos_le⟩
          have hi := ih _ (room - E.block_size) hwf2 (by omega)
          simp only [List.flatMap_cons] at hi ⊢
          have hpl2 : (basic_ictr.decrypt_staged E
              { s with
                cipher_buf := uninitialized_copy s.cipher_buf s.cipher_buf_pos r.1
                cipher_buf_pos := s.cipher_buf_pos + r.1.length
                char_counter := to_size_t E (s.char_counter + r.1.length)
                ib := r.2 }).length = E.block_size := hpl
          have hplain : basic_ictr.decrypt_staged E
              { s with
                cipher_buf := uninitialized_copy s.cipher_buf s.cipher_buf_pos r.1
                cipher_buf_pos := s.cipher_buf_pos + r.1.length
                char_counter := to_size_t E (s.char_counter + r.1.length)
                ib := r.2 } =
              xor_block (keystream E s.key s.nonce
                (size_t_pred E (to_size_t E (s.char_counter + r.1.length) / E.block_size)))
                (uninitialized_copy s.cipher_buf s.cipher_buf_pos r.1) := rfl
          have e1 := @List.take_of_length_le _ room _ (show (basic_ictr.decrypt_staged E
              { s with
                cipher_buf := uninitialized_copy s.cipher_buf s.cipher_buf_pos r.1
                cipher_buf_pos := s.cipher_buf_pos + r.1.length
                char_counter := to_size_t E (s.char_counter + r.1.length)
                ib := r.2 }).length ≤ room by rw [hpl2]; omega)
          rw [hi, List.take_append_eq_append_take, hpl2, e1, hplain]
      · have hne : s.cipher_buf_pos + r.1.length ≠ E.block_size := hfull
        rw [if_pos hne, if_pos hne]; simp

end Ctr
